import Mathlib

/-! Bounded reader/writer queue (`queue.h`).

A shallow embedding of the class template `Queue<T>` of `queue.h` and the
properties of its specification.

* The fields of the class are the fields of `Queue`; the mutex and the two
  condition variables carry no data and are represented by the atomicity
  of the step functions below.
* `int` values are modelled by `Int`.  The only arithmetic is `++m_count`
  and `--m_count`; the increment is executed with `m_count < m_size`, so
  it never leaves the range of `int` (see `QueueInv` and its
  preservation).
* `T{}` is `default` of an `Inhabited T`.
* `m_queue.front()` on an empty deque is undefined behaviour; the model
  returns `none` there.
-/

namespace QueueRW

/-- The data members of `Queue<T>` (queue.h, lines 107-116). -/
structure Queue (T : Type) where
  m_count : Int
  m_size : Int
  m_queue : List T
  m_poppedElement : T
  m_isInited : Bool
deriving DecidableEq

variable {T : Type}

/-- The constructor `Queue(int size)` (lines 18-27): the default member
initialisers, then `m_size = size` when `size > 0`.  The member
`m_poppedElement` is default-initialised, which for a class type such as
`Element` of the tests is `T{}`. -/
def Queue.ctor [Inhabited T] (size : Int) : Queue T :=
  let q0 : Queue T :=
    { m_count := 0, m_size := 0, m_queue := [], m_poppedElement := default, m_isInited := false }
  if size > 0 then { q0 with m_size := size } else q0

/-- The method `Count()` (lines 29-32). -/
def Count (q : Queue T) : Int := q.m_count

/-- The method `Size()` (line 33). -/
def Size (q : Queue T) : Int := q.m_size

/-! ## Sequential semantics

With a single thread nothing changes the queue while a call waits, so
`wait_for(locker, t, checker)` returns `checker()` evaluated on the state
in which the wait started. -/

/-- Lines 54-56 of `Push`: `push_back` and `++m_count`. -/
def pushStore (q : Queue T) (element : T) : Queue T :=
  { q with m_queue := q.m_queue ++ [element], m_count := q.m_count + 1 }

/-- Single-threaded `Push(element)` (lines 35-62). -/
def Push (q : Queue T) (element : T) : Queue T :=
  if q.m_size ≤ 0 then q
  else if q.m_count = q.m_size then
    let result := decide (q.m_count < q.m_size)
    if result then pushStore q element else q
  else pushStore q element

/-- Lines 84-103 of `Pop` in single-threaded use: the staging guard, the
removal of the front element, and for a full queue the hand-over through
`m_poppedElement` (set, unlock, notify, lock again, clear `m_isInited`,
return `m_poppedElement`).  The result is `none` when `front()` is called
on an empty deque. -/
def popTake [Inhabited T] (q : Queue T) : Option (T × Queue T) :=
  let isFull := decide (q.m_count = q.m_size)
  if isFull && q.m_isInited then some (default, q)
  else
    match q.m_queue with
    | [] => none
    | element :: rest =>
      let q1 : Queue T := { q with m_queue := rest, m_count := q.m_count - 1 }
      if !isFull then some (element, q1)
      else
        let q2 : Queue T := { q1 with m_poppedElement := element, m_isInited := true }
        let q3 : Queue T := { q2 with m_isInited := false }
        some (q3.m_poppedElement, q3)

/-- Single-threaded `Pop()` (lines 64-104). -/
def Pop [Inhabited T] (q : Queue T) : Option (T × Queue T) :=
  if q.m_size ≤ 0 then some (default, q)
  else if q.m_count = 0 then
    let result := decide (q.m_count > 0)
    if result then popTake q else some (default, q)
  else popTake q

/-- A call of the public interface that changes the queue. -/
inductive Op (T : Type) where
  | push (element : T)
  | pop
deriving DecidableEq

/-- What a caller sees of one call: the value returned (`none` for the
`void` method `Push`), then `Count()` and `Size()` read right after it. -/
structure Obs (T : Type) where
  ret : Option T
  count : Int
  size : Int
deriving DecidableEq

/-- One call on the queue, with its observation. -/
def applyOp [Inhabited T] (q : Queue T) : Op T → Option (Obs T × Queue T)
  | .push element =>
    let q1 := Push q element
    some ({ ret := none, count := Count q1, size := Size q1 }, q1)
  | .pop =>
    match Pop q with
    | none => none
    | some (r, q1) => some ({ ret := some r, count := Count q1, size := Size q1 }, q1)

/-- A sequence of calls made one after the other by one thread. -/
def runOps [Inhabited T] (q : Queue T) : List (Op T) → Option (List (Obs T) × Queue T)
  | [] => some ([], q)
  | op :: rest =>
    match applyOp q op with
    | none => none
    | some (o, q1) =>
      match runOps q1 rest with
      | none => none
      | some (os, q2) => some (o :: os, q2)

/-! ## Interleaving semantics

Several threads call `Push` and `Pop` on one queue.  Every stretch of code
that runs with `m_mutex` held is one atomic step.  A call blocked inside
`wait_for` may be woken at any time (by a notification, spuriously, or by
its timer), takes the lock and evaluates its predicate; `expired` says
whether the timer has run out at that wake-up.  `notify_one` changes no
data, so it is recorded only in the final program point of a call.  The
system holds one entry per call; a thread that makes several calls one
after the other is the case where the scheduler starts a call only after
the previous one of that thread has returned. -/

/-- Program points of one call, between its atomic steps.  `popStaged`
carries the element the call removed from the buffer (the local variable
`element` before it is moved into `m_poppedElement`). -/
inductive Pc (T : Type) where
  | pushEntry (element : T)
  | pushWaiting (element : T)
  | pushDone (stored waited notified : Bool)
  | popEntry
  | popWaiting
  | popStaged (removed : T)
  | popDone (ret : T) (notified : Bool)
deriving DecidableEq

/-- Lines 54-61 of `Push` under the lock: store the element and return,
notifying `m_readingCV` when the buffer was empty. -/
def pushStoreStep (q : Queue T) (element : T) (waited : Bool) : Queue T × Pc T :=
  let isEmpty := decide (q.m_count = 0)
  (pushStore q element, .pushDone true waited isEmpty)

/-- Lines 84-97 of `Pop` under the lock: staging guard, removal of the
front element, direct return or staging.  It is `none` when `front()` is
called on an empty deque. -/
def popTakeStep [Inhabited T] (q : Queue T) : Option (Queue T × Pc T) :=
  let isFull := decide (q.m_count = q.m_size)
  if isFull && q.m_isInited then some (q, .popDone default false)
  else
    match q.m_queue with
    | [] => none
    | element :: rest =>
      let q1 : Queue T := { q with m_queue := rest, m_count := q.m_count - 1 }
      if !isFull then some (q1, .popDone element false)
      else some ({ q1 with m_poppedElement := element, m_isInited := true }, .popStaged element)

/-- One atomic step of a call at program point `pc` on the shared queue `q`.
A finished call takes no further step. -/
def stepCall [Inhabited T] (expired : Bool) (q : Queue T) : Pc T → Option (Queue T × Pc T)
  | .pushEntry element =>
    if q.m_size ≤ 0 then some (q, .pushDone false false false)
    else if q.m_count = q.m_size then
      if q.m_count < q.m_size then some (pushStoreStep q element false)
      else some (q, .pushWaiting element)
    else some (pushStoreStep q element false)
  | .pushWaiting element =>
    if q.m_count < q.m_size then some (pushStoreStep q element true)
    else if expired then some (q, .pushDone false true false)
    else some (q, .pushWaiting element)
  | .pushDone s w n => some (q, .pushDone s w n)
  | .popEntry =>
    if q.m_size ≤ 0 then some (q, .popDone default false)
    else if q.m_count = 0 then
      if q.m_count > 0 then popTakeStep q
      else some (q, .popWaiting)
    else popTakeStep q
  | .popWaiting =>
    if q.m_count > 0 then popTakeStep q
    else if expired then some (q, .popDone default false)
    else some (q, .popWaiting)
  | .popStaged _ => some ({ q with m_isInited := false }, .popDone q.m_poppedElement true)
  | .popDone r n => some (q, .popDone r n)

/-- The shared queue and the program point of every call. -/
structure Sys (T : Type) where
  q : Queue T
  calls : List (Pc T)
deriving DecidableEq

/-- The scheduler lets call number `i` take its next atomic step.  An index
that names no call leaves the system as it is; the result is `none` only
when the step calls `front()` on an empty deque. -/
def Sys.step [Inhabited T] (s : Sys T) (i : Nat) (expired : Bool) : Option (Sys T) :=
  match s.calls[i]? with
  | none => some s
  | some pc =>
    match stepCall expired s.q pc with
    | none => none
    | some (q1, pc1) => some { q := q1, calls := s.calls.set i pc1 }

/-- A schedule: which call steps next, and whether its timer has expired. -/
def Sys.run [Inhabited T] (s : Sys T) : List (Nat × Bool) → Option (Sys T)
  | [] => some s
  | (i, expired) :: rest =>
    match s.step i expired with
    | none => none
    | some s1 => s1.run rest

/-- A call that has returned. -/
def Pc.isDone : Pc T → Bool
  | .pushDone _ _ _ => true
  | .popDone _ _ => true
  | _ => false

/-- A `Push` that has returned after storing its element. -/
def Pc.isStored : Pc T → Bool
  | .pushDone true _ _ => true
  | _ => false

/-- A `Push` that has returned without storing, after its timed wait. -/
def Pc.isDroppedAfterWait : Pc T → Bool
  | .pushDone false true _ => true
  | _ => false

/-- A single call run alone: its steps are taken one after the other and
the timer of a wait expires with the queue unchanged. -/
def runAlone [Inhabited T] (q : Queue T) (pc : Pc T) : Nat → Option (Queue T × Pc T)
  | 0 => some (q, pc)
  | n + 1 =>
    match stepCall true q pc with
    | none => none
    | some (q1, pc1) => runAlone q1 pc1 n

/-! ## Reference bounded FIFO list (from the specification) -/

/-- Reference `Push`: append when the list has fewer than `c` elements,
otherwise change nothing. -/
def refPush (c : Int) (l : List T) (x : T) : List T :=
  if (l.length : Int) < c then l ++ [x] else l

/-- Reference `Pop`: remove and return the head of a non-empty list,
otherwise return the default value. -/
def refPop [Inhabited T] (l : List T) : T × List T :=
  match l with
  | [] => (default, [])
  | x :: rest => (x, rest)

/-- The reference list run over a sequence of calls, with the value each
call returns and the length of the list after it. -/
def refRun [Inhabited T] (c : Int) (l : List T) : List (Op T) → List (Option T × Int) × List T
  | [] => ([], l)
  | .push x :: rest =>
    let l1 := refPush c l x
    let r := refRun c l1 rest
    ((none, (l1.length : Int)) :: r.1, r.2)
  | .pop :: rest =>
    let p := refPop l
    let r := refRun c p.2 rest
    ((some p.1, (p.2.length : Int)) :: r.1, r.2)

/-- The representation invariant of the specification:
`0 ≤ count ≤ capacity` and `length(buffer) = count`. -/
def QueueInv (q : Queue T) : Prop :=
  0 ≤ q.m_count ∧ q.m_count ≤ q.m_size ∧ (q.m_queue.length : Int) = q.m_count

instance (q : Queue T) : Decidable (QueueInv q) := by
  unfold QueueInv; infer_instance

/-- The queues a single thread can see between calls: the capacity is `c`,
the representation invariant holds and no hand-over is in flight. -/
def SeqInv (c : Int) (q : Queue T) : Prop :=
  q.m_size = c ∧ QueueInv q ∧ q.m_isInited = false

/-- A call that has not taken its first step. -/
def Pc.isEntry : Pc T → Bool
  | .pushEntry _ => true
  | .popEntry => true
  | _ => false

/-- Call number `i` is a `Pop` between its staging write and its final
locked read, and `e` is the element it removed from the buffer. -/
def Sys.stagedAt (s : Sys T) (i : Nat) (e : T) : Prop :=
  s.calls[i]? = some (Pc.popStaged e)

/-- Staging exclusivity: at most one `Pop` is between its staging write and
its final read, `m_isInited` is true exactly when there is one, and
`m_poppedElement` then holds the element that `Pop` removed. -/
def StagingInv (s : Sys T) : Prop :=
  (∀ i j e1 e2, s.stagedAt i e1 → s.stagedAt j e2 → i = j) ∧
  (s.q.m_isInited = true ↔ ∃ i e, s.stagedAt i e) ∧
  (∀ i e, s.stagedAt i e → s.q.m_poppedElement = e)

/-- A program point of `Push` that can occur when only producers run;
`full` says whether the queue is full: a producer waits, or has given up
after its wait, only on a full queue. -/
def Pc.okProducer (full : Bool) : Pc T → Bool
  | .pushEntry _ => true
  | .pushWaiting _ => full
  | .pushDone true _ _ => true
  | .pushDone false waited _ => waited && full
  | _ => false

/-- The states reached when only producers run on a queue of capacity `c`:
the representation invariant, the capacity, and the count equal to the
number of producers that have stored their element. -/
def ProducersInv (c : Int) (s : Sys T) : Prop :=
  QueueInv s.q ∧ s.q.m_size = c ∧
  ((s.calls.countP Pc.isStored : Nat) : Int) = s.q.m_count ∧
  s.calls.all (Pc.okProducer (decide (s.q.m_count = c))) = true

/-- The schedule that lets the calls `0 .. n-1` take two steps each, in
turn, with the timer of every wait expired. -/
def finishSched : Nat → List (Nat × Bool)
  | 0 => []
  | n + 1 => finishSched n ++ [(n, true), (n, true)]

/-- A program point of `Pop` that can occur when only consumers run;
`nonempty` says whether the queue holds an element: a consumer waits only
on an empty queue. -/
def Pc.okConsumer (nonempty : Bool) : Pc T → Bool
  | .popEntry => true
  | .popWaiting => !nonempty
  | .popStaged _ => true
  | .popDone _ _ => true
  | _ => false

/-- A `Pop` that is past the locked section entered at line 70. -/
def Pc.isPastEntry : Pc T → Bool
  | .popStaged _ => true
  | .popDone _ _ => true
  | _ => false

/-- The states reached when only consumers run on a queue of capacity `c`
that was full and had no hand-over in flight: the flag `m_isInited` is set
only below capacity, and while elements remain every call that has left
its entry has removed one element. -/
def ConsumersInv (c : Int) (s : Sys T) : Prop :=
  QueueInv s.q ∧ s.q.m_size = c ∧
  (s.q.m_isInited = true → s.q.m_count < c) ∧
  s.calls.all (Pc.okConsumer (decide (0 < s.q.m_count))) = true ∧
  (0 < s.q.m_count → s.q.m_count + ((s.calls.countP Pc.isPastEntry : Nat) : Int) = c)

/-- Lines 89-93 of `Pop`, the path of a queue that is not full: the front
element is removed and returned at once.  It is `none` when `front()` is
called on an empty deque. -/
def popDirect (q : Queue T) : Option (T × Queue T) :=
  match q.m_queue with
  | [] => none
  | element :: rest => some (element, { q with m_queue := rest, m_count := q.m_count - 1 })

/-! ## Synchronisation actions

What a call does to `m_mutex` and to the two condition variables, in
program order.  Going to sleep inside `wait_for` releases the mutex and a
wake-up takes it again; a `return` inside a locked block releases it when
the `unique_lock` or `lock_guard` goes out of scope. -/

/-- An action of a call on `m_mutex`, `m_readingCV` or `m_writingCV`. -/
inductive SyncEv where
  | lock
  | unlock
  | notifyReading
  | notifyWriting
deriving DecidableEq

/-- Lines 54-61 of `Push` after the mutex has been taken: with a buffer
that was not empty the call returns inside the block (line 58), which
releases the mutex; otherwise the block is left (line 60), which releases
the mutex, and `m_readingCV.notify_one()` follows (line 61). -/
def pushStoreEvents (q : Queue T) : List SyncEv :=
  let isEmpty := decide (q.m_count = 0)
  if !isEmpty then [SyncEv.unlock] else [SyncEv.unlock, SyncEv.notifyReading]

/-- Lines 84-98 of `Pop` after the mutex has been taken: the returns at
lines 87 and 93 release the mutex; the staged path leaves the block (line
97), which releases the mutex, and `m_writingCV.notify_one()` follows
(line 98). -/
def popTakeEvents (q : Queue T) : List SyncEv :=
  let isFull := decide (q.m_count = q.m_size)
  if isFull && q.m_isInited then [SyncEv.unlock]
  else
    match q.m_queue with
    | [] => []
    | _ :: _ => if !isFull then [SyncEv.unlock] else [SyncEv.unlock, SyncEv.notifyWriting]

/-- The synchronisation actions of the atomic step `stepCall expired q pc`,
followed by what the call does after the release of the mutex up to its
next locked section or its return. -/
def stepEvents (expired : Bool) (q : Queue T) : Pc T → List SyncEv
  | .pushEntry _ =>
    if q.m_size ≤ 0 then []
    else if q.m_count = q.m_size then
      if q.m_count < q.m_size then SyncEv.lock :: pushStoreEvents q
      else [SyncEv.lock, SyncEv.unlock]
    else SyncEv.lock :: pushStoreEvents q
  | .pushWaiting _ =>
    if q.m_count < q.m_size then SyncEv.lock :: pushStoreEvents q
    else if expired then [SyncEv.lock, SyncEv.unlock]
    else [SyncEv.lock, SyncEv.unlock]
  | .pushDone _ _ _ => []
  | .popEntry =>
    if q.m_size ≤ 0 then []
    else if q.m_count = 0 then
      if q.m_count > 0 then SyncEv.lock :: popTakeEvents q
      else [SyncEv.lock, SyncEv.unlock]
    else SyncEv.lock :: popTakeEvents q
  | .popWaiting =>
    if q.m_count > 0 then SyncEv.lock :: popTakeEvents q
    else if expired then [SyncEv.lock, SyncEv.unlock]
    else [SyncEv.lock, SyncEv.unlock]
  | .popStaged _ => [SyncEv.lock, SyncEv.unlock]
  | .popDone _ _ => []

/-- Whether the call holds `m_mutex` after the actions, given whether it
held it before. -/
def lockHeld : Bool → List SyncEv → Bool
  | held, [] => held
  | _, SyncEv.lock :: rest => lockHeld true rest
  | _, SyncEv.unlock :: rest => lockHeld false rest
  | held, SyncEv.notifyReading :: rest => lockHeld held rest
  | held, SyncEv.notifyWriting :: rest => lockHeld held rest

/-- Every notification among the actions is issued while the call does not
hold `m_mutex`. -/
def notifiesUnlocked : Bool → List SyncEv → Bool
  | _, [] => true
  | _, SyncEv.lock :: rest => notifiesUnlocked true rest
  | _, SyncEv.unlock :: rest => notifiesUnlocked false rest
  | held, SyncEv.notifyReading :: rest => !held && notifiesUnlocked held rest
  | held, SyncEv.notifyWriting :: rest => !held && notifiesUnlocked held rest

/-- The synchronisation actions of a call run alone for `n` steps (see
`runAlone`). -/
def runAloneEvents [Inhabited T] (q : Queue T) (pc : Pc T) : Nat → List SyncEv
  | 0 => []
  | n + 1 =>
    match stepCall true q pc with
    | none => stepEvents true q pc
    | some (q1, pc1) => stepEvents true q pc ++ runAloneEvents q1 pc1 n

/-- The synchronisation actions of call number `i` along a schedule. -/
def Sys.eventsOf [Inhabited T] (s : Sys T) (i : Nat) : List (Nat × Bool) → List SyncEv
  | [] => []
  | (j, expired) :: rest =>
    let mine : List SyncEv :=
      if j = i then
        match s.calls[i]? with
        | none => []
        | some pc => stepEvents expired s.q pc
      else []
    match s.step j expired with
    | none => mine
    | some s1 => mine ++ s1.eventsOf i rest

/-- The flag of a returned call that says whether it reached its
`notify_one`. -/
def Pc.notified : Pc T → Bool
  | .pushDone _ _ n => n
  | .popDone _ n => n
  | _ => false

/-- A program point of `Push`. -/
def Pc.isPush : Pc T → Bool
  | .pushEntry _ => true
  | .pushWaiting _ => true
  | .pushDone _ _ _ => true
  | _ => false

/-! ## Sequential behaviour of `Push` and `Pop` -/

theorem Push_of_disabled (q : Queue T) (x : T) (h : q.m_size ≤ 0) : Push q x = q := by
  simp [Push, h]

theorem Push_of_full (q : Queue T) (x : T) (h : q.m_count = q.m_size) : Push q x = q := by
  simp [Push, h]

theorem Push_of_ne (q : Queue T) (x : T) (h1 : 0 < q.m_size) (h2 : q.m_count ≠ q.m_size) :
    Push q x = pushStore q x := by
  simp [Push, h2, not_le.mpr h1]

theorem Pop_of_disabled [Inhabited T] (q : Queue T) (h : q.m_size ≤ 0) :
    Pop q = some (default, q) := by
  simp [Pop, h]

theorem Pop_of_empty [Inhabited T] (q : Queue T) (h : q.m_count = 0) :
    Pop q = some (default, q) := by
  simp [Pop, h]

theorem Pop_of_cons [Inhabited T] (q : Queue T) (x : T) (rest : List T)
    (h1 : 0 < q.m_size) (h2 : q.m_count ≠ 0) (h3 : q.m_isInited = false)
    (h4 : q.m_queue = x :: rest) :
    Pop q = some (x, { q with
      m_queue := rest, m_count := q.m_count - 1,
      m_poppedElement := if q.m_count = q.m_size then x else q.m_poppedElement }) := by
  obtain ⟨cnt, sz, buf, pe, ini⟩ := q
  simp only at h1 h2 h3 h4
  subst h3 h4
  by_cases hf : cnt = sz
  · simp [Pop, popTake, hf, not_le.mpr h1, h2]
  · simp [Pop, popTake, hf, not_le.mpr h1, h2]


theorem SeqInv_ctor [Inhabited T] (c : Int) (hc : 0 < c) : SeqInv c (Queue.ctor c : Queue T) := by
  simp [SeqInv, QueueInv, Queue.ctor, hc, le_of_lt hc]

theorem SeqInv_Push (c : Int) (hc : 0 < c) (q : Queue T) (x : T) (h : SeqInv c q) :
    SeqInv c (Push q x) ∧ (Push q x).m_queue = refPush c q.m_queue x := by
  obtain ⟨hs, ⟨h0, h1, h2⟩, hi⟩ := h
  by_cases hf : q.m_count = q.m_size
  · rw [Push_of_full q x hf]
    refine ⟨⟨hs, ⟨h0, h1, h2⟩, hi⟩, ?_⟩
    have : ¬ ((q.m_queue.length : Int) < c) := by omega
    simp [refPush, this]
  · rw [Push_of_ne q x (by omega) hf]
    refine ⟨⟨hs, ⟨?_, ?_, ?_⟩, hi⟩, ?_⟩
    · simp only [pushStore]; omega
    · simp only [pushStore]; omega
    · simp only [pushStore, List.length_append, List.length_singleton]; push_cast; omega
    · have : (q.m_queue.length : Int) < c := by omega
      simp [refPush, this, pushStore]

theorem SeqInv_Pop [Inhabited T] (c : Int) (hc : 0 < c) (q : Queue T) (h : SeqInv c q) :
    ∃ q1, Pop q = some ((refPop q.m_queue).1, q1) ∧ SeqInv c q1 ∧
      q1.m_queue = (refPop q.m_queue).2 := by
  obtain ⟨hs, ⟨h0, h1, h2⟩, hi⟩ := h
  cases hq : q.m_queue with
  | nil =>
    have hz : q.m_count = 0 := by simp [hq] at h2; omega
    refine ⟨q, ?_, ⟨hs, ⟨h0, h1, h2⟩, hi⟩, ?_⟩
    · rw [Pop_of_empty q hz]; simp [refPop]
    · simp [refPop, hq]
  | cons x rest =>
    have hz : q.m_count ≠ 0 := by simp [hq] at h2; omega
    rw [Pop_of_cons q x rest (by omega) hz hi hq]
    refine ⟨_, rfl, ⟨hs, ⟨?_, ?_, ?_⟩, hi⟩, rfl⟩
    · simp only; omega
    · simp only; omega
    · simp only; simp [hq] at h2; omega

theorem runOps_refines [Inhabited T] (c : Int) (hc : 0 < c) (ops : List (Op T)) :
    ∀ q : Queue T, SeqInv c q →
      ∃ os q1, runOps q ops = some (os, q1) ∧ SeqInv c q1 ∧
        os.map (fun o => (o.ret, o.count)) = (refRun c q.m_queue ops).1 ∧
        q1.m_queue = (refRun c q.m_queue ops).2 := by
  induction ops with
  | nil => intro q h; exact ⟨[], q, rfl, h, rfl, rfl⟩
  | cons op rest ih =>
    intro q h
    cases op with
    | push x =>
      obtain ⟨hP, hq⟩ := SeqInv_Push c hc q x h
      obtain ⟨os, q1, hr, hi, ho, hb⟩ := ih (Push q x) hP
      refine ⟨{ ret := none, count := Count (Push q x), size := Size (Push q x) } :: os, q1,
        by simp [runOps, applyOp, hr], hi, ?_, ?_⟩
      · simp only [List.map_cons, refRun, ho, hq, Count]
        rw [← hq, hP.2.1.2.2]
      · simp only [refRun, hb, hq]
    | pop =>
      obtain ⟨q0, hP, hI, hq⟩ := SeqInv_Pop c hc q h
      obtain ⟨os, q1, hr, hi, ho, hb⟩ := ih q0 hI
      refine ⟨{ ret := some (refPop q.m_queue).1, count := Count q0, size := Size q0 } :: os, q1,
        by simp [runOps, applyOp, hP, hr], hi, ?_, ?_⟩
      · simp only [List.map_cons, refRun, ho, hq, Count]
        rw [← hq, hI.2.1.2.2]
      · simp only [refRun, hb, hq]

/-- C1: for every capacity `c > 0` and every finite sequence of `Push` and
`Pop` calls made by one thread on a freshly constructed `Queue(c)`, the
calls all return, each `Pop` returns what the reference bounded FIFO list
returns, `Count()` after every call is the length of the reference list,
and the buffer at the end is the reference list. -/
theorem C1_sequential_fifo_refinement [Inhabited T] (c : Int) (hc : 0 < c) (ops : List (Op T)) :
    ∃ os q1, runOps (Queue.ctor c : Queue T) ops = some (os, q1) ∧
      os.map (fun o => (o.ret, o.count)) = (refRun c [] ops).1 ∧
      q1.m_queue = (refRun c [] ops).2 ∧
      Count q1 = (((refRun c [] ops).2.length : Nat) : Int) := by
  obtain ⟨os, q1, hr, hi, ho, hb⟩ := runOps_refines c hc ops (Queue.ctor c) (SeqInv_ctor c hc)
  have hnil : (Queue.ctor c : Queue T).m_queue = [] := by simp [Queue.ctor, hc]
  rw [hnil] at ho hb
  exact ⟨os, q1, hr, ho, hb, by rw [← hb]; exact hi.2.1.2.2.symm⟩

/-- Witness of C1: capacity 2, calls push 1, push 2, push 3, pop, pop, pop. -/
theorem C1_sequential_fifo_refinement_witness :
    (0 : Int) < 2 ∧
    ∃ os q1, runOps (Queue.ctor 2 : Queue Int)
        [.push 1, .push 2, .push 3, .pop, .pop, .pop] = some (os, q1) ∧
      os.map (fun o => (o.ret, o.count)) =
        (refRun 2 [] [.push 1, .push 2, .push 3, .pop, .pop, .pop]).1 ∧
      q1.m_queue = (refRun 2 [] [.push 1, .push 2, .push 3, .pop, .pop, .pop]).2 ∧
      Count q1 = (((refRun 2 [] [Op.push (1 : Int), .push 2, .push 3, .pop, .pop, .pop]).2.length : Nat) : Int) :=
  ⟨by decide, C1_sequential_fifo_refinement 2 (by decide) _⟩

theorem runOps_append [Inhabited T] (a b : List (Op T)) :
    ∀ (q q1 q2 : Queue T) (os1 os2 : List (Obs T)),
      runOps q a = some (os1, q1) → runOps q1 b = some (os2, q2) →
      runOps q (a ++ b) = some (os1 ++ os2, q2) := by
  induction a with
  | nil =>
    intro q q1 q2 os1 os2 h1 h2
    simp only [runOps, Option.some.injEq, Prod.mk.injEq] at h1
    obtain ⟨rfl, rfl⟩ := h1
    simpa using h2
  | cons op rest ih =>
    intro q q1 q2 os1 os2 h1 h2
    simp only [List.cons_append, runOps] at h1 ⊢
    cases ha : applyOp q op with
    | none => simp [ha] at h1
    | some p =>
      obtain ⟨o, q0⟩ := p
      simp only [ha] at h1 ⊢
      cases hr : runOps q0 rest with
      | none => simp [hr] at h1
      | some p1 =>
        obtain ⟨os, q3⟩ := p1
        simp only [hr, Option.some.injEq, Prod.mk.injEq] at h1
        obtain ⟨rfl, rfl⟩ := h1
        simp [ih q0 q3 q2 os os2 hr h2]

theorem runOps_pushes (c : Int) (hc : 0 < c) [Inhabited T] (xs : List T) :
    ∀ q : Queue T, SeqInv c q →
      ∃ q1, runOps q (xs.map Op.push) =
          some ((List.range xs.length).map
            (fun (i : Nat) => ({ ret := none, count := min (q.m_count + (i : Int) + 1) c, size := c } : Obs T)), q1) ∧
        SeqInv c q1 ∧ q1.m_queue = (q.m_queue ++ xs).take c.toNat := by
  induction xs with
  | nil =>
    intro q h
    refine ⟨q, rfl, h, ?_⟩
    have := h.2.1.2.2
    have hle := h.2.1.2.1
    rw [h.1] at hle
    rw [List.append_nil, List.take_of_length_le]
    omega
  | cons x rest ih =>
    intro q h
    obtain ⟨hP, hq⟩ := SeqInv_Push c hc q x h
    obtain ⟨q1, hr, hi, hb⟩ := ih (Push q x) hP
    have hlen := h.2.1.2.2
    have hle := h.2.1.2.1
    rw [h.1] at hle
    have hcnt : (Push q x).m_count = min (q.m_count + 1) c := by
      have := hP.2.1.2.2
      rw [← this, hq]
      unfold refPush
      split
      · simp only [List.length_append, List.length_singleton]; push_cast; omega
      · omega
    refine ⟨q1, ?_, hi, ?_⟩
    · simp only [List.map_cons, runOps, applyOp, hr, List.length_cons, List.range_succ_eq_map,
        List.map_map, Count, Size, hP.1, hcnt]
      simp only [Option.some.injEq, Prod.mk.injEq, List.cons.injEq, and_true]
      refine ⟨by simp, ?_⟩
      apply List.map_congr_left
      intro i _
      simp only [Function.comp, Nat.succ_eq_add_one]
      congr 1
      push_cast
      have hnn := h.2.1.1
      omega
    · rw [hb, hq]
      unfold refPush
      split
      · simp
      · have hl : q.m_queue.length = c.toNat := by omega
        rw [List.take_left' hl, List.take_left' hl]


theorem runOps_pops (c : Int) (hc : 0 < c) [Inhabited T] (m : Nat) :
    ∀ q : Queue T, SeqInv c q →
      ∃ os q1, runOps q (List.replicate m Op.pop) = some (os, q1) ∧
        SeqInv c q1 ∧ q1.m_queue = q.m_queue.drop m ∧
        os.map (fun o => o.ret) =
          (q.m_queue.take m).map some ++ List.replicate (m - q.m_queue.length) (some default) ∧
        os.map (fun o => o.count) =
          (List.range m).map (fun (i : Nat) => max (q.m_count - ((i : Int) + 1)) 0) ∧
        os.map (fun o => o.size) = List.replicate m c := by
  induction m with
  | zero => intro q h; exact ⟨[], q, rfl, h, rfl, by simp, rfl, rfl⟩
  | succ m ih =>
    intro q h
    obtain ⟨q0, hP, hI, hq⟩ := SeqInv_Pop c hc q h
    obtain ⟨os, q1, hr, hi, hb, hret, hcnt, hsz⟩ := ih q0 hI
    have hlen := h.2.1.2.2
    have hlen0 := hI.2.1.2.2
    refine ⟨{ ret := some (refPop q.m_queue).1, count := Count q0, size := Size q0 } :: os, q1,
      by simp [List.replicate_succ, runOps, applyOp, hP, hr], hi, ?_, ?_, ?_, ?_⟩
    · rw [hb, hq]; cases q.m_queue <;> simp [refPop]
    · simp only [List.map_cons, hret, hq]
      cases q.m_queue with
      | nil => simp [refPop, List.replicate_succ]
      | cons x rest => simp [refPop]
    · simp only [List.map_cons, hcnt, List.range_succ_eq_map, List.map_map, Count]
      have hc0 : q0.m_count = max (q.m_count - 1) 0 := by
        rw [← hlen0, ← hlen, hq]
        cases q.m_queue with
        | nil => simp [refPop]
        | cons x rest => simp only [refPop, List.length_cons]; push_cast; omega
      simp only [List.cons.injEq]
      refine ⟨by rw [hc0]; simp, ?_⟩
      apply List.map_congr_left
      intro i _
      simp only [Function.comp, Nat.succ_eq_add_one]
      push_cast
      rw [hc0]
      omega
    · simp only [List.map_cons, hsz, List.replicate_succ, Size, hI.1]

theorem runOps_pushes_pops (c : Int) (hc : 0 < c) [Inhabited T] (xs : List T) (m : Nat) :
    ∃ os q1, runOps (Queue.ctor c : Queue T) (xs.map Op.push ++ List.replicate m Op.pop) =
        some ((List.range xs.length).map
          (fun (i : Nat) => ({ ret := none, count := min ((i : Int) + 1) c, size := c } : Obs T)) ++ os,
          q1) ∧
      SeqInv c q1 ∧ q1.m_queue = (xs.take c.toNat).drop m ∧
      os.map (fun o => o.ret) =
        ((xs.take c.toNat).take m).map some ++
          List.replicate (m - (xs.take c.toNat).length) (some default) ∧
      os.map (fun o => o.count) =
        (List.range m).map (fun (i : Nat) => max (min (xs.length : Int) c - ((i : Int) + 1)) 0) ∧
      os.map (fun o => o.size) = List.replicate m c := by
  obtain ⟨q0, hr0, hi0, hb0⟩ := runOps_pushes c hc xs (Queue.ctor c) (SeqInv_ctor c hc)
  have hnil : (Queue.ctor c : Queue T).m_queue = [] := by simp [Queue.ctor, hc]
  have hzero : (Queue.ctor c : Queue T).m_count = 0 := by simp [Queue.ctor, hc]
  rw [hnil, List.nil_append] at hb0
  simp only [hzero, zero_add] at hr0
  obtain ⟨os, q1, hr, hi, hb, hret, hcnt, hsz⟩ := runOps_pops c hc m q0 hi0
  have hc0 : q0.m_count = min (xs.length : Int) c := by
    rw [← hi0.2.1.2.2, hb0, List.length_take]
    push_cast
    rw [Int.toNat_of_nonneg (le_of_lt hc), min_comm]
  refine ⟨os, q1, runOps_append _ _ _ _ _ _ _ hr0 hr, hi, ?_, ?_, ?_, hsz⟩
  · rw [hb, hb0]
  · rw [hret, hb0]
  · rw [hcnt, hc0]


/-- C2: for every capacity `c > 0` and every list of `n ≤ c` elements,
pushing them one by one onto a fresh `Queue(c)` and then calling `Pop` `n`
times returns the elements in insertion order; `Count()` is `i` after the
`i`-th `Push` and `n - i` after the `i`-th `Pop`, `Size()` stays `c`, and
the queue ends empty. -/
theorem C2_push_then_pop_in_order [Inhabited T] (c : Int) (hc : 0 < c) (xs : List T)
    (hn : (xs.length : Int) ≤ c) :
    ∃ os q1, runOps (Queue.ctor c : Queue T)
        (xs.map Op.push ++ List.replicate xs.length Op.pop) =
        some ((List.range xs.length).map
          (fun (i : Nat) => ({ ret := none, count := (i : Int) + 1, size := c } : Obs T)) ++ os,
          q1) ∧
      os.map (fun o => o.ret) = xs.map some ∧
      os.map (fun o => o.count) =
        (List.range xs.length).map (fun (i : Nat) => (xs.length : Int) - ((i : Int) + 1)) ∧
      os.map (fun o => o.size) = List.replicate xs.length c ∧
      q1.m_queue = [] ∧ Count q1 = 0 := by
  obtain ⟨os, q1, hr, hi, hb, hret, hcnt, hsz⟩ := runOps_pushes_pops c hc xs xs.length
  have htake : xs.take c.toNat = xs := List.take_of_length_le (by omega)
  rw [htake] at hb hret
  have hpush : (List.range xs.length).map
      (fun (i : Nat) => ({ ret := none, count := min ((i : Int) + 1) c, size := c } : Obs T)) =
      (List.range xs.length).map
        (fun (i : Nat) => ({ ret := none, count := (i : Int) + 1, size := c } : Obs T)) := by
    apply List.map_congr_left
    intro i hi
    have := List.mem_range.mp hi
    congr 1
    omega
  have hpop : (List.range xs.length).map
      (fun (i : Nat) => max (min (xs.length : Int) c - ((i : Int) + 1)) 0) =
      (List.range xs.length).map (fun (i : Nat) => (xs.length : Int) - ((i : Int) + 1)) := by
    apply List.map_congr_left
    intro i hi
    have := List.mem_range.mp hi
    omega
  rw [hpush] at hr
  rw [hpop] at hcnt
  have hq1 : q1.m_queue = [] := by simpa using hb
  refine ⟨os, q1, hr, by simpa using hret, hcnt, hsz, hq1, ?_⟩
  have := hi.2.1.2.2
  rw [hq1] at this
  simpa [Count] using this.symm

/-- Witness of C2: capacity 2 and two elements, so that the first `Pop`
finds the queue full. -/
theorem C2_push_then_pop_in_order_witness :
    (0 : Int) < 2 ∧ ([(7 : Int), 8].length : Int) ≤ 2 ∧
    ∃ os q1, runOps (Queue.ctor 2 : Queue Int)
        ([7, 8].map Op.push ++ List.replicate [(7 : Int), 8].length Op.pop) =
        some ((List.range [(7 : Int), 8].length).map
          (fun (i : Nat) => ({ ret := none, count := (i : Int) + 1, size := 2 } : Obs Int)) ++ os,
          q1) ∧
      os.map (fun o => o.ret) = [(7 : Int), 8].map some ∧
      os.map (fun o => o.count) =
        (List.range [(7 : Int), 8].length).map
          (fun (i : Nat) => ([(7 : Int), 8].length : Int) - ((i : Int) + 1)) ∧
      os.map (fun o => o.size) = List.replicate [(7 : Int), 8].length 2 ∧
      q1.m_queue = [] ∧ Count q1 = 0 :=
  ⟨by decide, by decide, C2_push_then_pop_in_order 2 (by decide) [7, 8] (by decide)⟩

/-- C3: for every capacity `c > 0` and every list `xs` pushed one by one
onto a fresh `Queue(c)`, `Count()` after the `i`-th `Push` is `min(i, c)`,
the buffer afterwards holds the first `min(|xs|, c)` elements of `xs` in
order, and a `Push` on a full queue leaves the queue as it was. -/
theorem C3_push_saturates_at_capacity [Inhabited T] (c : Int) (hc : 0 < c) (xs : List T) :
    (∃ q1, runOps (Queue.ctor c : Queue T) (xs.map Op.push) =
        some ((List.range xs.length).map
          (fun (i : Nat) => ({ ret := none, count := min ((i : Int) + 1) c, size := c } : Obs T)),
          q1) ∧
      q1.m_queue = xs.take (min xs.length c.toNat) ∧
      Count q1 = min (xs.length : Int) c ∧ Count q1 ≤ c) ∧
    (∀ (q : Queue T) (x : T), Count q = Size q → Push q x = q) := by
  refine ⟨?_, fun q x h => Push_of_full q x h⟩
  obtain ⟨q1, hr, hi, hb⟩ := runOps_pushes c hc xs (Queue.ctor c) (SeqInv_ctor c hc)
  have hnil : (Queue.ctor c : Queue T).m_queue = [] := by simp [Queue.ctor, hc]
  have hzero : (Queue.ctor c : Queue T).m_count = 0 := by simp [Queue.ctor, hc]
  rw [hnil, List.nil_append] at hb
  simp only [hzero, zero_add] at hr
  have hb1 : q1.m_queue = xs.take (min xs.length c.toNat) := by
    rw [hb]
    rcases Nat.le_total xs.length c.toNat with h | h
    · rw [Nat.min_eq_left h, List.take_of_length_le h, List.take_of_length_le (le_refl _)]
    · rw [Nat.min_eq_right h]
  have hcount : Count q1 = min (xs.length : Int) c := by
    have := hi.2.1.2.2
    rw [Count, ← this, hb, List.length_take]
    push_cast
    rw [Int.toNat_of_nonneg (le_of_lt hc), min_comm]
  exact ⟨q1, hr, hb1, hcount, by rw [hcount]; exact min_le_right _ _⟩

/-- Witness of C3: capacity 2 and three pushes. -/
theorem C3_push_saturates_at_capacity_witness :
    (0 : Int) < 2 ∧
    (∃ q1, runOps (Queue.ctor 2 : Queue Int) ([4, 5, 6].map Op.push) =
        some ((List.range [(4 : Int), 5, 6].length).map
          (fun (i : Nat) => ({ ret := none, count := min ((i : Int) + 1) 2, size := 2 } : Obs Int)),
          q1) ∧
      q1.m_queue = [(4 : Int), 5, 6].take (min [(4 : Int), 5, 6].length (2 : Int).toNat) ∧
      Count q1 = min ([(4 : Int), 5, 6].length : Int) 2 ∧ Count q1 ≤ 2) ∧
    (∀ (q : Queue Int) (x : Int), Count q = Size q → Push q x = q) :=
  ⟨by decide, C3_push_saturates_at_capacity 2 (by decide) [4, 5, 6]⟩

/-- C4: for every capacity `c > 0`, after pushing `n ≥ c` elements onto a
fresh `Queue(c)`, `m ≥ c` calls of `Pop` return the first `c` elements
pushed, in order, followed by the default value for each of the `m - c`
further calls, and `Count()` after the `i`-th `Pop` is `max(c - i, 0)`;
with capacity 5, the values 1..7 pushed and 7 pops, `Count()` is 5 after
the pushes, the pops return 1,2,3,4,5,0,0 and `Count()` ends at 0. -/
theorem C4_extra_push_extra_pop [Inhabited T] (c : Int) (hc : 0 < c) (xs : List T)
    (hn : c ≤ (xs.length : Int)) (m : Nat) (hm : c ≤ (m : Int)) :
    (∃ os q1, runOps (Queue.ctor c : Queue T) (xs.map Op.push ++ List.replicate m Op.pop) =
        some ((List.range xs.length).map
          (fun (i : Nat) => ({ ret := none, count := min ((i : Int) + 1) c, size := c } : Obs T)) ++ os,
          q1) ∧
      os.map (fun o => o.ret) =
        (xs.take c.toNat).map some ++ List.replicate (m - c.toNat) (some default) ∧
      os.map (fun o => o.count) =
        (List.range m).map (fun (i : Nat) => max (c - ((i : Int) + 1)) 0) ∧
      Count q1 = 0) ∧
    runOps (Queue.ctor 5 : Queue Int)
        ([1, 2, 3, 4, 5, 6, 7].map Op.push ++ List.replicate 7 Op.pop) =
      some ([⟨none, 1, 5⟩, ⟨none, 2, 5⟩, ⟨none, 3, 5⟩, ⟨none, 4, 5⟩, ⟨none, 5, 5⟩,
             ⟨none, 5, 5⟩, ⟨none, 5, 5⟩,
             ⟨some 1, 4, 5⟩, ⟨some 2, 3, 5⟩, ⟨some 3, 2, 5⟩, ⟨some 4, 1, 5⟩, ⟨some 5, 0, 5⟩,
             ⟨some 0, 0, 5⟩, ⟨some 0, 0, 5⟩],
            { m_count := 0, m_size := 5, m_queue := [], m_poppedElement := 1,
              m_isInited := false }) := by
  refine ⟨?_, by decide⟩
  obtain ⟨os, q1, hr, hi, hb, hret, hcnt, hsz⟩ := runOps_pushes_pops c hc xs m
  have hlen : (xs.take c.toNat).length = c.toNat := by
    rw [List.length_take]; omega
  have hmin : min (xs.length : Int) c = c := min_eq_right hn
  rw [hmin] at hcnt
  have htake : (xs.take c.toNat).take m = xs.take c.toNat :=
    List.take_of_length_le (by omega)
  rw [htake, hlen] at hret
  have hq1 : q1.m_queue = [] := by
    rw [hb, List.drop_eq_nil_iff]; omega
  refine ⟨os, q1, hr, hret, hcnt, ?_⟩
  have := hi.2.1.2.2
  rw [hq1] at this
  simpa [Count] using this.symm

/-- Witness of C4: capacity 2, three pushes, four pops. -/
theorem C4_extra_push_extra_pop_witness :
    (0 : Int) < 2 ∧ (2 : Int) ≤ ([(9 : Int), 8, 7].length : Int) ∧ (2 : Int) ≤ ((4 : Nat) : Int) ∧
    ((∃ os q1, runOps (Queue.ctor 2 : Queue Int)
        ([9, 8, 7].map Op.push ++ List.replicate 4 Op.pop) =
        some ((List.range [(9 : Int), 8, 7].length).map
          (fun (i : Nat) => ({ ret := none, count := min ((i : Int) + 1) 2, size := 2 } : Obs Int)) ++ os,
          q1) ∧
      os.map (fun o => o.ret) =
        ([(9 : Int), 8, 7].take (2 : Int).toNat).map some ++
          List.replicate (4 - (2 : Int).toNat) (some default) ∧
      os.map (fun o => o.count) =
        (List.range 4).map (fun (i : Nat) => max ((2 : Int) - ((i : Int) + 1)) 0) ∧
      Count q1 = 0) ∧
    runOps (Queue.ctor 5 : Queue Int)
        ([1, 2, 3, 4, 5, 6, 7].map Op.push ++ List.replicate 7 Op.pop) =
      some ([⟨none, 1, 5⟩, ⟨none, 2, 5⟩, ⟨none, 3, 5⟩, ⟨none, 4, 5⟩, ⟨none, 5, 5⟩,
             ⟨none, 5, 5⟩, ⟨none, 5, 5⟩,
             ⟨some 1, 4, 5⟩, ⟨some 2, 3, 5⟩, ⟨some 3, 2, 5⟩, ⟨some 4, 1, 5⟩, ⟨some 5, 0, 5⟩,
             ⟨some 0, 0, 5⟩, ⟨some 0, 0, 5⟩],
            { m_count := 0, m_size := 5, m_queue := [], m_poppedElement := 1,
              m_isInited := false })) :=
  ⟨by decide, by decide, by decide,
    C4_extra_push_extra_pop 2 (by decide) [9, 8, 7] (by decide) 4 (by decide)⟩

/-- C5: for every queue with capacity greater than 0 and `count = 0`, a
`Pop` whose timed wait expires with `count > 0` still false returns the
default value and leaves the whole queue (buffer, count, staged value and
staging flag) as it was, so the count stays 0; in the step semantics the
call waits and then returns the default value on expiry, without a
notification. -/
theorem C5_pop_on_empty_returns_default [Inhabited T] (q : Queue T) (hc : 0 < q.m_size)
    (h0 : q.m_count = 0) :
    Pop q = some (default, q) ∧
    stepCall true q Pc.popEntry = some (q, Pc.popWaiting) ∧
    stepCall true q Pc.popWaiting = some (q, Pc.popDone default false) ∧
    runAlone q Pc.popEntry 2 = some (q, Pc.popDone default false) := by
  have h1 : ¬ q.m_size ≤ 0 := not_le.mpr hc
  refine ⟨Pop_of_empty q h0, ?_, ?_, ?_⟩ <;> simp [runAlone, stepCall, h0, h1]

/-- Witness of C5: an empty queue of capacity 3. -/
theorem C5_pop_on_empty_returns_default_witness :
    (0 : Int) < (Queue.ctor 3 : Queue Int).m_size ∧ (Queue.ctor 3 : Queue Int).m_count = 0 ∧
    (Pop (Queue.ctor 3 : Queue Int) = some (default, Queue.ctor 3) ∧
    stepCall true (Queue.ctor 3 : Queue Int) Pc.popEntry = some (Queue.ctor 3, Pc.popWaiting) ∧
    stepCall true (Queue.ctor 3 : Queue Int) Pc.popWaiting =
      some (Queue.ctor 3, Pc.popDone default false) ∧
    runAlone (Queue.ctor 3 : Queue Int) Pc.popEntry 2 =
      some (Queue.ctor 3, Pc.popDone default false)) :=
  ⟨by decide, by decide, C5_pop_on_empty_returns_default (Queue.ctor 3) (by decide) (by decide)⟩

theorem runOps_disabled [Inhabited T] (q : Queue T) (h : q.m_size ≤ 0) (ops : List (Op T)) :
    runOps q ops =
      some (ops.map (fun op =>
        match op with
        | Op.push _ => ({ ret := none, count := q.m_count, size := q.m_size } : Obs T)
        | Op.pop => { ret := some default, count := q.m_count, size := q.m_size }), q) := by
  induction ops with
  | nil => rfl
  | cons op rest ih =>
    cases op with
    | push x => simp [runOps, applyOp, Push_of_disabled q x h, ih, Count, Size]
    | pop => simp [runOps, applyOp, Pop_of_disabled q h, ih, Count, Size]

/-- C6: for every requested capacity `c ≤ 0`, `Size()` and `Count()` of the
constructed queue are 0, and any sequence of `Push` and `Pop` calls leaves
the queue exactly as constructed (every `Push` discards its item), with
`Count()` and `Size()` read as 0 after every call and every `Pop` returning
the default value. -/
theorem C6_disabled_queue [Inhabited T] (c : Int) (hc : c ≤ 0) (ops : List (Op T)) :
    Size (Queue.ctor c : Queue T) = 0 ∧ Count (Queue.ctor c : Queue T) = 0 ∧
    (Queue.ctor c : Queue T).m_queue = [] ∧
    runOps (Queue.ctor c : Queue T) ops =
      some (ops.map (fun op =>
        match op with
        | Op.push _ => ({ ret := none, count := 0, size := 0 } : Obs T)
        | Op.pop => { ret := some default, count := 0, size := 0 }), Queue.ctor c) := by
  have hq : (Queue.ctor c : Queue T) =
      { m_count := 0, m_size := 0, m_queue := [], m_poppedElement := default,
        m_isInited := false } := by
    simp [Queue.ctor, not_lt.mpr hc]
  refine ⟨by rw [hq]; rfl, by rw [hq]; rfl, by rw [hq], ?_⟩
  have := runOps_disabled (Queue.ctor c : Queue T) (by rw [hq]) ops
  rw [this, hq]

/-- Witness of C6: requested capacity -5, calls push 1, pop, push 2. -/
theorem C6_disabled_queue_witness :
    (-5 : Int) ≤ 0 ∧
    (Size (Queue.ctor (-5) : Queue Int) = 0 ∧ Count (Queue.ctor (-5) : Queue Int) = 0 ∧
    (Queue.ctor (-5) : Queue Int).m_queue = [] ∧
    runOps (Queue.ctor (-5) : Queue Int) [Op.push 1, Op.pop, Op.push 2] =
      some ([Op.push 1, Op.pop, Op.push 2].map (fun op =>
        match op with
        | Op.push _ => ({ ret := none, count := 0, size := 0 } : Obs Int)
        | Op.pop => { ret := some default, count := 0, size := 0 }), Queue.ctor (-5))) :=
  ⟨by decide, C6_disabled_queue (-5) (by decide) [Op.push 1, Op.pop, Op.push 2]⟩

/-! ## The sequential semantics is the step semantics of a call run alone -/

theorem runAlone_two [Inhabited T] (q q1 q2 : Queue T) (pc pc1 pc2 : Pc T)
    (h1 : stepCall true q pc = some (q1, pc1)) (h2 : stepCall true q1 pc1 = some (q2, pc2)) :
    runAlone q pc 2 = some (q2, pc2) := by
  simp only [runAlone, h1, h2]

theorem runAlone_none [Inhabited T] (q : Queue T) (pc : Pc T)
    (h1 : stepCall true q pc = none) : runAlone q pc 2 = none := by
  simp only [runAlone, h1]

theorem Push_eq_runAlone [Inhabited T] (q : Queue T) (x : T) :
    ∃ s w n, runAlone q (Pc.pushEntry x) 2 = some (Push q x, Pc.pushDone s w n) := by
  by_cases h1 : q.m_size ≤ 0
  · rw [Push_of_disabled q x h1]
    exact ⟨_, _, _, runAlone_two q q q _ (Pc.pushDone false false false) _
      (by simp [stepCall, h1]) rfl⟩
  · by_cases h2 : q.m_count = q.m_size
    · rw [Push_of_full q x h2]
      exact ⟨_, _, _, runAlone_two q q q _ (Pc.pushWaiting x) (Pc.pushDone false true false)
        (by simp [stepCall, h1, h2]) (by simp [stepCall, h2])⟩
    · rw [Push_of_ne q x (by omega) h2]
      exact ⟨_, _, _, runAlone_two q (pushStore q x) (pushStore q x) _
        (Pc.pushDone true false (decide (q.m_count = 0))) _
        (by simp [stepCall, pushStoreStep, h1, h2]) rfl⟩

theorem popTake_eq_popTakeStep [Inhabited T] (q : Queue T) :
    (popTake q = none ∧ popTakeStep q = none) ∨
    (∃ r q1, popTake q = some (r, q1) ∧ popTakeStep q = some (q1, Pc.popDone r false)) ∨
    (∃ r q1 q2, popTake q = some (r, q1) ∧ popTakeStep q = some (q2, Pc.popStaged r) ∧
      stepCall true q2 (Pc.popStaged r) = some (q1, Pc.popDone r true)) := by
  unfold popTake popTakeStep
  cases q.m_queue with
  | nil =>
    simp only
    split_ifs
    · right; left; exact ⟨_, _, rfl, rfl⟩
    · left; exact ⟨rfl, rfl⟩
  | cons x rest =>
    simp only
    split_ifs
    · right; left; exact ⟨_, _, rfl, rfl⟩
    · right; left; exact ⟨_, _, rfl, rfl⟩
    · right; right; exact ⟨_, _, _, rfl, rfl, rfl⟩

theorem Pop_eq_runAlone [Inhabited T] (q : Queue T) :
    (Pop q = none ∧ runAlone q Pc.popEntry 2 = none) ∨
    ∃ r q1 n, Pop q = some (r, q1) ∧ runAlone q Pc.popEntry 2 = some (q1, Pc.popDone r n) := by
  by_cases h1 : q.m_size ≤ 0
  · right
    exact ⟨default, q, false, by simp [Pop, h1],
      runAlone_two q q q _ (Pc.popDone default false) _ (by simp [stepCall, h1]) rfl⟩
  · by_cases h2 : q.m_count = 0
    · right
      exact ⟨default, q, false, by simp [Pop, h2],
        runAlone_two q q q _ Pc.popWaiting _ (by simp [stepCall, h1, h2])
          (by simp [stepCall, h2])⟩
    · have hP : Pop q = popTake q := by simp [Pop, h1, h2]
      have hS : stepCall true q Pc.popEntry = popTakeStep q := by simp [stepCall, h1, h2]
      rcases popTake_eq_popTakeStep q with ⟨h3, h4⟩ | ⟨r, q1, h3, h4⟩ | ⟨r, q1, q2, h3, h4, h5⟩
      · left; exact ⟨by rw [hP, h3], runAlone_none q _ (by rw [hS, h4])⟩
      · right
        exact ⟨r, q1, false, by rw [hP, h3],
          runAlone_two q q1 q1 _ (Pc.popDone r false) _ (by rw [hS, h4]) rfl⟩
      · right
        exact ⟨r, q1, true, by rw [hP, h3],
          runAlone_two q q2 q1 _ (Pc.popStaged r) _ (by rw [hS, h4]) h5⟩

/-! ## The representation invariant and the capacity -/

theorem QueueInv_ctor [Inhabited T] (c : Int) : QueueInv (Queue.ctor c : Queue T) := by
  by_cases hc : 0 < c
  · simp [QueueInv, Queue.ctor, hc, le_of_lt hc]
  · simp [QueueInv, Queue.ctor, hc]

theorem QueueInv_pushStore (q : Queue T) (x : T) (h : QueueInv q) (hlt : q.m_count < q.m_size) :
    QueueInv (pushStore q x) := by
  obtain ⟨h0, h1, h2⟩ := h
  refine ⟨?_, ?_, ?_⟩
  · simp only [pushStore]; omega
  · simp only [pushStore]; omega
  · simp only [pushStore, List.length_append, List.length_singleton]; push_cast; omega

theorem QueueInv_Push (q : Queue T) (x : T) (h : QueueInv q) : QueueInv (Push q x) := by
  by_cases hs : q.m_size ≤ 0
  · rw [Push_of_disabled q x hs]; exact h
  · by_cases hf : q.m_count = q.m_size
    · rw [Push_of_full q x hf]; exact h
    · rw [Push_of_ne q x (by omega) hf]
      exact QueueInv_pushStore q x h (lt_of_le_of_ne h.2.1 hf)

theorem QueueInv_popTake [Inhabited T] (q : Queue T) (r : T) (q1 : Queue T) (h : QueueInv q)
    (hp : popTake q = some (r, q1)) : QueueInv q1 := by
  obtain ⟨h0, h1, h2⟩ := h
  unfold popTake at hp
  simp only at hp
  split at hp
  · simp only [Option.some.injEq, Prod.mk.injEq] at hp
    rw [← hp.2]; exact ⟨h0, h1, h2⟩
  · split at hp
    · simp at hp
    · rename_i x rest hq
      rw [hq] at h2
      simp only [List.length_cons] at h2
      push_cast at h2
      split at hp <;>
      · simp only [Option.some.injEq, Prod.mk.injEq] at hp
        rw [← hp.2]
        refine ⟨?_, ?_, ?_⟩ <;> simp only <;> omega

theorem QueueInv_Pop [Inhabited T] (q : Queue T) (r : T) (q1 : Queue T) (h : QueueInv q)
    (hp : Pop q = some (r, q1)) : QueueInv q1 := by
  unfold Pop at hp
  simp only at hp
  split at hp
  · simp only [Option.some.injEq, Prod.mk.injEq] at hp; rw [← hp.2]; exact h
  · split at hp
    · split at hp
      · exact QueueInv_popTake q r q1 h hp
      · simp only [Option.some.injEq, Prod.mk.injEq] at hp; rw [← hp.2]; exact h
    · exact QueueInv_popTake q r q1 h hp

theorem QueueInv_popTakeStep [Inhabited T] (q q1 : Queue T) (pc1 : Pc T) (h : QueueInv q)
    (hp : popTakeStep q = some (q1, pc1)) : QueueInv q1 := by
  obtain ⟨h0, h1, h2⟩ := h
  unfold popTakeStep at hp
  simp only at hp
  split at hp
  · simp only [Option.some.injEq, Prod.mk.injEq] at hp
    rw [← hp.1]; exact ⟨h0, h1, h2⟩
  · split at hp
    · simp at hp
    · rename_i x rest hq
      rw [hq] at h2
      simp only [List.length_cons] at h2
      push_cast at h2
      split at hp <;>
      · simp only [Option.some.injEq, Prod.mk.injEq] at hp
        rw [← hp.1]
        refine ⟨?_, ?_, ?_⟩ <;> simp only <;> omega

theorem QueueInv_stepCall [Inhabited T] (expired : Bool) (q q1 : Queue T) (pc pc1 : Pc T)
    (h : QueueInv q) (hs : stepCall expired q pc = some (q1, pc1)) : QueueInv q1 := by
  cases pc with
  | pushEntry x =>
    simp only [stepCall, pushStoreStep] at hs
    split at hs
    · simp only [Option.some.injEq, Prod.mk.injEq] at hs; rw [← hs.1]; exact h
    · split at hs
      · split at hs
        · omega
        · simp only [Option.some.injEq, Prod.mk.injEq] at hs; rw [← hs.1]; exact h
      · rename_i hne
        simp only [Option.some.injEq, Prod.mk.injEq] at hs; rw [← hs.1]
        exact QueueInv_pushStore q x h (lt_of_le_of_ne h.2.1 hne)
  | pushWaiting x =>
    simp only [stepCall, pushStoreStep] at hs
    split at hs
    · rename_i hlt
      simp only [Option.some.injEq, Prod.mk.injEq] at hs; rw [← hs.1]
      exact QueueInv_pushStore q x h hlt
    · split at hs <;>
      · simp only [Option.some.injEq, Prod.mk.injEq] at hs; rw [← hs.1]; exact h
  | pushDone s w n =>
    simp only [stepCall, Option.some.injEq, Prod.mk.injEq] at hs; rw [← hs.1]; exact h
  | popEntry =>
    simp only [stepCall] at hs
    split at hs
    · simp only [Option.some.injEq, Prod.mk.injEq] at hs; rw [← hs.1]; exact h
    · split at hs
      · split at hs
        · exact QueueInv_popTakeStep q q1 pc1 h hs
        · simp only [Option.some.injEq, Prod.mk.injEq] at hs; rw [← hs.1]; exact h
      · exact QueueInv_popTakeStep q q1 pc1 h hs
  | popWaiting =>
    simp only [stepCall] at hs
    split at hs
    · exact QueueInv_popTakeStep q q1 pc1 h hs
    · split at hs <;>
      · simp only [Option.some.injEq, Prod.mk.injEq] at hs; rw [← hs.1]; exact h
  | popStaged e =>
    simp only [stepCall, Option.some.injEq, Prod.mk.injEq] at hs; rw [← hs.1]; exact h
  | popDone r n =>
    simp only [stepCall, Option.some.injEq, Prod.mk.injEq] at hs; rw [← hs.1]; exact h

theorem Sys.step_cases [Inhabited T] (s s1 : Sys T) (i : Nat) (expired : Bool)
    (h : s.step i expired = some s1) :
    (s.calls[i]? = none ∧ s1 = s) ∨
    ∃ pc pc1, s.calls[i]? = some pc ∧ stepCall expired s.q pc = some (s1.q, pc1) ∧
      s1.calls = s.calls.set i pc1 := by
  unfold Sys.step at h
  split at h
  · left
    rename_i hn
    simp only [Option.some.injEq] at h
    exact ⟨hn, h.symm⟩
  · right
    rename_i pc hpc
    split at h
    · simp at h
    · rename_i q1 pc1 hst
      simp only [Option.some.injEq] at h
      subst h
      exact ⟨pc, pc1, hpc, hst, rfl⟩

theorem Sys.run_induction [Inhabited T] (P : Sys T → Prop)
    (hstep : ∀ (s s1 : Sys T) (i : Nat) (expired : Bool),
      P s → s.step i expired = some s1 → P s1)
    (sched : List (Nat × Bool)) :
    ∀ (s s1 : Sys T), P s → s.run sched = some s1 → P s1 := by
  induction sched with
  | nil =>
    intro s s1 hP hr
    simp only [Sys.run, Option.some.injEq] at hr
    rw [← hr]; exact hP
  | cons a rest ih =>
    intro s s1 hP hr
    obtain ⟨i, expired⟩ := a
    simp only [Sys.run] at hr
    split at hr
    · simp at hr
    · rename_i s2 hs2
      exact ih s2 s1 (hstep s s2 i expired hP hs2) hr

theorem Sys.run_queue_induction [Inhabited T] (P : Queue T → Prop)
    (hstep : ∀ (expired : Bool) (q q1 : Queue T) (pc pc1 : Pc T),
      P q → stepCall expired q pc = some (q1, pc1) → P q1)
    (sched : List (Nat × Bool)) (s s1 : Sys T) (h : P s.q) (hr : s.run sched = some s1) :
    P s1.q := by
  refine Sys.run_induction (fun s => P s.q) ?_ sched s s1 h hr
  intro s s1 i expired hP hs
  rcases Sys.step_cases s s1 i expired hs with ⟨_, rfl⟩ | ⟨pc, pc1, _, hst, _⟩
  · exact hP
  · exact hstep expired s.q s1.q pc pc1 hP hst

theorem runOps_induction [Inhabited T] (P : Queue T → Prop)
    (hpush : ∀ (q : Queue T) (x : T), P q → P (Push q x))
    (hpop : ∀ (q q1 : Queue T) (r : T), P q → Pop q = some (r, q1) → P q1)
    (ops : List (Op T)) :
    ∀ (q q1 : Queue T) (os : List (Obs T)), P q → runOps q ops = some (os, q1) →
      P q1 ∧ ∀ o ∈ os, ∃ q2, P q2 ∧ o.count = Count q2 ∧ o.size = Size q2 := by
  induction ops with
  | nil =>
    intro q q1 os hP hr
    simp only [runOps, Option.some.injEq, Prod.mk.injEq] at hr
    obtain ⟨rfl, rfl⟩ := hr
    exact ⟨hP, by simp⟩
  | cons op rest ih =>
    intro q q1 os hP hr
    simp only [runOps] at hr
    split at hr
    · simp at hr
    · rename_i o q0 ha
      split at hr
      · simp at hr
      · rename_i os0 q2 hrest
        simp only [Option.some.injEq, Prod.mk.injEq] at hr
        obtain ⟨rfl, rfl⟩ := hr
        have hP0 : P q0 ∧ o.count = Count q0 ∧ o.size = Size q0 := by
          cases op with
          | push x =>
            simp only [applyOp, Option.some.injEq, Prod.mk.injEq] at ha
            obtain ⟨rfl, rfl⟩ := ha
            exact ⟨hpush q x hP, rfl, rfl⟩
          | pop =>
            simp only [applyOp] at ha
            split at ha
            · simp at ha
            · rename_i r q3 hp
              simp only [Option.some.injEq, Prod.mk.injEq] at ha
              obtain ⟨rfl, rfl⟩ := ha
              exact ⟨hpop q q3 r hP hp, rfl, rfl⟩
        obtain ⟨h1, h2⟩ := ih q0 q2 os0 hP0.1 hrest
        refine ⟨h1, ?_⟩
        intro o1 ho1
        rcases List.mem_cons.mp ho1 with rfl | hmem
        · exact ⟨q0, hP0⟩
        · exact h2 o1 hmem

theorem popTakeStep_isSome [Inhabited T] (q : Queue T) (h : QueueInv q) (hpos : q.m_count ≠ 0) :
    ∃ q1 pc1, popTakeStep q = some (q1, pc1) := by
  obtain ⟨h0, h1, h2⟩ := h
  unfold popTakeStep
  simp only
  split
  · exact ⟨_, _, rfl⟩
  · split
    · rename_i hq
      rw [hq] at h2
      simp only [List.length_nil] at h2
      exact absurd h2.symm hpos
    · split <;> exact ⟨_, _, rfl⟩

theorem stepCall_isSome [Inhabited T] (expired : Bool) (q : Queue T) (pc : Pc T)
    (h : QueueInv q) : ∃ q1 pc1, stepCall expired q pc = some (q1, pc1) := by
  cases pc with
  | pushEntry x => simp only [stepCall]; split_ifs <;> exact ⟨_, _, rfl⟩
  | pushWaiting x => simp only [stepCall]; split_ifs <;> exact ⟨_, _, rfl⟩
  | pushDone s w n => exact ⟨_, _, rfl⟩
  | popEntry =>
    simp only [stepCall]
    split_ifs with h1 h2 h3
    · exact ⟨_, _, rfl⟩
    · omega
    · exact ⟨_, _, rfl⟩
    · exact popTakeStep_isSome q h h2
  | popWaiting =>
    simp only [stepCall]
    split_ifs with h1 h2
    · exact popTakeStep_isSome q h (by omega)
    · exact ⟨_, _, rfl⟩
    · exact ⟨_, _, rfl⟩
  | popStaged e => exact ⟨_, _, rfl⟩
  | popDone r n => exact ⟨_, _, rfl⟩

theorem Sys.step_isSome [Inhabited T] (s : Sys T) (i : Nat) (expired : Bool) (h : QueueInv s.q) :
    ∃ s1, s.step i expired = some s1 := by
  unfold Sys.step
  split
  · exact ⟨_, rfl⟩
  · rename_i pc _
    obtain ⟨q1, pc1, hst⟩ := stepCall_isSome expired s.q pc h
    rw [hst]
    exact ⟨_, rfl⟩

theorem Sys.run_isSome [Inhabited T] (sched : List (Nat × Bool)) :
    ∀ s : Sys T, QueueInv s.q → ∃ s1, s.run sched = some s1 := by
  induction sched with
  | nil => intro s _; exact ⟨s, rfl⟩
  | cons a rest ih =>
    intro s h
    obtain ⟨i, expired⟩ := a
    obtain ⟨s2, hs2⟩ := Sys.step_isSome s i expired h
    have h2 : QueueInv s2.q := by
      rcases Sys.step_cases s s2 i expired hs2 with ⟨_, rfl⟩ | ⟨pc, pc1, _, hst, _⟩
      · exact h
      · exact QueueInv_stepCall expired s.q s2.q pc pc1 h hst
    obtain ⟨s1, hs1⟩ := ih s2 h2
    exact ⟨s1, by simp only [Sys.run, hs2, hs1]⟩

theorem Size_Push (q : Queue T) (x : T) : (Push q x).m_size = q.m_size := by
  unfold Push pushStore
  simp only
  split_ifs <;> rfl

theorem Size_popTake [Inhabited T] (q q1 : Queue T) (r : T) (hp : popTake q = some (r, q1)) :
    q1.m_size = q.m_size := by
  unfold popTake at hp
  simp only at hp
  split at hp
  · simp only [Option.some.injEq, Prod.mk.injEq] at hp; rw [← hp.2]
  · split at hp
    · simp at hp
    · split at hp <;>
      · simp only [Option.some.injEq, Prod.mk.injEq] at hp; rw [← hp.2]

theorem Size_Pop [Inhabited T] (q q1 : Queue T) (r : T) (hp : Pop q = some (r, q1)) :
    q1.m_size = q.m_size := by
  unfold Pop at hp
  simp only at hp
  split at hp
  · simp only [Option.some.injEq, Prod.mk.injEq] at hp; rw [← hp.2]
  · split at hp
    · split at hp
      · exact Size_popTake q q1 r hp
      · simp only [Option.some.injEq, Prod.mk.injEq] at hp; rw [← hp.2]
    · exact Size_popTake q q1 r hp

theorem Size_popTakeStep [Inhabited T] (q q1 : Queue T) (pc1 : Pc T)
    (hp : popTakeStep q = some (q1, pc1)) : q1.m_size = q.m_size := by
  unfold popTakeStep at hp
  simp only at hp
  split at hp
  · simp only [Option.some.injEq, Prod.mk.injEq] at hp; rw [← hp.1]
  · split at hp
    · simp at hp
    · split at hp <;>
      · simp only [Option.some.injEq, Prod.mk.injEq] at hp; rw [← hp.1]

theorem Size_stepCall [Inhabited T] (expired : Bool) (q q1 : Queue T) (pc pc1 : Pc T)
    (hs : stepCall expired q pc = some (q1, pc1)) : q1.m_size = q.m_size := by
  cases pc with
  | pushEntry x =>
    simp only [stepCall, pushStoreStep, pushStore] at hs
    split_ifs at hs <;>
    · simp only [Option.some.injEq, Prod.mk.injEq] at hs; rw [← hs.1]
  | pushWaiting x =>
    simp only [stepCall, pushStoreStep, pushStore] at hs
    split_ifs at hs <;>
    · simp only [Option.some.injEq, Prod.mk.injEq] at hs; rw [← hs.1]
  | pushDone s w n =>
    simp only [stepCall, Option.some.injEq, Prod.mk.injEq] at hs; rw [← hs.1]
  | popEntry =>
    simp only [stepCall] at hs
    split_ifs at hs
    · simp only [Option.some.injEq, Prod.mk.injEq] at hs; rw [← hs.1]
    · exact Size_popTakeStep q q1 pc1 hs
    · simp only [Option.some.injEq, Prod.mk.injEq] at hs; rw [← hs.1]
    · exact Size_popTakeStep q q1 pc1 hs
  | popWaiting =>
    simp only [stepCall] at hs
    split_ifs at hs
    · exact Size_popTakeStep q q1 pc1 hs
    · simp only [Option.some.injEq, Prod.mk.injEq] at hs; rw [← hs.1]
    · simp only [Option.some.injEq, Prod.mk.injEq] at hs; rw [← hs.1]
  | popStaged e =>
    simp only [stepCall, Option.some.injEq, Prod.mk.injEq] at hs; rw [← hs.1]
  | popDone r n =>
    simp only [stepCall, Option.some.injEq, Prod.mk.injEq] at hs; rw [← hs.1]

/-- C7: for every capacity `c > 0` the predicate `0 ≤ count ≤ capacity` and
`length(buffer) = count` holds for a freshly constructed `Queue(c)` and is
preserved by every `Push` and every `Pop`, in sequential use and by every
atomic step of the interleaving semantics (store at once, store after a
successful wait, drop on timeout, direct pop, staged pop, staging-guard
rejection, underflow timeout); hence `Count()` is within `[0, c]` after
every call of a sequential run and in every state of an interleaved run,
and these runs never fail. -/
theorem C7_count_between_zero_and_capacity [Inhabited T] (c : Int) (hc : 0 < c) :
    QueueInv (Queue.ctor c : Queue T) ∧
    (∀ (q : Queue T) (x : T), QueueInv q → QueueInv (Push q x)) ∧
    (∀ (q q1 : Queue T) (r : T), QueueInv q → Pop q = some (r, q1) → QueueInv q1) ∧
    (∀ (expired : Bool) (q q1 : Queue T) (pc pc1 : Pc T),
      QueueInv q → stepCall expired q pc = some (q1, pc1) → QueueInv q1) ∧
    (∀ ops : List (Op T), ∃ os q1, runOps (Queue.ctor c : Queue T) ops = some (os, q1) ∧
      QueueInv q1 ∧ 0 ≤ Count q1 ∧ Count q1 ≤ c ∧ ∀ o ∈ os, 0 ≤ o.count ∧ o.count ≤ c) ∧
    (∀ (calls : List (Pc T)) (sched : List (Nat × Bool)),
      ∃ s, Sys.run { q := (Queue.ctor c : Queue T), calls := calls } sched = some s ∧
        QueueInv s.q ∧ 0 ≤ Count s.q ∧ Count s.q ≤ c) := by
  have hsize : (Queue.ctor c : Queue T).m_size = c := by simp [Queue.ctor, hc]
  refine ⟨QueueInv_ctor c, QueueInv_Push, fun q q1 r h hp => QueueInv_Pop q r q1 h hp,
    fun e q q1 pc pc1 => QueueInv_stepCall e q q1 pc pc1, ?_, ?_⟩
  · intro ops
    obtain ⟨os, q1, hr, _, _, _⟩ := runOps_refines c hc ops (Queue.ctor c) (SeqInv_ctor c hc)
    obtain ⟨⟨hI, hS⟩, hobs⟩ := runOps_induction (fun q : Queue T => QueueInv q ∧ q.m_size = c)
      (fun q x h => ⟨QueueInv_Push q x h.1, by rw [Size_Push, h.2]⟩)
      (fun q q1 r h hp => ⟨QueueInv_Pop q r q1 h.1 hp, by rw [Size_Pop q q1 r hp, h.2]⟩)
      ops (Queue.ctor c) q1 os ⟨QueueInv_ctor c, hsize⟩ hr
    refine ⟨os, q1, hr, hI, hI.1, by rw [Count, ← hS]; exact hI.2.1, ?_⟩
    intro o ho
    obtain ⟨q2, ⟨hI2, hS2⟩, hcnt, _⟩ := hobs o ho
    rw [hcnt, Count]
    exact ⟨hI2.1, by rw [← hS2]; exact hI2.2.1⟩
  · intro calls sched
    obtain ⟨s, hs⟩ := Sys.run_isSome sched
      ({ q := (Queue.ctor c : Queue T), calls := calls } : Sys T) (QueueInv_ctor c)
    obtain ⟨hI, hS⟩ := Sys.run_queue_induction (fun q : Queue T => QueueInv q ∧ q.m_size = c)
      (fun e q q1 pc pc1 h hst =>
        ⟨QueueInv_stepCall e q q1 pc pc1 h.1 hst, by rw [Size_stepCall e q q1 pc pc1 hst, h.2]⟩)
      sched _ s ⟨QueueInv_ctor c, hsize⟩ hs
    exact ⟨s, hs, hI, hI.1, by rw [Count, ← hS]; exact hI.2.1⟩

/-- Witness of C7: capacity 2. -/
theorem C7_count_between_zero_and_capacity_witness :
    (0 : Int) < 2 ∧
    (QueueInv (Queue.ctor 2 : Queue Int) ∧
    (∀ (q : Queue Int) (x : Int), QueueInv q → QueueInv (Push q x)) ∧
    (∀ (q q1 : Queue Int) (r : Int), QueueInv q → Pop q = some (r, q1) → QueueInv q1) ∧
    (∀ (expired : Bool) (q q1 : Queue Int) (pc pc1 : Pc Int),
      QueueInv q → stepCall expired q pc = some (q1, pc1) → QueueInv q1) ∧
    (∀ ops : List (Op Int), ∃ os q1, runOps (Queue.ctor 2 : Queue Int) ops = some (os, q1) ∧
      QueueInv q1 ∧ 0 ≤ Count q1 ∧ Count q1 ≤ 2 ∧ ∀ o ∈ os, 0 ≤ o.count ∧ o.count ≤ 2) ∧
    (∀ (calls : List (Pc Int)) (sched : List (Nat × Bool)),
      ∃ s, Sys.run { q := (Queue.ctor 2 : Queue Int), calls := calls } sched = some s ∧
        QueueInv s.q ∧ 0 ≤ Count s.q ∧ Count s.q ≤ 2)) :=
  ⟨by decide, C7_count_between_zero_and_capacity 2 (by decide)⟩

/-- C8: for every `c > 0`, `Size()` is `c` right after `Queue(c)` is
constructed; no `Push`, `Pop` or atomic step of either changes `m_size`,
whatever branch it takes, so `Size()` is `c` after every call of a
sequential run and in every state of an interleaved run. -/
theorem C8_capacity_is_fixed [Inhabited T] (c : Int) (hc : 0 < c) :
    Size (Queue.ctor c : Queue T) = c ∧
    (∀ (q : Queue T) (x : T), Size (Push q x) = Size q) ∧
    (∀ (q q1 : Queue T) (r : T), Pop q = some (r, q1) → Size q1 = Size q) ∧
    (∀ (expired : Bool) (q q1 : Queue T) (pc pc1 : Pc T),
      stepCall expired q pc = some (q1, pc1) → Size q1 = Size q) ∧
    (∀ ops : List (Op T), ∃ os q1, runOps (Queue.ctor c : Queue T) ops = some (os, q1) ∧
      Size q1 = c ∧ ∀ o ∈ os, o.size = c) ∧
    (∀ (calls : List (Pc T)) (sched : List (Nat × Bool)),
      ∃ s, Sys.run { q := (Queue.ctor c : Queue T), calls := calls } sched = some s ∧
        Size s.q = c) := by
  have hsize : (Queue.ctor c : Queue T).m_size = c := by simp [Queue.ctor, hc]
  refine ⟨hsize, Size_Push, fun q q1 r hp => Size_Pop q q1 r hp,
    fun e q q1 pc pc1 hst => Size_stepCall e q q1 pc pc1 hst, ?_, ?_⟩
  · intro ops
    obtain ⟨os, q1, hr, _, _, _⟩ := runOps_refines c hc ops (Queue.ctor c) (SeqInv_ctor c hc)
    obtain ⟨hS, hobs⟩ := runOps_induction (fun q : Queue T => q.m_size = c)
      (fun q x h => (Size_Push q x).trans h)
      (fun q q1 r h hp => (Size_Pop q q1 r hp).trans h)
      ops (Queue.ctor c) q1 os hsize hr
    refine ⟨os, q1, hr, hS, ?_⟩
    intro o ho
    obtain ⟨q2, hS2, _, hsz⟩ := hobs o ho
    rw [hsz, Size, hS2]
  · intro calls sched
    obtain ⟨s, hs⟩ := Sys.run_isSome sched
      ({ q := (Queue.ctor c : Queue T), calls := calls } : Sys T) (QueueInv_ctor c)
    exact ⟨s, hs, Sys.run_queue_induction (fun q : Queue T => q.m_size = c)
      (fun e q q1 pc pc1 h hst => (Size_stepCall e q q1 pc pc1 hst).trans h)
      sched _ s hsize hs⟩

/-- Witness of C8: capacity 5. -/
theorem C8_capacity_is_fixed_witness :
    (0 : Int) < 5 ∧
    (Size (Queue.ctor 5 : Queue Int) = 5 ∧
    (∀ (q : Queue Int) (x : Int), Size (Push q x) = Size q) ∧
    (∀ (q q1 : Queue Int) (r : Int), Pop q = some (r, q1) → Size q1 = Size q) ∧
    (∀ (expired : Bool) (q q1 : Queue Int) (pc pc1 : Pc Int),
      stepCall expired q pc = some (q1, pc1) → Size q1 = Size q) ∧
    (∀ ops : List (Op Int), ∃ os q1, runOps (Queue.ctor 5 : Queue Int) ops = some (os, q1) ∧
      Size q1 = 5 ∧ ∀ o ∈ os, o.size = 5) ∧
    (∀ (calls : List (Pc Int)) (sched : List (Nat × Bool)),
      ∃ s, Sys.run { q := (Queue.ctor 5 : Queue Int), calls := calls } sched = some s ∧
        Size s.q = 5)) :=
  ⟨by decide, C8_capacity_is_fixed 5 (by decide)⟩

/-! ## Staging exclusivity in the interleaving semantics -/

theorem popTakeStep_staging [Inhabited T] (q q1 : Queue T) (pc1 : Pc T)
    (hp : popTakeStep q = some (q1, pc1)) :
    ((∀ e, pc1 ≠ Pc.popStaged e) ∧ q1.m_isInited = q.m_isInited ∧
      q1.m_poppedElement = q.m_poppedElement) ∨
    (∃ e, pc1 = Pc.popStaged e ∧ q.m_isInited = false ∧ q1.m_isInited = true ∧
      q1.m_poppedElement = e ∧ q.m_queue = e :: q1.m_queue ∧ q.m_count = q.m_size) := by
  unfold popTakeStep at hp
  simp only at hp
  split at hp
  · simp only [Option.some.injEq, Prod.mk.injEq] at hp
    obtain ⟨rfl, rfl⟩ := hp
    left; exact ⟨fun e => by simp, rfl, rfl⟩
  · rename_i hguard
    split at hp
    · simp at hp
    · rename_i x rest hq
      split at hp
      · simp only [Option.some.injEq, Prod.mk.injEq] at hp
        obtain ⟨rfl, rfl⟩ := hp
        left; exact ⟨fun e => by simp, rfl, rfl⟩
      · rename_i hfull
        simp only [Option.some.injEq, Prod.mk.injEq] at hp
        obtain ⟨rfl, rfl⟩ := hp
        right
        simp only [Bool.not_eq_true, Bool.not_eq_eq_eq_not, Bool.not_true, decide_eq_false_iff_not,
          not_not] at hfull
        simp only [hfull, decide_True, Bool.true_and, Bool.not_eq_true] at hguard
        exact ⟨x, rfl, hguard, rfl, rfl, hq, hfull⟩

theorem stepCall_staging [Inhabited T] (expired : Bool) (q q1 : Queue T) (pc pc1 : Pc T)
    (hs : stepCall expired q pc = some (q1, pc1)) :
    ((∀ e, pc ≠ Pc.popStaged e) ∧ (∀ e, pc1 ≠ Pc.popStaged e) ∧
      q1.m_isInited = q.m_isInited ∧ q1.m_poppedElement = q.m_poppedElement) ∨
    ((∀ e, pc ≠ Pc.popStaged e) ∧ ∃ e, pc1 = Pc.popStaged e ∧ q.m_isInited = false ∧
      q1.m_isInited = true ∧ q1.m_poppedElement = e) ∨
    ((∃ e, pc = Pc.popStaged e) ∧ (∀ e, pc1 ≠ Pc.popStaged e) ∧ q1.m_isInited = false ∧
      q1.m_poppedElement = q.m_poppedElement) := by
  have hpop : ∀ (hne : ∀ e, pc ≠ Pc.popStaged e) (hp : popTakeStep q = some (q1, pc1)),
      ((∀ e, pc ≠ Pc.popStaged e) ∧ (∀ e, pc1 ≠ Pc.popStaged e) ∧
        q1.m_isInited = q.m_isInited ∧ q1.m_poppedElement = q.m_poppedElement) ∨
      ((∀ e, pc ≠ Pc.popStaged e) ∧ ∃ e, pc1 = Pc.popStaged e ∧ q.m_isInited = false ∧
        q1.m_isInited = true ∧ q1.m_poppedElement = e) ∨
      ((∃ e, pc = Pc.popStaged e) ∧ (∀ e, pc1 ≠ Pc.popStaged e) ∧ q1.m_isInited = false ∧
        q1.m_poppedElement = q.m_poppedElement) := by
    intro hne hp
    rcases popTakeStep_staging q q1 pc1 hp with ⟨h1, h2, h3⟩ | ⟨e, h1, h2, h3, h4, _, _⟩
    · left; exact ⟨hne, h1, h2, h3⟩
    · right; left; exact ⟨hne, e, h1, h2, h3, h4⟩
  cases pc with
  | pushEntry x =>
    left
    simp only [stepCall, pushStoreStep, pushStore] at hs
    split_ifs at hs <;>
    · simp only [Option.some.injEq, Prod.mk.injEq] at hs
      obtain ⟨rfl, rfl⟩ := hs
      exact ⟨fun e => by simp, fun e => by simp, rfl, rfl⟩
  | pushWaiting x =>
    left
    simp only [stepCall, pushStoreStep, pushStore] at hs
    split_ifs at hs <;>
    · simp only [Option.some.injEq, Prod.mk.injEq] at hs
      obtain ⟨rfl, rfl⟩ := hs
      exact ⟨fun e => by simp, fun e => by simp, rfl, rfl⟩
  | pushDone s w n =>
    left
    simp only [stepCall, Option.some.injEq, Prod.mk.injEq] at hs
    obtain ⟨rfl, rfl⟩ := hs
    exact ⟨fun e => by simp, fun e => by simp, rfl, rfl⟩
  | popEntry =>
    simp only [stepCall] at hs
    split_ifs at hs
    · left
      simp only [Option.some.injEq, Prod.mk.injEq] at hs
      obtain ⟨rfl, rfl⟩ := hs
      exact ⟨fun e => by simp, fun e => by simp, rfl, rfl⟩
    · exact hpop (fun e => by simp) hs
    · left
      simp only [Option.some.injEq, Prod.mk.injEq] at hs
      obtain ⟨rfl, rfl⟩ := hs
      exact ⟨fun e => by simp, fun e => by simp, rfl, rfl⟩
    · exact hpop (fun e => by simp) hs
  | popWaiting =>
    simp only [stepCall] at hs
    split_ifs at hs
    · exact hpop (fun e => by simp) hs
    · left
      simp only [Option.some.injEq, Prod.mk.injEq] at hs
      obtain ⟨rfl, rfl⟩ := hs
      exact ⟨fun e => by simp, fun e => by simp, rfl, rfl⟩
    · left
      simp only [Option.some.injEq, Prod.mk.injEq] at hs
      obtain ⟨rfl, rfl⟩ := hs
      exact ⟨fun e => by simp, fun e => by simp, rfl, rfl⟩
  | popStaged e0 =>
    right; right
    simp only [stepCall, Option.some.injEq, Prod.mk.injEq] at hs
    obtain ⟨rfl, rfl⟩ := hs
    exact ⟨⟨e0, rfl⟩, fun e => by simp, rfl, rfl⟩
  | popDone r n =>
    left
    simp only [stepCall, Option.some.injEq, Prod.mk.injEq] at hs
    obtain ⟨rfl, rfl⟩ := hs
    exact ⟨fun e => by simp, fun e => by simp, rfl, rfl⟩

theorem Sys.stagedAt_set (s s1 : Sys T) (i : Nat) (pc pc1 : Pc T)
    (hpc : s.calls[i]? = some pc) (hcalls : s1.calls = s.calls.set i pc1) (j : Nat) (e : T) :
    s1.stagedAt j e ↔ (j = i ∧ pc1 = Pc.popStaged e) ∨ (j ≠ i ∧ s.stagedAt j e) := by
  have hi : i < s.calls.length := by
    by_contra hge
    rw [List.getElem?_eq_none (by omega)] at hpc
    simp at hpc
  unfold Sys.stagedAt
  rw [hcalls]
  by_cases hj : j = i
  · subst hj
    rw [List.getElem?_set_self hi]
    simp
  · rw [List.getElem?_set_ne (Ne.symm hj)]
    simp [hj]

theorem StagingInv_step [Inhabited T] (s s1 : Sys T) (i : Nat) (expired : Bool)
    (h : StagingInv s) (hs : s.step i expired = some s1) : StagingInv s1 := by
  rcases Sys.step_cases s s1 i expired hs with ⟨_, rfl⟩ | ⟨pc, pc1, hpc, hst, hcalls⟩
  · exact h
  obtain ⟨huniq, hflag, hval⟩ := h
  have hset := Sys.stagedAt_set s s1 i pc pc1 hpc hcalls
  rcases stepCall_staging expired s.q s1.q pc pc1 hst with
    ⟨hne, hne1, hI, hP⟩ | ⟨hne, e, he, hI0, hI1, hP⟩ | ⟨⟨e0, he0⟩, hne1, hI1, hP⟩
  · -- the step neither starts nor ends a hand-over
    have hiff : ∀ j e, s1.stagedAt j e ↔ s.stagedAt j e := by
      intro j e
      rw [hset]
      constructor
      · rintro (⟨_, h1⟩ | ⟨_, h2⟩)
        · exact absurd h1 (hne1 e)
        · exact h2
      · intro h2
        right
        refine ⟨?_, h2⟩
        rintro rfl
        unfold Sys.stagedAt at h2
        rw [hpc] at h2
        exact hne e (Option.some.inj h2)
    refine ⟨?_, ?_, ?_⟩
    · intro j k e1 e2 h1 h2
      exact huniq j k e1 e2 ((hiff j e1).mp h1) ((hiff k e2).mp h2)
    · rw [hI, hflag]
      constructor
      · rintro ⟨j, e, hj⟩; exact ⟨j, e, (hiff j e).mpr hj⟩
      · rintro ⟨j, e, hj⟩; exact ⟨j, e, (hiff j e).mp hj⟩
    · intro j e hj
      rw [hP]; exact hval j e ((hiff j e).mp hj)
  · -- the step starts a hand-over: none was in flight
    have hnone : ∀ j e1, ¬ s.stagedAt j e1 := by
      intro j e1 hj
      have := hflag.mpr ⟨j, e1, hj⟩
      rw [hI0] at this
      exact Bool.noConfusion this
    have hiff : ∀ j e1, s1.stagedAt j e1 ↔ (j = i ∧ e1 = e) := by
      intro j e1
      rw [hset, he]
      constructor
      · rintro (⟨h1, h2⟩ | ⟨_, h2⟩)
        · exact ⟨h1, (Pc.popStaged.inj h2).symm⟩
        · exact absurd h2 (hnone j e1)
      · rintro ⟨h1, h2⟩
        left; exact ⟨h1, by rw [h2]⟩
    refine ⟨?_, ?_, ?_⟩
    · intro j k e1 e2 h1 h2
      rw [((hiff j e1).mp h1).1, ((hiff k e2).mp h2).1]
    · constructor
      · intro _; exact ⟨i, e, (hiff i e).mpr ⟨rfl, rfl⟩⟩
      · intro _; exact hI1
    · intro j e1 hj
      rw [hP, ((hiff j e1).mp hj).2]
  · -- the step ends the hand-over of call i, the only one in flight
    have hsi : s.stagedAt i e0 := by unfold Sys.stagedAt; rw [hpc, he0]
    have hnone : ∀ j e1, ¬ s1.stagedAt j e1 := by
      intro j e1 hj
      rcases (hset j e1).mp hj with ⟨_, h1⟩ | ⟨hji, h2⟩
      · exact hne1 e1 h1
      · exact hji (huniq j i e1 e0 h2 hsi)
    refine ⟨?_, ?_, ?_⟩
    · intro j k e1 e2 h1 _; exact absurd h1 (hnone j e1)
    · constructor
      · intro h1; rw [hI1] at h1; exact Bool.noConfusion h1
      · rintro ⟨j, e1, hj⟩; exact absurd hj (hnone j e1)
    · intro j e1 hj; exact absurd hj (hnone j e1)

theorem StagingInv_init [Inhabited T] (c : Int) (calls : List (Pc T))
    (hentry : calls.all Pc.isEntry = true) :
    StagingInv ({ q := Queue.ctor c, calls := calls } : Sys T) := by
  have hnone : ∀ j e, ¬ Sys.stagedAt ({ q := Queue.ctor c, calls := calls } : Sys T) j e := by
    intro j e hj
    unfold Sys.stagedAt at hj
    simp only at hj
    have hmem : Pc.popStaged e ∈ calls := List.getElem?_mem hj
    have := List.all_eq_true.mp hentry _ hmem
    simp [Pc.isEntry] at this
  refine ⟨?_, ?_, ?_⟩
  · intro j k e1 e2 h1 _; exact absurd h1 (hnone j e1)
  · constructor
    · intro h1
      by_cases hc : c > 0 <;> simp [Queue.ctor, hc] at h1
    · rintro ⟨j, e1, hj⟩; exact absurd hj (hnone j e1)
  · intro j e1 hj; exact absurd hj (hnone j e1)

/-- C9: in the interleaving semantics, where every stretch of `Push` and
`Pop` run under the lock is one atomic step, every schedule of calls on a
fresh `Queue(c)`, `c > 0`, runs through and reaches a state in which
(1) at most one `Pop` is between its staging write and its final locked
read, (2) `m_isInited` is true exactly when such a `Pop` exists, (3) the
final step of that `Pop` returns the element it removed from the buffer,
(4) a step of any other call leaves `m_poppedElement` and that `Pop` as
they are, and (5) while the hand-over is in flight and the queue is full a
contending `Pop` returns the default value and changes nothing; (6) the
element recorded at the staging write is the front of the buffer. -/
theorem C9_staging_exclusivity [Inhabited T] (c : Int) (hc : 0 < c) (calls : List (Pc T))
    (hentry : calls.all Pc.isEntry = true) (sched : List (Nat × Bool)) :
    ∃ s, Sys.run ({ q := Queue.ctor c, calls := calls } : Sys T) sched = some s ∧
      (∀ i j e1 e2, s.stagedAt i e1 → s.stagedAt j e2 → i = j) ∧
      (s.q.m_isInited = true ↔ ∃ i e, s.stagedAt i e) ∧
      (∀ i e, s.stagedAt i e → ∀ expired,
        stepCall expired s.q (Pc.popStaged e) =
          some ({ s.q with m_isInited := false }, Pc.popDone e true)) ∧
      (∀ i e j expired s1, s.stagedAt i e → j ≠ i → s.step j expired = some s1 →
        s1.stagedAt i e ∧ s1.q.m_poppedElement = s.q.m_poppedElement) ∧
      (∀ i e expired, s.stagedAt i e → s.q.m_count = s.q.m_size →
        stepCall expired s.q Pc.popEntry = some (s.q, Pc.popDone default false) ∧
        stepCall expired s.q Pc.popWaiting = some (s.q, Pc.popDone default false)) ∧
      (∀ (q q1 : Queue T) (e : T), popTakeStep q = some (q1, Pc.popStaged e) →
        q.m_queue = e :: q1.m_queue ∧ q1.m_poppedElement = e ∧ q1.m_isInited = true ∧
        q.m_isInited = false ∧ q.m_count = q.m_size) := by
  obtain ⟨s, hs⟩ := Sys.run_isSome sched
    ({ q := (Queue.ctor c : Queue T), calls := calls } : Sys T) (QueueInv_ctor c)
  have hinv : StagingInv s :=
    Sys.run_induction StagingInv StagingInv_step sched _ s (StagingInv_init c calls hentry) hs
  have hsize : s.q.m_size = c :=
    Sys.run_queue_induction (fun q : Queue T => q.m_size = c)
      (fun e q q1 pc pc1 h hst => (Size_stepCall e q q1 pc pc1 hst).trans h)
      sched _ s (by simp [Queue.ctor, hc]) hs
  obtain ⟨huniq, hflag, hval⟩ := hinv
  refine ⟨s, hs, huniq, hflag, ?_, ?_, ?_, ?_⟩
  · intro i e hi expired
    simp only [stepCall, hval i e hi]
  · intro i e j expired s1 hi hji hstep
    have hinv1 : StagingInv s1 := StagingInv_step s s1 j expired ⟨huniq, hflag, hval⟩ hstep
    have hi1 : s1.stagedAt i e := by
      rcases Sys.step_cases s s1 j expired hstep with ⟨_, rfl⟩ | ⟨pc, pc1, hpc, _, hcalls⟩
      · exact hi
      · exact (Sys.stagedAt_set s s1 j pc pc1 hpc hcalls i e).mpr (Or.inr ⟨Ne.symm hji, hi⟩)
    exact ⟨hi1, by rw [hinv1.2.2 i e hi1, hval i e hi]⟩
  · intro i e expired hi hfull
    have hI : s.q.m_isInited = true := hflag.mpr ⟨i, e, hi⟩
    have h1 : ¬ s.q.m_size ≤ 0 := by omega
    have h2 : ¬ s.q.m_size = 0 := by omega
    have h3 : 0 < s.q.m_size := by omega
    constructor <;> simp [stepCall, popTakeStep, hfull, hI, h1, h2, h3]
  · intro q q1 e hp
    rcases popTakeStep_staging q q1 _ hp with ⟨h1, _, _⟩ | ⟨e1, h1, h2, h3, h4, h5, h6⟩
    · exact absurd rfl (h1 e)
    · have he : e = e1 := Pc.popStaged.inj h1
      subst he
      exact ⟨h5, h4, h3, h2, h6⟩

/-- Witness of C9: capacity 1, two producers and two consumers; after the
schedule below the first consumer is inside its hand-over and the second
was turned away. -/
theorem C9_staging_exclusivity_witness :
    (0 : Int) < 1 ∧
    [Pc.pushEntry (7 : Int), Pc.popEntry, Pc.pushEntry 8, Pc.popEntry].all Pc.isEntry = true ∧
    ∃ s, Sys.run
        ({ q := Queue.ctor 1,
           calls := [Pc.pushEntry 7, Pc.popEntry, Pc.pushEntry 8, Pc.popEntry] } : Sys Int)
        [(0, false), (1, false), (2, false), (3, true)] = some s ∧
      (∀ i j e1 e2, s.stagedAt i e1 → s.stagedAt j e2 → i = j) ∧
      (s.q.m_isInited = true ↔ ∃ i e, s.stagedAt i e) ∧
      (∀ i e, s.stagedAt i e → ∀ expired,
        stepCall expired s.q (Pc.popStaged e) =
          some ({ s.q with m_isInited := false }, Pc.popDone e true)) ∧
      (∀ i e j expired s1, s.stagedAt i e → j ≠ i → s.step j expired = some s1 →
        s1.stagedAt i e ∧ s1.q.m_poppedElement = s.q.m_poppedElement) ∧
      (∀ i e expired, s.stagedAt i e → s.q.m_count = s.q.m_size →
        stepCall expired s.q Pc.popEntry = some (s.q, Pc.popDone default false) ∧
        stepCall expired s.q Pc.popWaiting = some (s.q, Pc.popDone default false)) ∧
      (∀ (q q1 : Queue Int) (e : Int), popTakeStep q = some (q1, Pc.popStaged e) →
        q.m_queue = e :: q1.m_queue ∧ q1.m_poppedElement = e ∧ q1.m_isInited = true ∧
        q.m_isInited = false ∧ q.m_count = q.m_size) :=
  ⟨by decide, by decide,
    C9_staging_exclusivity 1 (by decide) [Pc.pushEntry 7, Pc.popEntry, Pc.pushEntry 8, Pc.popEntry]
      (by decide) [(0, false), (1, false), (2, false), (3, true)]⟩

/-! ## Producers racing to fill the queue -/

theorem countP_set_add (p : Pc T → Bool) (l : List (Pc T)) :
    ∀ (i : Nat) (pc a : Pc T), l[i]? = some pc →
      (l.set i a).countP p + (if p pc then 1 else 0) = l.countP p + (if p a then 1 else 0) := by
  induction l with
  | nil => intro i pc a h; simp at h
  | cons x rest ih =>
    intro i pc a h
    cases i with
    | zero =>
      simp only [List.getElem?_cons_zero, Option.some.injEq] at h
      subst h
      simp only [List.set_cons_zero, List.countP_cons]
      omega
    | succ k =>
      simp only [List.getElem?_cons_succ] at h
      have := ih k pc a h
      simp only [List.set_cons_succ, List.countP_cons]
      omega

theorem okProducer_mono (pc : Pc T) (h : Pc.okProducer false pc = true) (b : Bool) :
    Pc.okProducer b pc = true := by
  cases pc with
  | pushDone s w n => cases s <;> simp_all [Pc.okProducer]
  | _ => simp_all [Pc.okProducer]

theorem all_set (p : Pc T → Bool) (l : List (Pc T)) (i : Nat) (a : Pc T)
    (hl : l.all p = true) (ha : p a = true) : (l.set i a).all p = true := by
  rw [List.all_eq_true] at hl ⊢
  intro x hx
  rcases List.mem_or_eq_of_mem_set hx with h | h
  · exact hl x h
  · rw [h]; exact ha


theorem set_same (l : List (Pc T)) :
    ∀ (i : Nat) (a : Pc T), l[i]? = some a → l.set i a = l := by
  induction l with
  | nil => intro i a h; simp at h
  | cons x rest ih =>
    intro i a h
    cases i with
    | zero =>
      simp only [List.getElem?_cons_zero, Option.some.injEq] at h
      rw [h, List.set_cons_zero]
    | succ k =>
      simp only [List.getElem?_cons_succ] at h
      rw [List.set_cons_succ, ih k a h]

theorem ProducersInv_step [Inhabited T] (c : Int) (hc : 0 < c) (s s1 : Sys T) (i : Nat)
    (expired : Bool) (h : ProducersInv c s) (hs : s.step i expired = some s1) :
    ProducersInv c s1 := by
  rcases Sys.step_cases s s1 i expired hs with ⟨_, rfl⟩ | ⟨pc, pc1, hpc, hst, hcalls⟩
  · exact h
  obtain ⟨hinv, hsize, hcnt, hall⟩ := h
  have hmem : pc ∈ s.calls := List.getElem?_mem hpc
  have hok : Pc.okProducer (decide (s.q.m_count = c)) pc = true := List.all_eq_true.mp hall pc hmem
  have hpos : ¬ s.q.m_size ≤ 0 := by omega
  -- a step that leaves the queue as it is and moves to a point that stores nothing
  have same : ∀ pc2 : Pc T, s1.q = s.q → pc1 = pc2 → Pc.isStored pc = false →
      Pc.isStored pc2 = false → Pc.okProducer (decide (s.q.m_count = c)) pc2 = true →
      ProducersInv c s1 := by
    intro pc2 hq hpc2 hst0 hst2 hok2
    subst hpc2
    have hc2 := countP_set_add Pc.isStored s.calls i pc pc1 hpc
    rw [hst0, hst2] at hc2
    refine ⟨by rw [hq]; exact hinv, by rw [hq]; exact hsize, ?_, ?_⟩
    · rw [hq, hcalls, ← hcnt]
      simp only [Bool.false_eq_true, if_false, add_zero] at hc2
      rw [hc2]
    · rw [hq, hcalls]
      exact all_set _ _ _ _ hall hok2
  -- a step that stores the element
  have store : ∀ (x : T) (w : Bool), s.q.m_count ≠ s.q.m_size → Pc.isStored pc = false →
      s1.q = pushStore s.q x → pc1 = Pc.pushDone true w (decide (s.q.m_count = 0)) →
      ProducersInv c s1 := by
    intro x w hne hst0 hq hpc1
    have hlt : s.q.m_count < s.q.m_size := lt_of_le_of_ne hinv.2.1 hne
    have hc2 := countP_set_add Pc.isStored s.calls i pc pc1 hpc
    rw [hst0, hpc1] at hc2
    simp only [Pc.isStored, Bool.false_eq_true, if_false, add_zero, if_true] at hc2
    refine ⟨by rw [hq]; exact QueueInv_pushStore s.q x hinv hlt, by rw [hq]; exact hsize, ?_, ?_⟩
    · rw [hq, hcalls, hpc1, hc2]
      simp only [pushStore]
      push_cast
      rw [hcnt]
    · rw [hcalls, hpc1]
      have hnf : decide (s.q.m_count = c) = false := by
        rw [decide_eq_false_iff_not, ← hsize]; exact hne
      rw [hnf] at hall
      refine all_set _ _ _ _ ?_ (by simp [Pc.okProducer])
      rw [List.all_eq_true] at hall ⊢
      intro y hy
      exact okProducer_mono y (hall y hy) _
  cases pc with
  | pushEntry x =>
    simp only [stepCall, pushStoreStep, hpos, if_false] at hst
    split_ifs at hst with h1 h2
    · omega
    · simp only [Option.some.injEq, Prod.mk.injEq] at hst
      exact same (Pc.pushWaiting x) hst.1.symm hst.2.symm rfl rfl
        (by simp [Pc.okProducer, ← hsize, h1])
    · simp only [Option.some.injEq, Prod.mk.injEq] at hst
      exact store x false h1 rfl hst.1.symm hst.2.symm
  | pushWaiting x =>
    have hfull : s.q.m_count = c := by simpa [Pc.okProducer] using hok
    simp only [stepCall, pushStoreStep] at hst
    split_ifs at hst with h1 h2
    · omega
    · simp only [Option.some.injEq, Prod.mk.injEq] at hst
      exact same (Pc.pushDone false true false) hst.1.symm hst.2.symm rfl rfl
        (by simp [Pc.okProducer, hfull])
    · simp only [Option.some.injEq, Prod.mk.injEq] at hst
      exact same (Pc.pushWaiting x) hst.1.symm hst.2.symm rfl rfl hok
  | pushDone st w n =>
    simp only [stepCall, Option.some.injEq, Prod.mk.injEq] at hst
    have hq : s1.q = s.q := hst.1.symm
    have hpc1 : pc1 = Pc.pushDone st w n := hst.2.symm
    have hsame : s.calls.set i pc1 = s.calls := by
      rw [hpc1]
      exact set_same s.calls i _ hpc
    exact ⟨by rw [hq]; exact hinv, by rw [hq]; exact hsize, by rw [hq, hcalls, hsame]; exact hcnt,
      by rw [hq, hcalls, hsame]; exact hall⟩
  | popEntry => simp [Pc.okProducer] at hok
  | popWaiting => simp [Pc.okProducer] at hok
  | popStaged e0 => simp [Pc.okProducer] at hok
  | popDone r n => simp [Pc.okProducer] at hok

/-! ## Every call can return: two steps with an expired timer suffice -/

theorem popTakeStep_next [Inhabited T] (q : Queue T) (h : QueueInv q) (hpos : q.m_count ≠ 0) :
    ∃ q1 pc1, popTakeStep q = some (q1, pc1) ∧
      (pc1.isDone = true ∨ ∃ e, pc1 = Pc.popStaged e) := by
  obtain ⟨q1, pc1, hp⟩ := popTakeStep_isSome q h hpos
  refine ⟨q1, pc1, hp, ?_⟩
  unfold popTakeStep at hp
  simp only at hp
  split at hp
  · simp only [Option.some.injEq, Prod.mk.injEq] at hp
    left; rw [← hp.2]; rfl
  · split at hp
    · simp at hp
    · split at hp
      · simp only [Option.some.injEq, Prod.mk.injEq] at hp
        left; rw [← hp.2]; rfl
      · simp only [Option.some.injEq, Prod.mk.injEq] at hp
        right; exact ⟨_, hp.2.symm⟩

theorem stepCall_first [Inhabited T] (q : Queue T) (pc : Pc T) (h : QueueInv q) :
    ∃ q1 pc1, stepCall true q pc = some (q1, pc1) ∧
      (pc1.isDone = true ∨ (∃ x, pc1 = Pc.pushWaiting x ∧ ¬ q1.m_count < q1.m_size) ∨
        (pc1 = Pc.popWaiting ∧ ¬ q1.m_count > 0) ∨ ∃ e, pc1 = Pc.popStaged e) := by
  have hpop : ∀ hpos : q.m_count ≠ 0, ∃ q1 pc1, popTakeStep q = some (q1, pc1) ∧
      (pc1.isDone = true ∨ (∃ x, pc1 = Pc.pushWaiting x ∧ ¬ q1.m_count < q1.m_size) ∨
        (pc1 = Pc.popWaiting ∧ ¬ q1.m_count > 0) ∨ ∃ e, pc1 = Pc.popStaged e) := by
    intro hpos
    obtain ⟨q1, pc1, hp, hd | hst⟩ := popTakeStep_next q h hpos
    · exact ⟨q1, pc1, hp, Or.inl hd⟩
    · exact ⟨q1, pc1, hp, Or.inr (Or.inr (Or.inr hst))⟩
  cases pc with
  | pushEntry x =>
    simp only [stepCall, pushStoreStep]
    split_ifs with h1 h2 h3
    · exact ⟨_, _, rfl, Or.inl rfl⟩
    · exact ⟨_, _, rfl, Or.inl rfl⟩
    · exact ⟨_, _, rfl, Or.inr (Or.inl ⟨x, rfl, h3⟩)⟩
    · exact ⟨_, _, rfl, Or.inl rfl⟩
  | pushWaiting x =>
    simp only [stepCall, pushStoreStep, if_true]
    split_ifs
    · exact ⟨_, _, rfl, Or.inl rfl⟩
    · exact ⟨_, _, rfl, Or.inl rfl⟩
  | pushDone s w n => exact ⟨_, _, rfl, Or.inl rfl⟩
  | popEntry =>
    simp only [stepCall]
    split_ifs with h1 h2 h3
    · exact ⟨_, _, rfl, Or.inl rfl⟩
    · omega
    · exact ⟨_, _, rfl, Or.inr (Or.inr (Or.inl ⟨rfl, h3⟩))⟩
    · exact hpop h2
  | popWaiting =>
    simp only [stepCall, if_true]
    split_ifs with h1
    · exact hpop (by omega)
    · exact ⟨_, _, rfl, Or.inl rfl⟩
  | popStaged e => exact ⟨_, _, rfl, Or.inl rfl⟩
  | popDone r n => exact ⟨_, _, rfl, Or.inl rfl⟩

theorem stepCall_second [Inhabited T] (q : Queue T) (pc : Pc T)
    (h : pc.isDone = true ∨ (∃ x, pc = Pc.pushWaiting x ∧ ¬ q.m_count < q.m_size) ∨
        (pc = Pc.popWaiting ∧ ¬ q.m_count > 0) ∨ ∃ e, pc = Pc.popStaged e) :
    ∃ q1 pc1, stepCall true q pc = some (q1, pc1) ∧ pc1.isDone = true := by
  rcases h with hd | ⟨x, rfl, hx⟩ | ⟨rfl, hx⟩ | ⟨e, rfl⟩
  · cases pc with
    | pushDone s w n => exact ⟨_, _, rfl, rfl⟩
    | popDone r n => exact ⟨_, _, rfl, rfl⟩
    | _ => simp [Pc.isDone] at hd
  · exact ⟨q, Pc.pushDone false true false, by simp [stepCall, hx], rfl⟩
  · exact ⟨q, Pc.popDone default false, by simp [stepCall, hx], rfl⟩
  · exact ⟨_, _, rfl, rfl⟩

theorem stepCall_twice [Inhabited T] (q : Queue T) (pc : Pc T) (h : QueueInv q) :
    ∃ q1 pc1 q2 pc2, stepCall true q pc = some (q1, pc1) ∧
      stepCall true q1 pc1 = some (q2, pc2) ∧ pc2.isDone = true ∧ QueueInv q2 := by
  obtain ⟨q1, pc1, h1, hn⟩ := stepCall_first q pc h
  obtain ⟨q2, pc2, h2, hd⟩ := stepCall_second q1 pc1 hn
  have hi1 := QueueInv_stepCall true q q1 pc pc1 h h1
  exact ⟨q1, pc1, q2, pc2, h1, h2, hd, QueueInv_stepCall true q1 q2 pc1 pc2 hi1 h2⟩

theorem Sys.run_append [Inhabited T] (a b : List (Nat × Bool)) :
    ∀ (s s1 s2 : Sys T), s.run a = some s1 → s1.run b = some s2 → s.run (a ++ b) = some s2 := by
  induction a with
  | nil =>
    intro s s1 s2 h1 h2
    simp only [Sys.run, Option.some.injEq] at h1
    subst h1
    simpa using h2
  | cons x rest ih =>
    intro s s1 s2 h1 h2
    obtain ⟨i, expired⟩ := x
    rw [List.cons_append]
    simp only [Sys.run] at h1 ⊢
    cases hs3 : s.step i expired with
    | none => simp [hs3] at h1
    | some s3 =>
      simp only [hs3] at h1 ⊢
      exact ih s3 s1 s2 h1 h2

theorem Sys.finish_one [Inhabited T] (s : Sys T) (i : Nat) (hi : i < s.calls.length)
    (h : QueueInv s.q) :
    ∃ s2, s.run [(i, true), (i, true)] = some s2 ∧ QueueInv s2.q ∧
      s2.calls.length = s.calls.length ∧
      (∃ pc2, s2.calls[i]? = some pc2 ∧ pc2.isDone = true) ∧
      ∀ j, j ≠ i → s2.calls[j]? = s.calls[j]? := by
  have hpc : s.calls[i]? = some (s.calls[i]) := List.getElem?_eq_getElem hi
  obtain ⟨q1, pc1, q2, pc2, h1, h2, hd, hI⟩ := stepCall_twice s.q (s.calls[i]) h
  have hi1 : i < (s.calls.set i pc1).length := by rw [List.length_set]; exact hi
  refine ⟨{ q := q2, calls := (s.calls.set i pc1).set i pc2 }, ?_, hI, ?_, ⟨pc2, ?_, hd⟩, ?_⟩
  · simp only [Sys.run, Sys.step, hpc, h1, List.getElem?_set_self hi, h2]
  · simp only [List.length_set]
  · exact List.getElem?_set_self hi1
  · intro j hj
    simp only
    rw [List.getElem?_set_ne (Ne.symm hj), List.getElem?_set_ne (Ne.symm hj)]

theorem Sys.finish_all [Inhabited T] (s : Sys T) (h : QueueInv s.q) :
    ∀ n, n ≤ s.calls.length →
      ∃ s1, s.run (finishSched n) = some s1 ∧ QueueInv s1.q ∧
        s1.calls.length = s.calls.length ∧
        ∀ j, j < n → ∃ pc, s1.calls[j]? = some pc ∧ pc.isDone = true := by
  intro n
  induction n with
  | zero =>
    intro _
    exact ⟨s, rfl, h, rfl, fun j hj => absurd hj (Nat.not_lt_zero j)⟩
  | succ n ih =>
    intro hn
    obtain ⟨s1, hr1, hI1, hl1, hd1⟩ := ih (by omega)
    obtain ⟨s2, hr2, hI2, hl2, hd2, hsame⟩ := Sys.finish_one s1 n (by omega) hI1
    refine ⟨s2, Sys.run_append _ _ s s1 s2 hr1 hr2, hI2, by rw [hl2, hl1], ?_⟩
    intro j hj
    by_cases hjn : j = n
    · rw [hjn]; exact hd2
    · rw [hsame j hjn]; exact hd1 j (by omega)

theorem Sys.can_finish [Inhabited T] (s : Sys T) (h : QueueInv s.q) :
    ∃ s1, s.run (finishSched s.calls.length) = some s1 ∧ s1.calls.all Pc.isDone = true := by
  obtain ⟨s1, hr, _, hl, hd⟩ := Sys.finish_all s h s.calls.length (le_refl _)
  refine ⟨s1, hr, ?_⟩
  rw [List.all_eq_true]
  intro pc hpc
  obtain ⟨j, hj⟩ := List.mem_iff_getElem?.mp hpc
  have hlt : j < s.calls.length := by
    by_contra hge
    rw [List.getElem?_eq_none (by omega)] at hj
    simp at hj
  obtain ⟨pc1, h1, h2⟩ := hd j hlt
  rw [hj] at h1
  rw [Option.some.inj h1]; exact h2

theorem producers_done_count (full : Bool) (l : List (Pc T))
    (hall : l.all (Pc.okProducer full) = true) (hdone : l.all Pc.isDone = true) :
    l.countP Pc.isStored + l.countP Pc.isDroppedAfterWait = l.length ∧
    (full = false → l.countP Pc.isDroppedAfterWait = 0) := by
  induction l with
  | nil => simp
  | cons pc rest ih =>
    simp only [List.all_cons, Bool.and_eq_true] at hall hdone
    obtain ⟨h1, h2⟩ := ih hall.2 hdone.2
    have hpc := hall.1
    have hd := hdone.1
    simp only [List.countP_cons, List.length_cons]
    cases pc with
    | pushDone st w n =>
      cases st
      · cases w
        · simp [Pc.okProducer] at hpc
        · simp only [Pc.okProducer, Bool.true_and] at hpc
          simp only [Pc.isStored, Pc.isDroppedAfterWait]
          refine ⟨by simp; omega, ?_⟩
          intro hf; rw [hf] at hpc; exact Bool.noConfusion hpc
      · simp only [Pc.isStored, Pc.isDroppedAfterWait]
        refine ⟨by simp; omega, ?_⟩
        intro hf; simpa using h2 hf
    | pushEntry x => simp [Pc.isDone] at hd
    | pushWaiting x => simp [Pc.isDone] at hd
    | popEntry => simp [Pc.isDone] at hd
    | popWaiting => simp [Pc.isDone] at hd
    | popStaged e => simp [Pc.isDone] at hd
    | popDone r n => simp [Pc.okProducer] at hpc

theorem ProducersInv_init [Inhabited T] (c : Int) (hc : 0 < c) (xs : List T) :
    ProducersInv c ({ q := Queue.ctor c, calls := xs.map Pc.pushEntry } : Sys T) := by
  refine ⟨QueueInv_ctor c, by simp [Queue.ctor, hc], ?_, ?_⟩
  · have h0 : (xs.map (Pc.pushEntry : T → Pc T)).countP Pc.isStored = 0 := by
      rw [List.countP_eq_zero]
      intro pc hpc
      obtain ⟨x, _, rfl⟩ := List.mem_map.mp hpc
      simp [Pc.isStored]
    simp only [h0]
    simp [Queue.ctor, hc]
  · rw [List.all_eq_true]
    intro pc hpc
    obtain ⟨x, _, rfl⟩ := List.mem_map.mp hpc
    rfl

theorem Sys.run_length [Inhabited T] (sched : List (Nat × Bool)) (s s1 : Sys T)
    (hr : s.run sched = some s1) : s1.calls.length = s.calls.length := by
  refine Sys.run_induction (fun t : Sys T => t.calls.length = s.calls.length) ?_ sched s s1 rfl hr
  intro t t1 i expired hP hs
  rcases Sys.step_cases t t1 i expired hs with ⟨_, rfl⟩ | ⟨pc, pc1, _, _, hcalls⟩
  · exact hP
  · show t1.calls.length = s.calls.length
    rw [hcalls, List.length_set]; exact hP

/-- C10: `N ≥ c` producers each call `Push` once on an empty queue of
capacity `c > 0`, with no consumer.  Every schedule runs through; in every
state reached the count is at most `c` and equals both the length of the
buffer and the number of producers that stored their element; once all
calls have returned, `Count()` is `c`, exactly `c` producers have stored
and the other `N - c` have returned empty-handed after their timed wait;
and from every state reached all calls do return when their timers
expire. -/
theorem C10_producers_fill_to_capacity [Inhabited T] (c : Int) (hc : 0 < c) (xs : List T)
    (hN : c ≤ (xs.length : Int)) (sched : List (Nat × Bool)) :
    ∃ s, Sys.run ({ q := Queue.ctor c, calls := xs.map Pc.pushEntry } : Sys T) sched = some s ∧
      Count s.q ≤ c ∧ ((s.q.m_queue.length : Nat) : Int) = Count s.q ∧
      ((s.calls.countP Pc.isStored : Nat) : Int) = Count s.q ∧
      (s.calls.all Pc.isDone = true →
        Count s.q = c ∧ ((s.calls.countP Pc.isStored : Nat) : Int) = c ∧
        ((s.calls.countP Pc.isDroppedAfterWait : Nat) : Int) = (xs.length : Int) - c) ∧
      ∃ s1, s.run (finishSched xs.length) = some s1 ∧ s1.calls.all Pc.isDone = true := by
  obtain ⟨s, hs⟩ := Sys.run_isSome sched
    ({ q := (Queue.ctor c : Queue T), calls := xs.map Pc.pushEntry } : Sys T) (QueueInv_ctor c)
  have hinv : ProducersInv c s :=
    Sys.run_induction (ProducersInv c) (ProducersInv_step c hc) sched _ s
      (ProducersInv_init c hc xs) hs
  have hlen : s.calls.length = xs.length := by
    have := Sys.run_length sched _ s hs
    simpa using this
  obtain ⟨hI, hsize, hcnt, hall⟩ := hinv
  refine ⟨s, hs, by rw [Count, ← hsize]; exact hI.2.1, hI.2.2, hcnt, ?_, ?_⟩
  · intro hdone
    obtain ⟨hsum, hnone⟩ := producers_done_count _ s.calls hall hdone
    have hfull : s.q.m_count = c := by
      by_contra hne
      have h0 := hnone (decide_eq_false hne)
      have hle := hI.2.1
      omega
    refine ⟨hfull, by rw [hcnt, hfull], ?_⟩
    omega
  · have := Sys.can_finish s hI
    rw [hlen] at this
    exact this

/-- Witness of C10: capacity 1 and three producers; the schedule lets
producer 1 store first and producer 0 time out. -/
theorem C10_producers_fill_to_capacity_witness :
    (0 : Int) < 1 ∧ (1 : Int) ≤ ([(5 : Int), 6, 7].length : Int) ∧
    ∃ s, Sys.run ({ q := Queue.ctor 1, calls := [(5 : Int), 6, 7].map Pc.pushEntry } : Sys Int)
        [(1, false), (0, false), (0, true), (2, false)] = some s ∧
      Count s.q ≤ 1 ∧ ((s.q.m_queue.length : Nat) : Int) = Count s.q ∧
      ((s.calls.countP Pc.isStored : Nat) : Int) = Count s.q ∧
      (s.calls.all Pc.isDone = true →
        Count s.q = 1 ∧ ((s.calls.countP Pc.isStored : Nat) : Int) = 1 ∧
        ((s.calls.countP Pc.isDroppedAfterWait : Nat) : Int) =
          ([(5 : Int), 6, 7].length : Int) - 1) ∧
      ∃ s1, s.run (finishSched [(5 : Int), 6, 7].length) = some s1 ∧
        s1.calls.all Pc.isDone = true :=
  ⟨by decide, by decide,
    C10_producers_fill_to_capacity 1 (by decide) [5, 6, 7] (by decide)
      [(1, false), (0, false), (0, true), (2, false)]⟩

/-! ## Consumers racing to drain a full queue -/

theorem okConsumer_mono (pc : Pc T) (h : Pc.okConsumer true pc = true) (b : Bool) :
    Pc.okConsumer b pc = true := by
  cases pc <;> simp_all [Pc.okConsumer]

theorem popTakeStep_remove [Inhabited T] (q : Queue T)
    (hlen : (q.m_queue.length : Int) = q.m_count) (hpos : q.m_count ≠ 0)
    (hguard : ¬ (q.m_count = q.m_size ∧ q.m_isInited = true)) :
    ∃ x rest q1 pc1, q.m_queue = x :: rest ∧ popTakeStep q = some (q1, pc1) ∧
      q1.m_queue = rest ∧ q1.m_count = q.m_count - 1 ∧ q1.m_size = q.m_size ∧
      ((q.m_count ≠ q.m_size ∧ pc1 = Pc.popDone x false ∧ q1.m_isInited = q.m_isInited ∧
          q1.m_poppedElement = q.m_poppedElement) ∨
        (q.m_count = q.m_size ∧ pc1 = Pc.popStaged x ∧ q1.m_isInited = true ∧
          q1.m_poppedElement = x)) := by
  have h2 := hlen
  cases hq : q.m_queue with
  | nil =>
    rw [hq] at h2
    simp only [List.length_nil] at h2
    exact absurd h2.symm hpos
  | cons x rest =>
    by_cases hf : q.m_count = q.m_size
    · have hI : q.m_isInited = false := by
        cases hi : q.m_isInited
        · rfl
        · exact absurd ⟨hf, hi⟩ hguard
      exact ⟨x, rest,
        { q with m_queue := rest, m_count := q.m_count - 1, m_poppedElement := x,
                 m_isInited := true }, Pc.popStaged x, rfl,
        by simp [popTakeStep, hq, hf, hI], rfl, rfl, rfl, Or.inr ⟨hf, rfl, rfl, rfl⟩⟩
    · exact ⟨x, rest, { q with m_queue := rest, m_count := q.m_count - 1 }, Pc.popDone x false,
        rfl, by simp [popTakeStep, hq, hf], rfl, rfl, rfl, Or.inl ⟨hf, rfl, rfl, rfl⟩⟩


theorem ConsumersInv_step [Inhabited T] (c : Int) (hc : 0 < c) (s s1 : Sys T) (i : Nat)
    (expired : Bool) (h : ConsumersInv c s) (hs : s.step i expired = some s1) :
    ConsumersInv c s1 := by
  rcases Sys.step_cases s s1 i expired hs with ⟨_, rfl⟩ | ⟨pc, pc1, hpc, hst, hcalls⟩
  · exact h
  obtain ⟨hinv, hsize, hflag, hall, hsum⟩ := h
  have hmem : pc ∈ s.calls := List.getElem?_mem hpc
  have hok : Pc.okConsumer (decide (0 < s.q.m_count)) pc = true :=
    List.all_eq_true.mp hall pc hmem
  have hpos : ¬ s.q.m_size ≤ 0 := by omega
  have hguard : ¬ (s.q.m_count = s.q.m_size ∧ s.q.m_isInited = true) := by
    rintro ⟨h1, h2⟩
    have := hflag h2
    omega
  -- a step on an empty queue that leaves it as it is
  have idle : ∀ pc2 : Pc T, s.q.m_count = 0 → s1.q = s.q → pc1 = pc2 →
      Pc.okConsumer false pc2 = true → ConsumersInv c s1 := by
    intro pc2 hz hq hpc2 hok2
    subst hpc2
    have hd : decide (0 < s.q.m_count) = false := by simp [hz]
    refine ⟨by rw [hq]; exact hinv, by rw [hq]; exact hsize, by rw [hq]; exact hflag, ?_, ?_⟩
    · rw [hq, hcalls, hd]
      rw [hd] at hall
      exact all_set _ _ _ _ hall hok2
    · rw [hq, hz]; intro h0; exact absurd h0 (lt_irrefl 0)
  -- a step that removes the front element
  have take : pc.isPastEntry = false → 0 < s.q.m_count → stepCall expired s.q pc = popTakeStep s.q →
      ConsumersInv c s1 := by
    intro hpe hgt heq
    obtain ⟨x, rest, q1, pc2, hq, hp, hq1, hc1, hs1, hcase⟩ :=
      popTakeStep_remove s.q hinv.2.2 (by omega) hguard
    rw [heq, hp] at hst
    simp only [Option.some.injEq, Prod.mk.injEq] at hst
    obtain ⟨hqe, hpce⟩ := hst
    subst hqe hpce
    have hlen := hinv.2.2
    rw [hq] at hlen
    simp only [List.length_cons] at hlen
    push_cast at hlen
    have hpast : Pc.isPastEntry pc2 = true := by
      rcases hcase with ⟨_, h2, _⟩ | ⟨_, h2, _⟩ <;> rw [h2] <;> rfl
    have hok2 : ∀ b, Pc.okConsumer b pc2 = true := by
      intro b
      rcases hcase with ⟨_, h2, _⟩ | ⟨_, h2, _⟩ <;> rw [h2] <;> rfl
    have hc2 := countP_set_add Pc.isPastEntry s.calls i pc pc2 hpc
    rw [hpe, hpast] at hc2
    simp only [Bool.false_eq_true, if_false, add_zero, if_true] at hc2
    have hsum0 := hsum hgt
    have hinv1 : QueueInv s1.q := QueueInv_popTakeStep s.q s1.q pc2 hinv hp
    refine ⟨hinv1, by rw [hs1]; exact hsize, ?_, ?_, ?_⟩
    · intro _; have := hinv.2.1; omega
    · rw [hcalls]
      have hd : decide (0 < s.q.m_count) = true := by simp [hgt]
      rw [hd] at hall
      refine all_set _ _ _ _ ?_ (hok2 _)
      rw [List.all_eq_true] at hall ⊢
      intro y hy
      exact okConsumer_mono y (hall y hy) _
    · intro _
      rw [hcalls, hc2, hc1]
      push_cast
      omega
  cases pc with
  | pushEntry x => simp [Pc.okConsumer] at hok
  | pushWaiting x => simp [Pc.okConsumer] at hok
  | pushDone st w n => simp [Pc.okConsumer] at hok
  | popEntry =>
    by_cases hz : s.q.m_count = 0
    · simp only [stepCall, hpos, hz, if_false, if_true, gt_iff_lt, lt_irrefl] at hst
      simp only [Option.some.injEq, Prod.mk.injEq] at hst
      exact idle Pc.popWaiting hz hst.1.symm hst.2.symm rfl
    · have hgt : 0 < s.q.m_count := lt_of_le_of_ne hinv.1 (Ne.symm hz)
      exact take rfl hgt (by simp [stepCall, hpos, hz])
  | popWaiting =>
    have hz : s.q.m_count = 0 := by
      have := hinv.1
      simp only [Pc.okConsumer, Bool.not_eq_true', decide_eq_false_iff_not, not_lt] at hok
      omega
    simp only [stepCall, hz, gt_iff_lt, lt_irrefl, if_false] at hst
    split_ifs at hst
    · simp only [Option.some.injEq, Prod.mk.injEq] at hst
      exact idle (Pc.popDone default false) hz hst.1.symm hst.2.symm rfl
    · simp only [Option.some.injEq, Prod.mk.injEq] at hst
      exact idle Pc.popWaiting hz hst.1.symm hst.2.symm rfl
  | popStaged e0 =>
    simp only [stepCall, Option.some.injEq, Prod.mk.injEq] at hst
    obtain ⟨hq, hpc1⟩ := hst
    have hc2 := countP_set_add Pc.isPastEntry s.calls i (Pc.popStaged e0) pc1 hpc
    rw [← hpc1] at hc2
    simp only [Pc.isPastEntry, if_true, add_left_inj] at hc2
    refine ⟨?_, by rw [← hq]; exact hsize, ?_, ?_, ?_⟩
    · rw [← hq]; exact hinv
    · rw [← hq]; intro h1; exact absurd h1 (by simp)
    · rw [hcalls, ← hq, ← hpc1]
      exact all_set _ _ _ _ hall rfl
    · rw [hcalls, ← hpc1, hc2, ← hq]; exact hsum
  | popDone r n =>
    simp only [stepCall, Option.some.injEq, Prod.mk.injEq] at hst
    have hq : s1.q = s.q := hst.1.symm
    have hsame : s.calls.set i pc1 = s.calls := by
      rw [← hst.2]
      exact set_same s.calls i _ hpc
    exact ⟨by rw [hq]; exact hinv, by rw [hq]; exact hsize, by rw [hq]; exact hflag,
      by rw [hq, hcalls, hsame]; exact hall, by rw [hq, hcalls, hsame]; exact hsum⟩

theorem consumers_done_count (b : Bool) (l : List (Pc T))
    (hall : l.all (Pc.okConsumer b) = true) (hdone : l.all Pc.isDone = true) :
    l.countP Pc.isPastEntry = l.length := by
  induction l with
  | nil => rfl
  | cons pc rest ih =>
    simp only [List.all_cons, Bool.and_eq_true] at hall hdone
    have h1 := ih hall.2 hdone.2
    have hpc := hall.1
    have hd := hdone.1
    cases pc with
    | popDone r n => simp [Pc.isPastEntry, h1]
    | pushDone st w n => simp [Pc.okConsumer] at hpc
    | pushEntry x => simp [Pc.isDone] at hd
    | pushWaiting x => simp [Pc.isDone] at hd
    | popEntry => simp [Pc.isDone] at hd
    | popWaiting => simp [Pc.isDone] at hd
    | popStaged e => simp [Pc.isDone] at hd

theorem ConsumersInv_init (c : Int) (q : Queue T) (hinv : QueueInv q) (hsize : q.m_size = c)
    (hfull : q.m_count = c) (hflag : q.m_isInited = false) (n : Nat) :
    ConsumersInv c ({ q := q, calls := List.replicate n Pc.popEntry } : Sys T) := by
  refine ⟨hinv, hsize, ?_, ?_, ?_⟩
  · intro h; simp only at h; rw [hflag] at h; exact Bool.noConfusion h
  · rw [List.all_eq_true]
    intro pc hpc
    rw [List.eq_of_mem_replicate hpc]
    rfl
  · intro _
    have h0 : (List.replicate n (Pc.popEntry : Pc T)).countP Pc.isPastEntry = 0 := by
      rw [List.countP_eq_zero]
      intro pc hpc
      rw [List.eq_of_mem_replicate hpc]
      simp [Pc.isPastEntry]
    simp only [h0, hfull]
    simp

/-- C11: `N ≥ c` consumers each call `Pop` once on a full queue of capacity
`c > 0` with no hand-over in flight and no producer.  Every schedule runs
through; in no state reached is the staging guard able to fire (the queue
is never full with `m_isInited` set), so no consumer is turned away while
elements remain; once all calls have returned, `Count()` is 0 and the
buffer is empty; and from every state reached all calls do return when
their timers expire. -/
theorem C11_consumers_drain_full_queue [Inhabited T] (c : Int) (hc : 0 < c) (q : Queue T)
    (hinv : QueueInv q) (hsize : q.m_size = c) (hfull : q.m_count = c)
    (hflag : q.m_isInited = false) (n : Nat) (hn : c ≤ (n : Int))
    (sched : List (Nat × Bool)) :
    ∃ s, Sys.run ({ q := q, calls := List.replicate n Pc.popEntry } : Sys T) sched = some s ∧
      0 ≤ Count s.q ∧ Count s.q ≤ c ∧
      ¬ (s.q.m_count = s.q.m_size ∧ s.q.m_isInited = true) ∧
      (s.calls.all Pc.isDone = true → Count s.q = 0 ∧ s.q.m_queue = []) ∧
      ∃ s1, s.run (finishSched n) = some s1 ∧ s1.calls.all Pc.isDone = true := by
  obtain ⟨s, hs⟩ := Sys.run_isSome sched
    ({ q := q, calls := List.replicate n Pc.popEntry } : Sys T) hinv
  have hI : ConsumersInv c s :=
    Sys.run_induction (ConsumersInv c) (ConsumersInv_step c hc) sched _ s
      (ConsumersInv_init c q hinv hsize hfull hflag n) hs
  have hlen : s.calls.length = n := by
    have := Sys.run_length sched _ s hs
    simpa using this
  obtain ⟨hqi, hsz, hfl, hall, hsum⟩ := hI
  refine ⟨s, hs, hqi.1, by rw [Count, ← hsz]; exact hqi.2.1, ?_, ?_, ?_⟩
  · rintro ⟨h1, h2⟩
    have := hfl h2
    omega
  · intro hdone
    have hcnt := consumers_done_count _ s.calls hall hdone
    have hz : s.q.m_count = 0 := by
      by_contra hne
      have hgt : 0 < s.q.m_count := lt_of_le_of_ne hqi.1 (Ne.symm hne)
      have := hsum hgt
      rw [hcnt, hlen] at this
      omega
    refine ⟨hz, ?_⟩
    have hl := hqi.2.2
    rw [hz] at hl
    exact List.length_eq_zero.mp (by exact_mod_cast hl)
  · have := Sys.can_finish s hqi
    rw [hlen] at this
    exact this

/-- Witness of C11: a full queue of capacity 2 and three consumers; the
third consumer steps first and takes the staged path. -/
theorem C11_consumers_drain_full_queue_witness :
    (0 : Int) < 2 ∧
    QueueInv ({ m_count := 2, m_size := 2, m_queue := [4, 5], m_poppedElement := 0,
                m_isInited := false } : Queue Int) ∧
    (2 : Int) ≤ ((3 : Nat) : Int) ∧
    ∃ s, Sys.run
        ({ q := { m_count := 2, m_size := 2, m_queue := [4, 5], m_poppedElement := 0,
                  m_isInited := false },
           calls := List.replicate 3 Pc.popEntry } : Sys Int)
        [(2, false), (0, false), (1, false), (1, true)] = some s ∧
      0 ≤ Count s.q ∧ Count s.q ≤ 2 ∧
      ¬ (s.q.m_count = s.q.m_size ∧ s.q.m_isInited = true) ∧
      (s.calls.all Pc.isDone = true → Count s.q = 0 ∧ s.q.m_queue = []) ∧
      ∃ s1, s.run (finishSched 3) = some s1 ∧ s1.calls.all Pc.isDone = true :=
  ⟨by decide, by decide, by decide,
    C11_consumers_drain_full_queue 2 (by decide)
      ({ m_count := 2, m_size := 2, m_queue := [4, 5], m_poppedElement := 0,
         m_isInited := false } : Queue Int)
      (by decide) rfl rfl rfl 3 (by decide) [(2, false), (0, false), (1, false), (1, true)]⟩

/-! ## The paths of `Pop` -/

theorem popTake_remove [Inhabited T] (q : Queue T)
    (hlen : (q.m_queue.length : Int) = q.m_count) (hpos : q.m_count ≠ 0)
    (hguard : ¬ (q.m_count = q.m_size ∧ q.m_isInited = true)) :
    ∃ x rest q1, q.m_queue = x :: rest ∧ popTake q = some (x, q1) ∧
      q1.m_queue = rest ∧ q1.m_count = q.m_count - 1 ∧ q1.m_size = q.m_size ∧
      ((q.m_count ≠ q.m_size ∧ q1.m_isInited = q.m_isInited ∧
          q1.m_poppedElement = q.m_poppedElement) ∨
        (q.m_count = q.m_size ∧ q1.m_isInited = false ∧ q1.m_poppedElement = x)) := by
  cases hq : q.m_queue with
  | nil =>
    rw [hq] at hlen
    simp only [List.length_nil] at hlen
    exact absurd hlen.symm hpos
  | cons x rest =>
    by_cases hf : q.m_count = q.m_size
    · have hI : q.m_isInited = false := by
        cases hi : q.m_isInited
        · rfl
        · exact absurd ⟨hf, hi⟩ hguard
      exact ⟨x, rest,
        { q with m_queue := rest, m_count := q.m_count - 1, m_poppedElement := x,
                 m_isInited := false }, rfl,
        by simp [popTake, hq, hf, hI], rfl, rfl, rfl, Or.inr ⟨hf, rfl, rfl⟩⟩
    · exact ⟨x, rest, { q with m_queue := rest, m_count := q.m_count - 1 },
        rfl, by simp [popTake, hq, hf], rfl, rfl, rfl, Or.inl ⟨hf, rfl, rfl⟩⟩

theorem Pop_eq_popTake [Inhabited T] (q : Queue T) (h1 : 0 < q.m_size) (h2 : q.m_count ≠ 0) :
    Pop q = popTake q := by
  simp [Pop, not_le.mpr h1, h2]

theorem stepCall_popEntry_take [Inhabited T] (expired : Bool) (q : Queue T) (h1 : 0 < q.m_size)
    (h2 : q.m_count ≠ 0) : stepCall expired q Pc.popEntry = popTakeStep q := by
  simp [stepCall, not_le.mpr h1, h2]

theorem stepCall_popWaiting_take [Inhabited T] (expired : Bool) (q : Queue T)
    (h2 : 0 < q.m_count) : stepCall expired q Pc.popWaiting = popTakeStep q := by
  simp [stepCall, h2]

/-- C13: for every queue of capacity greater than 0 that satisfies the
invariant, holds an element and has `m_isInited = false`, a sequential
`Pop` returns the front element, leaves the buffer equal to its tail, the
count one lower and `m_isInited = false`, whether the queue was full or
not; value, buffer, count, capacity and flag are those of the direct path
(lines 89-93).  In the step semantics a queue that is not full takes the
direct path in one step and a full queue takes the staged path (staging
write, then the locked read), with the same outcome. -/
theorem C13_pop_returns_front_on_both_paths [Inhabited T] (q : Queue T) (hc : 0 < q.m_size)
    (hinv : QueueInv q) (hpos : 0 < q.m_count) (hflag : q.m_isInited = false) :
    ∃ x rest q1 qd, q.m_queue = x :: rest ∧ Pop q = some (x, q1) ∧ popDirect q = some (x, qd) ∧
      q1.m_queue = rest ∧ q1.m_count = q.m_count - 1 ∧ q1.m_isInited = false ∧
      q1.m_queue = qd.m_queue ∧ q1.m_count = qd.m_count ∧ q1.m_size = qd.m_size ∧
      q1.m_isInited = qd.m_isInited ∧
      (q.m_count ≠ q.m_size → q1 = qd ∧
        ∀ expired, stepCall expired q Pc.popEntry = some (q1, Pc.popDone x false)) ∧
      (q.m_count = q.m_size → q1 = { qd with m_poppedElement := x } ∧
        ∀ expired, ∃ q2, stepCall expired q Pc.popEntry = some (q2, Pc.popStaged x) ∧
          q2 = { q1 with m_isInited := true } ∧
          stepCall expired q2 (Pc.popStaged x) = some (q1, Pc.popDone x true)) := by
  have hz : q.m_count ≠ 0 := by omega
  cases hq : q.m_queue with
  | nil =>
    have := hinv.2.2
    rw [hq] at this
    simp only [List.length_nil] at this
    exact absurd this.symm hz
  | cons x rest =>
    have hP := Pop_of_cons q x rest hc hz hflag hq
    obtain ⟨cnt, sz, buf, pe, ini⟩ := q
    simp only at hc hpos hflag hz hq hP
    subst hflag hq
    by_cases hf : cnt = sz
    · subst hf
      simp only [if_true] at hP
      refine ⟨x, rest, Queue.mk (cnt - 1) cnt rest x false, Queue.mk (cnt - 1) cnt rest pe false,
        rfl, hP, by simp [popDirect], rfl, rfl, rfl, rfl, rfl, rfl, rfl,
        fun h => absurd rfl h, fun _ => ⟨rfl, fun expired => ⟨_, ?_, rfl, ?_⟩⟩⟩
      · simp [stepCall, popTakeStep, not_le.mpr hc, hz]
      · simp [stepCall]
    · simp only [hf, if_false] at hP
      refine ⟨x, rest, Queue.mk (cnt - 1) sz rest pe false, Queue.mk (cnt - 1) sz rest pe false,
        rfl, hP, by simp [popDirect], rfl, rfl, rfl, rfl, rfl, rfl, rfl,
        fun _ => ⟨rfl, fun expired => ?_⟩, fun h => absurd h hf⟩
      simp [stepCall, popTakeStep, not_le.mpr hc, hz, hf]

/-- Witness of C13: a full queue of capacity 2, so `Pop` takes the staged
path. -/
theorem C13_pop_returns_front_on_both_paths_witness :
    (0 : Int) < (Queue.mk 2 2 [4, 5] 0 false : Queue Int).m_size ∧
    QueueInv (Queue.mk 2 2 [4, 5] 0 false : Queue Int) ∧
    (0 : Int) < (Queue.mk 2 2 [4, 5] 0 false : Queue Int).m_count ∧
    ∃ x rest q1 qd, (Queue.mk 2 2 [4, 5] 0 false : Queue Int).m_queue = x :: rest ∧
      Pop (Queue.mk 2 2 [4, 5] 0 false : Queue Int) = some (x, q1) ∧
      popDirect (Queue.mk 2 2 [4, 5] 0 false : Queue Int) = some (x, qd) ∧
      q1.m_queue = rest ∧ q1.m_count = (Queue.mk 2 2 [4, 5] 0 false : Queue Int).m_count - 1 ∧
      q1.m_isInited = false ∧
      q1.m_queue = qd.m_queue ∧ q1.m_count = qd.m_count ∧ q1.m_size = qd.m_size ∧
      q1.m_isInited = qd.m_isInited ∧
      ((Queue.mk 2 2 [4, 5] 0 false : Queue Int).m_count ≠
          (Queue.mk 2 2 [4, 5] 0 false : Queue Int).m_size → q1 = qd ∧
        ∀ expired, stepCall expired (Queue.mk 2 2 [4, 5] 0 false : Queue Int) Pc.popEntry =
          some (q1, Pc.popDone x false)) ∧
      ((Queue.mk 2 2 [4, 5] 0 false : Queue Int).m_count =
          (Queue.mk 2 2 [4, 5] 0 false : Queue Int).m_size →
        q1 = { qd with m_poppedElement := x } ∧
        ∀ expired, ∃ q2,
          stepCall expired (Queue.mk 2 2 [4, 5] 0 false : Queue Int) Pc.popEntry =
            some (q2, Pc.popStaged x) ∧
          q2 = { q1 with m_isInited := true } ∧
          stepCall expired q2 (Pc.popStaged x) = some (q1, Pc.popDone x true)) :=
  ⟨by decide, by decide, by decide,
    C13_pop_returns_front_on_both_paths (Queue.mk 2 2 [4, 5] 0 false)
      (by decide) (by decide) (by decide) rfl⟩

/-- C14: on a queue of capacity greater than 0, when the queue is full and
`m_isInited` is set, `Pop` returns the default value at once (no wait, no
notification) and leaves the whole queue as it was; when the queue holds
an element (buffer as long as the count) and is not both full and flagged,
`Pop` removes and returns the front element, in the sequential semantics
and in the locked step from either entry or wait. -/
theorem C14_staging_guard [Inhabited T] (q : Queue T) (hc : 0 < q.m_size) :
    (q.m_count = q.m_size → q.m_isInited = true →
      Pop q = some (default, q) ∧
      ∀ expired, stepCall expired q Pc.popEntry = some (q, Pc.popDone default false) ∧
        stepCall expired q Pc.popWaiting = some (q, Pc.popDone default false)) ∧
    ((q.m_queue.length : Int) = q.m_count → 0 < q.m_count →
      ¬ (q.m_count = q.m_size ∧ q.m_isInited = true) →
      ∃ x rest, q.m_queue = x :: rest ∧
        (∃ q1, Pop q = some (x, q1) ∧ q1.m_queue = rest ∧ q1.m_count = q.m_count - 1) ∧
        ∀ expired, ∃ q2 pc2, stepCall expired q Pc.popEntry = some (q2, pc2) ∧
          stepCall expired q Pc.popWaiting = some (q2, pc2) ∧
          q2.m_queue = rest ∧ q2.m_count = q.m_count - 1 ∧
          (pc2 = Pc.popDone x false ∨ pc2 = Pc.popStaged x)) := by
  constructor
  · intro hfull hflag
    have h1 : ¬ q.m_size ≤ 0 := by omega
    have h2 : ¬ q.m_size = 0 := by omega
    refine ⟨by simp [Pop, popTake, hfull, hflag, h1, h2], fun expired => ⟨?_, ?_⟩⟩ <;>
      simp [stepCall, popTakeStep, hfull, hflag, h1, h2, hc]
  · intro hlen hpos hguard
    have hz : q.m_count ≠ 0 := by omega
    obtain ⟨x, rest, q1, hq, hp, hq1, hc1, _, _⟩ := popTake_remove q hlen hz hguard
    obtain ⟨x2, rest2, q2, pc2, hq2, hp2, hq3, hc3, _, hcase⟩ :=
      popTakeStep_remove q hlen hz hguard
    rw [hq] at hq2
    obtain ⟨hx, hr⟩ := List.cons.inj hq2
    subst hx hr
    refine ⟨x, rest, hq, ⟨q1, by rw [Pop_eq_popTake q hc hz, hp], hq1, hc1⟩, fun expired => ?_⟩
    refine ⟨q2, pc2, by rw [stepCall_popEntry_take expired q hc hz, hp2],
      by rw [stepCall_popWaiting_take expired q hpos, hp2], hq3, hc3, ?_⟩
    rcases hcase with ⟨_, h, _⟩ | ⟨_, h, _⟩
    · exact Or.inl h
    · exact Or.inr h

/-- Witness of C14: a queue of capacity 1 that is full while a hand-over is
in flight is left as it is, and a queue of capacity 2 with one element and
the flag set gives up its front element. -/
theorem C14_staging_guard_witness :
    ((0 : Int) < (Queue.mk 1 1 [8] 7 true : Queue Int).m_size ∧
      (Queue.mk 1 1 [8] 7 true : Queue Int).m_count = (Queue.mk 1 1 [8] 7 true : Queue Int).m_size ∧
      (Queue.mk 1 1 [8] 7 true : Queue Int).m_isInited = true ∧
      Pop (Queue.mk 1 1 [8] 7 true : Queue Int) = some (default, Queue.mk 1 1 [8] 7 true) ∧
      ∀ expired, stepCall expired (Queue.mk 1 1 [8] 7 true : Queue Int) Pc.popEntry =
          some (Queue.mk 1 1 [8] 7 true, Pc.popDone default false) ∧
        stepCall expired (Queue.mk 1 1 [8] 7 true : Queue Int) Pc.popWaiting =
          some (Queue.mk 1 1 [8] 7 true, Pc.popDone default false)) ∧
    ((0 : Int) < (Queue.mk 1 2 [8] 7 true : Queue Int).m_size ∧
      ∃ x rest, (Queue.mk 1 2 [8] 7 true : Queue Int).m_queue = x :: rest ∧
        (∃ q1, Pop (Queue.mk 1 2 [8] 7 true : Queue Int) = some (x, q1) ∧ q1.m_queue = rest ∧
          q1.m_count = (Queue.mk 1 2 [8] 7 true : Queue Int).m_count - 1) ∧
        ∀ expired, ∃ q2 pc2,
          stepCall expired (Queue.mk 1 2 [8] 7 true : Queue Int) Pc.popEntry = some (q2, pc2) ∧
          stepCall expired (Queue.mk 1 2 [8] 7 true : Queue Int) Pc.popWaiting = some (q2, pc2) ∧
          q2.m_queue = rest ∧ q2.m_count = (Queue.mk 1 2 [8] 7 true : Queue Int).m_count - 1 ∧
          (pc2 = Pc.popDone x false ∨ pc2 = Pc.popStaged x)) :=
  ⟨⟨by decide, rfl, rfl, (C14_staging_guard (Queue.mk 1 1 [8] 7 true) (by decide)).1 rfl rfl⟩,
    ⟨by decide, (C14_staging_guard (Queue.mk 1 2 [8] 7 true) (by decide)).2
      (by decide) (by decide) (by decide)⟩⟩

/-! ## The staging flag and the notification of `Push` -/

theorem isInited_Push (q : Queue T) (x : T) : (Push q x).m_isInited = q.m_isInited := by
  unfold Push pushStore
  simp only
  split_ifs <;> rfl

theorem isInited_Pop [Inhabited T] (q q1 : Queue T) (r : T) (h : q.m_isInited = false)
    (hp : Pop q = some (r, q1)) : q1.m_isInited = false := by
  unfold Pop at hp
  simp only at hp
  have htake : popTake q = some (r, q1) → q1.m_isInited = false := by
    intro ht
    unfold popTake at ht
    simp only at ht
    split at ht
    · simp only [Option.some.injEq, Prod.mk.injEq] at ht; rw [← ht.2]; exact h
    · split at ht
      · simp at ht
      · split at ht
        · simp only [Option.some.injEq, Prod.mk.injEq] at ht; rw [← ht.2]; exact h
        · simp only [Option.some.injEq, Prod.mk.injEq] at ht; rw [← ht.2]
  split at hp
  · simp only [Option.some.injEq, Prod.mk.injEq] at hp; rw [← hp.2]; exact h
  · split at hp
    · split at hp
      · exact htake hp
      · simp only [Option.some.injEq, Prod.mk.injEq] at hp; rw [← hp.2]; exact h
    · exact htake hp

theorem isInited_stepCall_done [Inhabited T] (expired : Bool) (q q1 : Queue T) (pc pc1 : Pc T)
    (h : q.m_isInited = false) (hs : stepCall expired q pc = some (q1, pc1))
    (hd : pc1.isDone = true) : q1.m_isInited = false := by
  rcases stepCall_staging expired q q1 pc pc1 hs with
    ⟨_, _, hI, _⟩ | ⟨_, e, he, _⟩ | ⟨_, _, hI, _⟩
  · rw [hI]; exact h
  · rw [he] at hd; simp [Pc.isDone] at hd
  · exact hI

/-- C15: from a state with `m_isInited = false`, every completed `Push`
and every completed `Pop` returns with `m_isInited = false` (sequential
calls, and every atomic step that ends a call, on every branch); so in
sequential use of a fresh `Queue(c)`, `c > 0`, the flag is false after
every call and the staging guard is never in a position to fire; with
capacity 1 every `Pop` that finds an element takes the staged path, sets
the flag at the staging write and clears it before returning. -/
theorem C15_flag_false_between_calls [Inhabited T] (c : Int) (hc : 0 < c) :
    (∀ (q : Queue T) (x : T), q.m_isInited = false → (Push q x).m_isInited = false) ∧
    (∀ (q q1 : Queue T) (r : T), q.m_isInited = false → Pop q = some (r, q1) →
      q1.m_isInited = false) ∧
    (∀ (expired : Bool) (q q1 : Queue T) (pc pc1 : Pc T), q.m_isInited = false →
      stepCall expired q pc = some (q1, pc1) → pc1.isDone = true → q1.m_isInited = false) ∧
    (∀ ops : List (Op T), ∃ os q1, runOps (Queue.ctor c : Queue T) ops = some (os, q1) ∧
      q1.m_isInited = false ∧ ¬ (q1.m_count = q1.m_size ∧ q1.m_isInited = true)) ∧
    (∀ q : Queue T, SeqInv 1 q → q.m_count ≠ 0 →
      ∃ x q1, Pop q = some (x, q1) ∧ q1.m_isInited = false ∧
        ∀ expired, stepCall expired q Pc.popEntry =
            some ({ q1 with m_isInited := true }, Pc.popStaged x) ∧
          stepCall expired { q1 with m_isInited := true } (Pc.popStaged x) =
            some (q1, Pc.popDone x true)) := by
  refine ⟨fun q x h => (isInited_Push q x).trans h, fun q q1 r h hp => isInited_Pop q q1 r h hp,
    fun e q q1 pc pc1 h hs hd => isInited_stepCall_done e q q1 pc pc1 h hs hd, ?_, ?_⟩
  · intro ops
    obtain ⟨os, q1, hr, hi, _, _⟩ := runOps_refines c hc ops (Queue.ctor c) (SeqInv_ctor c hc)
    refine ⟨os, q1, hr, hi.2.2, ?_⟩
    rintro ⟨_, h2⟩
    rw [hi.2.2] at h2
    exact Bool.noConfusion h2
  · intro q hq hz
    obtain ⟨hsz, hinv, hfl⟩ := hq
    have hpos : 0 < q.m_count := lt_of_le_of_ne hinv.1 (Ne.symm hz)
    have hfull : q.m_count = q.m_size := by have := hinv.2.1; omega
    have hone : q.m_size = 1 := hsz
    cases hq : q.m_queue with
    | nil =>
      have := hinv.2.2
      rw [hq] at this
      simp only [List.length_nil] at this
      exact absurd this.symm hz
    | cons x rest =>
      have hP := Pop_of_cons q x rest (by omega) hz hfl hq
      obtain ⟨cnt, sz, buf, pe, ini⟩ := q
      simp only at hfull hfl hq hP hone hz
      subst hfl hq hfull hone
      simp only [if_true] at hP
      refine ⟨x, _, hP, rfl, fun expired => ⟨?_, ?_⟩⟩
      · simp [stepCall, popTakeStep]
      · simp [stepCall]

/-- Witness of C15: capacity 1. -/
theorem C15_flag_false_between_calls_witness :
    (0 : Int) < 1 ∧
    ((∀ (q : Queue Int) (x : Int), q.m_isInited = false → (Push q x).m_isInited = false) ∧
    (∀ (q q1 : Queue Int) (r : Int), q.m_isInited = false → Pop q = some (r, q1) →
      q1.m_isInited = false) ∧
    (∀ (expired : Bool) (q q1 : Queue Int) (pc pc1 : Pc Int), q.m_isInited = false →
      stepCall expired q pc = some (q1, pc1) → pc1.isDone = true → q1.m_isInited = false) ∧
    (∀ ops : List (Op Int), ∃ os q1, runOps (Queue.ctor 1 : Queue Int) ops = some (os, q1) ∧
      q1.m_isInited = false ∧ ¬ (q1.m_count = q1.m_size ∧ q1.m_isInited = true)) ∧
    (∀ q : Queue Int, SeqInv 1 q → q.m_count ≠ 0 →
      ∃ x q1, Pop q = some (x, q1) ∧ q1.m_isInited = false ∧
        ∀ expired, stepCall expired q Pc.popEntry =
            some ({ q1 with m_isInited := true }, Pc.popStaged x) ∧
          stepCall expired { q1 with m_isInited := true } (Pc.popStaged x) =
            some (q1, Pc.popDone x true))) :=
  ⟨by decide, C15_flag_false_between_calls 1 (by decide)⟩

theorem count_zero_iff_nil (q : Queue T) (hlen : (q.m_queue.length : Int) = q.m_count) :
    q.m_count = 0 ↔ q.m_queue = [] := by
  constructor
  · intro h
    rw [h] at hlen
    exact List.length_eq_zero.mp (by exact_mod_cast hlen)
  · intro h
    rw [h] at hlen
    simpa using hlen.symm

theorem lockHeld_append (a b : List SyncEv) :
    ∀ held : Bool, lockHeld held (a ++ b) = lockHeld (lockHeld held a) b := by
  induction a with
  | nil => intro held; rfl
  | cons e rest ih =>
    intro held
    rw [List.cons_append]
    cases e <;> simp only [lockHeld] <;> exact ih _

theorem notifiesUnlocked_append (a b : List SyncEv) :
    ∀ held : Bool, notifiesUnlocked held (a ++ b) =
      (notifiesUnlocked held a && notifiesUnlocked (lockHeld held a) b) := by
  induction a with
  | nil => intro held; simp [notifiesUnlocked, lockHeld]
  | cons e rest ih =>
    intro held
    rw [List.cons_append]
    cases e <;> simp only [notifiesUnlocked, lockHeld] <;> rw [ih] <;> simp only [Bool.and_assoc]

theorem push_step_events [Inhabited T] (expired : Bool) (q q1 : Queue T) (x : T) (pc pc1 : Pc T)
    (hpc : pc = Pc.pushEntry x ∨ pc = Pc.pushWaiting x)
    (hs : stepCall expired q pc = some (q1, pc1)) :
    (stepEvents expired q pc).count SyncEv.notifyWriting = 0 ∧
    notifiesUnlocked false (stepEvents expired q pc) = true ∧
    lockHeld false (stepEvents expired q pc) = false ∧
    ((pc1 = Pc.pushWaiting x ∧ q1 = q ∧
        (stepEvents expired q pc).count SyncEv.notifyReading = 0) ∨
      (∃ w, pc1 = Pc.pushDone false w false ∧ q1 = q ∧
        (stepEvents expired q pc).count SyncEv.notifyReading = 0) ∨
      (∃ w, pc1 = Pc.pushDone true w (decide (q.m_count = 0)) ∧
        q1 = { q with m_queue := q.m_queue ++ [x], m_count := q.m_count + 1 } ∧
        (stepEvents expired q pc).count SyncEv.notifyReading =
          if q.m_count = 0 then 1 else 0)) := by
  have hstore : ∀ w : Bool,
      (SyncEv.lock :: pushStoreEvents q).count SyncEv.notifyWriting = 0 ∧
      notifiesUnlocked false (SyncEv.lock :: pushStoreEvents q) = true ∧
      lockHeld false (SyncEv.lock :: pushStoreEvents q) = false ∧
      (SyncEv.lock :: pushStoreEvents q).count SyncEv.notifyReading =
        if q.m_count = 0 then 1 else 0 := by
    intro _
    unfold pushStoreEvents
    by_cases h0 : q.m_count = 0
    · simp [h0, notifiesUnlocked, lockHeld]
    · simp [h0, notifiesUnlocked, lockHeld]
  have hwait : ([SyncEv.lock, SyncEv.unlock].count SyncEv.notifyWriting = 0 ∧
      notifiesUnlocked false [SyncEv.lock, SyncEv.unlock] = true ∧
      lockHeld false [SyncEv.lock, SyncEv.unlock] = false) ∧
      [SyncEv.lock, SyncEv.unlock].count SyncEv.notifyReading = 0 := by decide
  rcases hpc with rfl | rfl
  · by_cases h1 : q.m_size ≤ 0
    · simp only [stepCall, h1, if_true, Option.some.injEq, Prod.mk.injEq] at hs
      obtain ⟨rfl, rfl⟩ := hs
      have hev : stepEvents expired q (Pc.pushEntry x) = [] := by simp [stepEvents, h1]
      rw [hev]
      exact ⟨rfl, rfl, rfl, Or.inr (Or.inl ⟨false, rfl, rfl, rfl⟩)⟩
    · by_cases h2 : q.m_count = q.m_size
      · have h3 : ¬ q.m_count < q.m_size := by omega
        simp only [stepCall, h1, h2, lt_irrefl, if_true, if_false, Option.some.injEq,
          Prod.mk.injEq] at hs
        obtain ⟨rfl, rfl⟩ := hs
        have hev : stepEvents expired q (Pc.pushEntry x) = [SyncEv.lock, SyncEv.unlock] := by
          simp [stepEvents, h1, h2]
        rw [hev]
        exact ⟨hwait.1.1, hwait.1.2.1, hwait.1.2.2, Or.inl ⟨rfl, rfl, hwait.2⟩⟩
      · simp only [stepCall, pushStoreStep, h1, h2, if_false, Option.some.injEq,
          Prod.mk.injEq] at hs
        obtain ⟨rfl, rfl⟩ := hs
        have hev : stepEvents expired q (Pc.pushEntry x) = SyncEv.lock :: pushStoreEvents q := by
          simp [stepEvents, h1, h2]
        rw [hev]
        obtain ⟨a, b, c, d⟩ := hstore false
        exact ⟨a, b, c, Or.inr (Or.inr ⟨false, rfl, rfl, d⟩)⟩
  · by_cases h1 : q.m_count < q.m_size
    · simp only [stepCall, pushStoreStep, h1, if_true, Option.some.injEq, Prod.mk.injEq] at hs
      obtain ⟨rfl, rfl⟩ := hs
      have hev : stepEvents expired q (Pc.pushWaiting x) = SyncEv.lock :: pushStoreEvents q := by
        simp [stepEvents, h1]
      rw [hev]
      obtain ⟨a, b, c, d⟩ := hstore true
      exact ⟨a, b, c, Or.inr (Or.inr ⟨true, rfl, rfl, d⟩)⟩
    · cases expired
      · simp only [stepCall, h1, if_false, Bool.false_eq_true, Option.some.injEq,
          Prod.mk.injEq] at hs
        obtain ⟨rfl, rfl⟩ := hs
        have hev : stepEvents false q (Pc.pushWaiting x) = [SyncEv.lock, SyncEv.unlock] := by
          simp [stepEvents, h1]
        rw [hev]
        exact ⟨hwait.1.1, hwait.1.2.1, hwait.1.2.2, Or.inl ⟨rfl, rfl, hwait.2⟩⟩
      · simp only [stepCall, h1, if_false, if_true, Option.some.injEq, Prod.mk.injEq] at hs
        obtain ⟨rfl, rfl⟩ := hs
        have hev : stepEvents true q (Pc.pushWaiting x) = [SyncEv.lock, SyncEv.unlock] := by
          simp [stepEvents, h1]
        rw [hev]
        exact ⟨hwait.1.1, hwait.1.2.1, hwait.1.2.2,
          Or.inr (Or.inl ⟨true, rfl, rfl, hwait.2⟩)⟩

theorem push_call_events [Inhabited T] (i : Nat) (x : T) (sched : List (Nat × Bool)) :
    ∀ (s s1 : Sys T) (pc : Pc T), s.calls[i]? = some pc →
      (pc = Pc.pushEntry x ∨ pc = Pc.pushWaiting x ∨ ∃ st w n, pc = Pc.pushDone st w n) →
      s.run sched = some s1 →
      ∃ pc1, s1.calls[i]? = some pc1 ∧
        (s.eventsOf i sched).count SyncEv.notifyWriting = 0 ∧
        notifiesUnlocked false (s.eventsOf i sched) = true ∧
        lockHeld false (s.eventsOf i sched) = false ∧
        (pc.isDone = true → s.eventsOf i sched = [] ∧ pc1 = pc) ∧
        (pc.isDone = false →
          (s.eventsOf i sched).count SyncEv.notifyReading = if pc1.notified = true then 1 else 0) := by
  induction sched with
  | nil =>
    intro s s1 pc hpc hkind hr
    simp only [Sys.run, Option.some.injEq] at hr
    subst hr
    refine ⟨pc, hpc, rfl, rfl, rfl, fun _ => ⟨rfl, rfl⟩, fun hd => ?_⟩
    rcases hkind with rfl | rfl | ⟨st, w, n, rfl⟩
    · rfl
    · rfl
    · simp [Pc.isDone] at hd
  | cons a rest ih =>
    intro s s1 pc hpc hkind hr
    obtain ⟨j, expired⟩ := a
    simp only [Sys.run] at hr
    cases hstep : s.step j expired with
    | none => simp [hstep] at hr
    | some s2 =>
      simp only [hstep] at hr
      by_cases hj : j = i
      · subst hj
        rcases Sys.step_cases s s2 j expired hstep with ⟨hnone, _⟩ | ⟨pc0, pcn, hpc0, hst, hcalls⟩
        · rw [hnone] at hpc; exact absurd hpc (by simp)
        rw [hpc] at hpc0
        have hpceq : pc0 = pc := (Option.some.inj hpc0).symm
        subst hpceq
        have hlt : j < s.calls.length := by
          by_contra hge
          rw [List.getElem?_eq_none (by omega)] at hpc
          simp at hpc
        have hpcn : s2.calls[j]? = some pcn := by
          rw [hcalls]; exact List.getElem?_set_self hlt
        have hev : s.eventsOf j ((j, expired) :: rest) =
            stepEvents expired s.q pc0 ++ s2.eventsOf j rest := by
          simp only [Sys.eventsOf, hpc, hstep, if_true]
        rw [hev]
        rcases hkind with hk | hk | ⟨st, w, n, hk⟩
        · -- the call is at its entry
          obtain ⟨e1, e2, e3, hcase⟩ :=
            push_step_events expired s.q s2.q x pc0 pcn (Or.inl hk) hst
          have hnd : pc0.isDone = false := by rw [hk]; rfl
          rcases hcase with ⟨h1, _, h3⟩ | ⟨w, h1, _, h3⟩ | ⟨w, h1, _, h3⟩
          · obtain ⟨pc1, g1, g2, g3, g4, _, g6⟩ :=
              ih s2 s1 pcn hpcn (Or.inr (Or.inl h1)) hr
            have hnd1 : pcn.isDone = false := by rw [h1]; rfl
            refine ⟨pc1, g1, ?_, ?_, ?_, fun hd => ?_, fun _ => ?_⟩
            · rw [List.count_append, e1, g2]
            · rw [notifiesUnlocked_append, e2, e3, g3]; rfl
            · rw [lockHeld_append, e3, g4]
            · rw [hnd] at hd; exact Bool.noConfusion hd
            · rw [List.count_append, h3, g6 hnd1, Nat.zero_add]
          · obtain ⟨pc1, g1, g2, g3, g4, g5, _⟩ :=
              ih s2 s1 pcn hpcn (Or.inr (Or.inr ⟨false, w, false, h1⟩)) hr
            have hd1 : pcn.isDone = true := by rw [h1]; rfl
            obtain ⟨g7, g8⟩ := g5 hd1
            refine ⟨pc1, g1, ?_, ?_, ?_, fun hd => ?_, fun _ => ?_⟩
            · rw [List.count_append, e1, g2]
            · rw [notifiesUnlocked_append, e2, e3, g3]; rfl
            · rw [lockHeld_append, e3, g4]
            · rw [hnd] at hd; exact Bool.noConfusion hd
            · rw [g7, List.append_nil, h3, g8, h1]; rfl
          · obtain ⟨pc1, g1, g2, g3, g4, g5, _⟩ :=
              ih s2 s1 pcn hpcn (Or.inr (Or.inr ⟨true, w, _, h1⟩)) hr
            have hd1 : pcn.isDone = true := by rw [h1]; rfl
            obtain ⟨g7, g8⟩ := g5 hd1
            refine ⟨pc1, g1, ?_, ?_, ?_, fun hd => ?_, fun _ => ?_⟩
            · rw [List.count_append, e1, g2]
            · rw [notifiesUnlocked_append, e2, e3, g3]; rfl
            · rw [lockHeld_append, e3, g4]
            · rw [hnd] at hd; exact Bool.noConfusion hd
            · rw [g7, List.append_nil, h3, g8, h1]
              simp [Pc.notified]
        · -- the call is inside its wait
          obtain ⟨e1, e2, e3, hcase⟩ :=
            push_step_events expired s.q s2.q x pc0 pcn (Or.inr hk) hst
          have hnd : pc0.isDone = false := by rw [hk]; rfl
          rcases hcase with ⟨h1, _, h3⟩ | ⟨w, h1, _, h3⟩ | ⟨w, h1, _, h3⟩
          · obtain ⟨pc1, g1, g2, g3, g4, _, g6⟩ :=
              ih s2 s1 pcn hpcn (Or.inr (Or.inl h1)) hr
            have hnd1 : pcn.isDone = false := by rw [h1]; rfl
            refine ⟨pc1, g1, ?_, ?_, ?_, fun hd => ?_, fun _ => ?_⟩
            · rw [List.count_append, e1, g2]
            · rw [notifiesUnlocked_append, e2, e3, g3]; rfl
            · rw [lockHeld_append, e3, g4]
            · rw [hnd] at hd; exact Bool.noConfusion hd
            · rw [List.count_append, h3, g6 hnd1, Nat.zero_add]
          · obtain ⟨pc1, g1, g2, g3, g4, g5, _⟩ :=
              ih s2 s1 pcn hpcn (Or.inr (Or.inr ⟨false, w, false, h1⟩)) hr
            have hd1 : pcn.isDone = true := by rw [h1]; rfl
            obtain ⟨g7, g8⟩ := g5 hd1
            refine ⟨pc1, g1, ?_, ?_, ?_, fun hd => ?_, fun _ => ?_⟩
            · rw [List.count_append, e1, g2]
            · rw [notifiesUnlocked_append, e2, e3, g3]; rfl
            · rw [lockHeld_append, e3, g4]
            · rw [hnd] at hd; exact Bool.noConfusion hd
            · rw [g7, List.append_nil, h3, g8, h1]; rfl
          · obtain ⟨pc1, g1, g2, g3, g4, g5, _⟩ :=
              ih s2 s1 pcn hpcn (Or.inr (Or.inr ⟨true, w, _, h1⟩)) hr
            have hd1 : pcn.isDone = true := by rw [h1]; rfl
            obtain ⟨g7, g8⟩ := g5 hd1
            refine ⟨pc1, g1, ?_, ?_, ?_, fun hd => ?_, fun _ => ?_⟩
            · rw [List.count_append, e1, g2]
            · rw [notifiesUnlocked_append, e2, e3, g3]; rfl
            · rw [lockHeld_append, e3, g4]
            · rw [hnd] at hd; exact Bool.noConfusion hd
            · rw [g7, List.append_nil, h3, g8, h1]
              simp [Pc.notified]
        · -- the call has returned
          rw [hk] at hst
          simp only [stepCall, Option.some.injEq, Prod.mk.injEq] at hst
          have hpcn2 : s2.calls[j]? = some (Pc.pushDone st w n) := by rw [hpcn, ← hst.2]
          obtain ⟨pc1, g1, g2, g3, g4, g5, _⟩ :=
            ih s2 s1 (Pc.pushDone st w n) hpcn2 (Or.inr (Or.inr ⟨st, w, n, rfl⟩)) hr
          obtain ⟨g7, g8⟩ := g5 rfl
          have hnil : stepEvents expired s.q pc0 = [] := by rw [hk]; rfl
          rw [hnil, List.nil_append]
          refine ⟨pc1, g1, g2, g3, g4, fun _ => ⟨g7, by rw [g8, hk]⟩, fun hd => ?_⟩
          rw [hk] at hd; simp [Pc.isDone] at hd
      · have hev : s.eventsOf i ((j, expired) :: rest) = s2.eventsOf i rest := by
          simp only [Sys.eventsOf, hj, hstep, if_false, List.nil_append]
        rw [hev]
        have hpc2 : s2.calls[i]? = some pc := by
          rcases Sys.step_cases s s2 j expired hstep with ⟨_, rfl⟩ | ⟨_, pcn, _, _, hcalls⟩
          · exact hpc
          · rw [hcalls, List.getElem?_set_ne hj]; exact hpc
        exact ih s2 s1 pc hpc2 hkind hr

theorem runAloneEvents_two [Inhabited T] (q q1 q2 : Queue T) (pc pc1 pc2 : Pc T)
    (h1 : stepCall true q pc = some (q1, pc1)) (h2 : stepCall true q1 pc1 = some (q2, pc2)) :
    runAloneEvents q pc 2 = stepEvents true q pc ++ stepEvents true q1 pc1 := by
  simp only [runAloneEvents, h1, h2, List.append_nil]

/-- C16: `Push` calls `m_readingCV.notify_one()` exactly once, after it has
released `m_mutex`, when it stored the item and the buffer was empty right
before the insertion, and sends no notification otherwise.
(1) The step that ends a `Push` (from its entry or from its wait) either
stores, appending the item to the buffer and raising the count by one, or
drops, leaving the queue as it was; its actions contain exactly one
notification of the reading condition variable when it stored into an
empty buffer and none otherwise, never one of the writing condition
variable, and every notification comes after the release of the mutex.
(2) A step that leaves the call waiting changes nothing and notifies
nobody.  (3) A `Push` run alone stores iff the queue is enabled and not
full, with the same count of notifications over the whole call.  (4) In
every interleaved run the actions of a `Push` call contain one
notification of the reading condition variable if the call returned with
its notification flag set and none otherwise, all issued without the
mutex. -/
theorem C16_push_notifies_iff_stored_into_empty [Inhabited T] (q : Queue T) (x : T)
    (hlen : (q.m_queue.length : Int) = q.m_count) :
    (∀ (expired : Bool) (pc : Pc T) (q1 : Queue T) (s w n : Bool),
      (pc = Pc.pushEntry x ∨ pc = Pc.pushWaiting x) →
      stepCall expired q pc = some (q1, Pc.pushDone s w n) →
      (s = true → q1 = pushStore q x ∧ q1.m_queue = q.m_queue ++ [x] ∧
        q1.m_count = q.m_count + 1 ∧ q1.m_size = q.m_size ∧
        q1.m_poppedElement = q.m_poppedElement ∧ q1.m_isInited = q.m_isInited) ∧
      (s = false → q1 = q ∧ n = false) ∧
      (n = true ↔ (s = true ∧ q.m_queue = [])) ∧
      (n = true ↔ (s = true ∧ q.m_count = 0)) ∧
      (s = true ∧ q.m_queue = [] →
        (stepEvents expired q pc).count SyncEv.notifyReading = 1) ∧
      (¬ (s = true ∧ q.m_queue = []) →
        (stepEvents expired q pc).count SyncEv.notifyReading = 0) ∧
      (stepEvents expired q pc).count SyncEv.notifyWriting = 0 ∧
      notifiesUnlocked false (stepEvents expired q pc) = true ∧
      lockHeld false (stepEvents expired q pc) = false) ∧
    (∀ (expired : Bool) (pc : Pc T) (q1 : Queue T) (y : T),
      (pc = Pc.pushEntry x ∨ pc = Pc.pushWaiting x) →
      stepCall expired q pc = some (q1, Pc.pushWaiting y) →
      q1 = q ∧ y = x ∧ (stepEvents expired q pc).count SyncEv.notifyReading = 0 ∧
      (stepEvents expired q pc).count SyncEv.notifyWriting = 0 ∧
      lockHeld false (stepEvents expired q pc) = false) ∧
    (∃ s w n, runAlone q (Pc.pushEntry x) 2 = some (Push q x, Pc.pushDone s w n) ∧
      (s = true ↔ (0 < q.m_size ∧ q.m_count ≠ q.m_size)) ∧
      (s = true → (Push q x).m_queue = q.m_queue ++ [x] ∧ (Push q x).m_count = q.m_count + 1) ∧
      (s = false → Push q x = q) ∧
      (n = true ↔ (s = true ∧ q.m_queue = [])) ∧
      (s = true ∧ q.m_queue = [] →
        (runAloneEvents q (Pc.pushEntry x) 2).count SyncEv.notifyReading = 1) ∧
      (¬ (s = true ∧ q.m_queue = []) →
        (runAloneEvents q (Pc.pushEntry x) 2).count SyncEv.notifyReading = 0) ∧
      (runAloneEvents q (Pc.pushEntry x) 2).count SyncEv.notifyWriting = 0 ∧
      notifiesUnlocked false (runAloneEvents q (Pc.pushEntry x) 2) = true ∧
      lockHeld false (runAloneEvents q (Pc.pushEntry x) 2) = false) ∧
    (∀ (calls : List (Pc T)) (i : Nat) (sched : List (Nat × Bool)) (s1 : Sys T),
      calls[i]? = some (Pc.pushEntry x) →
      Sys.run ({ q := q, calls := calls } : Sys T) sched = some s1 →
      ∃ pc1, s1.calls[i]? = some pc1 ∧
        (Sys.eventsOf ({ q := q, calls := calls } : Sys T) i sched).count SyncEv.notifyReading =
          (if pc1.notified = true then 1 else 0) ∧
        (Sys.eventsOf ({ q := q, calls := calls } : Sys T) i sched).count SyncEv.notifyWriting = 0 ∧
        notifiesUnlocked false (Sys.eventsOf ({ q := q, calls := calls } : Sys T) i sched) = true ∧
        lockHeld false (Sys.eventsOf ({ q := q, calls := calls } : Sys T) i sched) = false) := by
  have hnil := count_zero_iff_nil q hlen
  refine ⟨?_, ?_, ?_, ?_⟩
  · intro expired pc q1 s w n hpc hs
    obtain ⟨e1, e2, e3, hcase⟩ := push_step_events expired q q1 x pc _ hpc hs
    rcases hcase with ⟨h1, _⟩ | ⟨w1, h1, h2, h3⟩ | ⟨w1, h1, h2, h3⟩
    · exact absurd h1 (by simp)
    · simp only [Pc.pushDone.injEq] at h1
      obtain ⟨rfl, rfl, rfl⟩ := h1
      refine ⟨fun h => Bool.noConfusion h, fun _ => ⟨h2, rfl⟩, by simp, by simp,
        fun h => Bool.noConfusion h.1, fun _ => h3, e1, e2, e3⟩
    · simp only [Pc.pushDone.injEq] at h1
      obtain ⟨rfl, rfl, rfl⟩ := h1
      refine ⟨fun _ => ⟨by rw [h2]; rfl, by rw [h2], by rw [h2], by rw [h2], by rw [h2],
        by rw [h2]⟩, fun h => Bool.noConfusion h, by simp [hnil], by simp, ?_, ?_, e1, e2, e3⟩
      · rintro ⟨_, hq⟩
        rw [h3, if_pos (hnil.mpr hq)]
      · intro hne
        have : ¬ q.m_count = 0 := fun h0 => hne ⟨rfl, hnil.mp h0⟩
        rw [h3, if_neg this]
  · intro expired pc q1 y hpc hs
    obtain ⟨e1, _, e3, hcase⟩ := push_step_events expired q q1 x pc _ hpc hs
    rcases hcase with ⟨h1, h2, h3⟩ | ⟨w1, h1, _⟩ | ⟨w1, h1, _⟩
    · exact ⟨h2, Pc.pushWaiting.inj h1, h3, e1, e3⟩
    · exact absurd h1 (by simp)
    · exact absurd h1 (by simp)
  · by_cases h1 : q.m_size ≤ 0
    · have hs1 : stepCall true q (Pc.pushEntry x) = some (q, Pc.pushDone false false false) := by
        simp [stepCall, h1]
      have hev := runAloneEvents_two q q q _ _ _ hs1 rfl
      have he1 : stepEvents true q (Pc.pushEntry x) = [] := by simp [stepEvents, h1]
      rw [he1] at hev
      rw [Push_of_disabled q x h1, hev]
      refine ⟨false, false, false, runAlone_two q q q _ _ _ hs1 rfl, ?_, by simp, by simp,
        by simp, by simp, fun _ => rfl, rfl, rfl, rfl⟩
      simp only [Bool.false_eq_true, false_iff, not_and]
      intro h0; omega
    · by_cases h2 : q.m_count = q.m_size
      · have hs1 : stepCall true q (Pc.pushEntry x) = some (q, Pc.pushWaiting x) := by
          simp [stepCall, h1, h2]
        have hs2 : stepCall true q (Pc.pushWaiting x) = some (q, Pc.pushDone false true false) := by
          simp [stepCall, h2]
        have hev := runAloneEvents_two q q q _ _ _ hs1 hs2
        have he1 : stepEvents true q (Pc.pushEntry x) = [SyncEv.lock, SyncEv.unlock] := by
          simp [stepEvents, h1, h2]
        have he2 : stepEvents true q (Pc.pushWaiting x) = [SyncEv.lock, SyncEv.unlock] := by
          simp [stepEvents, h2]
        rw [he1, he2] at hev
        rw [Push_of_full q x h2, hev]
        refine ⟨false, true, false, runAlone_two q q q _ _ _ hs1 hs2, by simp [h2], by simp,
          by simp, by simp, by simp, fun _ => by decide, by decide, by decide, by decide⟩
      · have hs1 : stepCall true q (Pc.pushEntry x) =
            some (pushStore q x, Pc.pushDone true false (decide (q.m_count = 0))) := by
          simp [stepCall, pushStoreStep, h1, h2]
        have hev := runAloneEvents_two q _ _ _ _ _ hs1 rfl
        obtain ⟨e1, e2, e3, hcase⟩ :=
          push_step_events true q _ x (Pc.pushEntry x) _ (Or.inl rfl) hs1
        have he2 : stepEvents true (pushStore q x)
            (Pc.pushDone true false (decide (q.m_count = 0))) = [] := rfl
        rw [he2, List.append_nil] at hev
        rw [Push_of_ne q x (by omega) h2, hev]
        rcases hcase with ⟨h3, _⟩ | ⟨w1, h3, _⟩ | ⟨w1, _, _, h5⟩
        · exact absurd h3 (by simp)
        · exact absurd h3 (by simp)
        · refine ⟨true, false, decide (q.m_count = 0), runAlone_two q _ _ _ _ _ hs1 rfl, ?_,
            fun _ => ⟨rfl, rfl⟩, fun h => Bool.noConfusion h, by simp [hnil], ?_, ?_, e1, e2, e3⟩
          · simp only [true_iff]; exact ⟨by omega, h2⟩
          · rintro ⟨_, hq⟩
            rw [h5, if_pos (hnil.mpr hq)]
          · intro hne
            have : ¬ q.m_count = 0 := fun h0 => hne ⟨rfl, hnil.mp h0⟩
            rw [h5, if_neg this]
  · intro calls i sched s1 hpc hr
    obtain ⟨pc1, g1, g2, g3, g4, _, g6⟩ :=
      push_call_events i x sched ({ q := q, calls := calls } : Sys T) s1 (Pc.pushEntry x) hpc
        (Or.inl rfl) hr
    exact ⟨pc1, g1, g6 rfl, g2, g3, g4⟩

/-- Witness of C16: a `Push` of 5 on an empty queue of capacity 2, run
alone, and the same call raced by a `Pop` in the interleaving semantics. -/
theorem C16_push_notifies_iff_stored_into_empty_witness :
    (((Queue.ctor 2 : Queue Int).m_queue.length : Int) = (Queue.ctor 2 : Queue Int).m_count) ∧
    (∃ s w n, runAlone (Queue.ctor 2 : Queue Int) (Pc.pushEntry 5) 2 =
        some (Push (Queue.ctor 2 : Queue Int) 5, Pc.pushDone s w n) ∧
      (s = true ↔ (0 < (Queue.ctor 2 : Queue Int).m_size ∧
        (Queue.ctor 2 : Queue Int).m_count ≠ (Queue.ctor 2 : Queue Int).m_size)) ∧
      (s = true → (Push (Queue.ctor 2 : Queue Int) 5).m_queue =
          (Queue.ctor 2 : Queue Int).m_queue ++ [5] ∧
        (Push (Queue.ctor 2 : Queue Int) 5).m_count = (Queue.ctor 2 : Queue Int).m_count + 1) ∧
      (s = false → Push (Queue.ctor 2 : Queue Int) 5 = Queue.ctor 2) ∧
      (n = true ↔ (s = true ∧ (Queue.ctor 2 : Queue Int).m_queue = [])) ∧
      (s = true ∧ (Queue.ctor 2 : Queue Int).m_queue = [] →
        (runAloneEvents (Queue.ctor 2 : Queue Int) (Pc.pushEntry 5) 2).count
          SyncEv.notifyReading = 1) ∧
      (¬ (s = true ∧ (Queue.ctor 2 : Queue Int).m_queue = []) →
        (runAloneEvents (Queue.ctor 2 : Queue Int) (Pc.pushEntry 5) 2).count
          SyncEv.notifyReading = 0) ∧
      (runAloneEvents (Queue.ctor 2 : Queue Int) (Pc.pushEntry 5) 2).count
        SyncEv.notifyWriting = 0 ∧
      notifiesUnlocked false (runAloneEvents (Queue.ctor 2 : Queue Int) (Pc.pushEntry 5) 2) =
        true ∧
      lockHeld false (runAloneEvents (Queue.ctor 2 : Queue Int) (Pc.pushEntry 5) 2) = false) ∧
    (∃ pc1, ({ q := Queue.mk 0 2 [] 0 false,
               calls := [Pc.popDone 5 false, Pc.pushDone true false true] } : Sys Int).calls[1]? =
        some pc1 ∧
      (Sys.eventsOf ({ q := Queue.ctor 2, calls := [Pc.popEntry, Pc.pushEntry 5] } : Sys Int) 1
          [(0, false), (1, false), (0, true)]).count SyncEv.notifyReading =
        (if pc1.notified = true then 1 else 0) ∧
      (Sys.eventsOf ({ q := Queue.ctor 2, calls := [Pc.popEntry, Pc.pushEntry 5] } : Sys Int) 1
          [(0, false), (1, false), (0, true)]).count SyncEv.notifyWriting = 0 ∧
      notifiesUnlocked false
        (Sys.eventsOf ({ q := Queue.ctor 2, calls := [Pc.popEntry, Pc.pushEntry 5] } : Sys Int) 1
          [(0, false), (1, false), (0, true)]) = true ∧
      lockHeld false
        (Sys.eventsOf ({ q := Queue.ctor 2, calls := [Pc.popEntry, Pc.pushEntry 5] } : Sys Int) 1
          [(0, false), (1, false), (0, true)]) = false) :=
  ⟨by decide,
    (C16_push_notifies_iff_stored_into_empty (Queue.ctor 2 : Queue Int) 5 (by decide)).2.2.1,
    (C16_push_notifies_iff_stored_into_empty (Queue.ctor 2 : Queue Int) 5 (by decide)).2.2.2
      [Pc.popEntry, Pc.pushEntry 5] 1 [(0, false), (1, false), (0, true)]
      { q := Queue.mk 0 2 [] 0 false, calls := [Pc.popDone 5 false, Pc.pushDone true false true] }
      (by decide) (by decide)⟩

/-! ## `front()` is never called on an empty buffer -/

theorem len_pushStore (q : Queue T) (x : T) (hlen : (q.m_queue.length : Int) = q.m_count) :
    ((pushStore q x).m_queue.length : Int) = (pushStore q x).m_count := by
  simp only [pushStore, List.length_append, List.length_singleton]
  push_cast
  omega

theorem len_popTakeStep [Inhabited T] (q : Queue T)
    (hlen : (q.m_queue.length : Int) = q.m_count) (hpos : q.m_count ≠ 0) :
    ∃ q1 pc1, popTakeStep q = some (q1, pc1) ∧ (q1.m_queue.length : Int) = q1.m_count := by
  by_cases hguard : q.m_count = q.m_size ∧ q.m_isInited = true
  · exact ⟨q, Pc.popDone default false, by simp [popTakeStep, hguard.1, hguard.2], hlen⟩
  · obtain ⟨x, rest, q1, pc1, hq, hp, hq1, hc1, _, _⟩ := popTakeStep_remove q hlen hpos hguard
    refine ⟨q1, pc1, hp, ?_⟩
    rw [hq] at hlen
    simp only [List.length_cons] at hlen
    push_cast at hlen
    rw [hq1, hc1]
    omega

theorem len_stepCall [Inhabited T] (expired : Bool) (q : Queue T) (pc : Pc T)
    (hlen : (q.m_queue.length : Int) = q.m_count) :
    ∃ q1 pc1, stepCall expired q pc = some (q1, pc1) ∧ (q1.m_queue.length : Int) = q1.m_count := by
  have hnn : 0 ≤ q.m_count := by rw [← hlen]; exact Int.natCast_nonneg _
  cases pc with
  | pushEntry x =>
    simp only [stepCall, pushStoreStep]
    split_ifs
    · exact ⟨_, _, rfl, hlen⟩
    · exact ⟨_, _, rfl, len_pushStore q x hlen⟩
    · exact ⟨_, _, rfl, hlen⟩
    · exact ⟨_, _, rfl, len_pushStore q x hlen⟩
  | pushWaiting x =>
    simp only [stepCall, pushStoreStep]
    split_ifs
    · exact ⟨_, _, rfl, len_pushStore q x hlen⟩
    · exact ⟨_, _, rfl, hlen⟩
    · exact ⟨_, _, rfl, hlen⟩
  | pushDone s w n => exact ⟨_, _, rfl, hlen⟩
  | popEntry =>
    simp only [stepCall]
    split_ifs with h1 h2 h3
    · exact ⟨_, _, rfl, hlen⟩
    · omega
    · exact ⟨_, _, rfl, hlen⟩
    · exact len_popTakeStep q hlen h2
  | popWaiting =>
    simp only [stepCall]
    split_ifs with h1
    · exact len_popTakeStep q hlen (by omega)
    · exact ⟨_, _, rfl, hlen⟩
    · exact ⟨_, _, rfl, hlen⟩
  | popStaged e => exact ⟨_, _, rfl, hlen⟩
  | popDone r n => exact ⟨_, _, rfl, hlen⟩

theorem Sys.run_total [Inhabited T] (P : Queue T → Prop)
    (hstep : ∀ (expired : Bool) (q : Queue T) (pc : Pc T), P q →
      ∃ q1 pc1, stepCall expired q pc = some (q1, pc1) ∧ P q1)
    (sched : List (Nat × Bool)) :
    ∀ s : Sys T, P s.q → ∃ s1, s.run sched = some s1 ∧ P s1.q := by
  induction sched with
  | nil => intro s h; exact ⟨s, rfl, h⟩
  | cons a rest ih =>
    intro s h
    obtain ⟨i, expired⟩ := a
    cases hpc : s.calls[i]? with
    | none =>
      obtain ⟨s1, hs1, hP1⟩ := ih s h
      exact ⟨s1, by simp only [Sys.run, Sys.step, hpc, hs1], hP1⟩
    | some pc =>
      obtain ⟨q1, pc1, hst, hP⟩ := hstep expired s.q pc h
      obtain ⟨s1, hs1, hP1⟩ := ih { q := q1, calls := s.calls.set i pc1 } hP
      exact ⟨s1, by simp only [Sys.run, Sys.step, hpc, hst, hs1], hP1⟩

theorem popTake_isSome [Inhabited T] (q : Queue T)
    (hlen : (q.m_queue.length : Int) = q.m_count) (hpos : q.m_count ≠ 0) :
    ∃ r q1, popTake q = some (r, q1) := by
  by_cases hguard : q.m_count = q.m_size ∧ q.m_isInited = true
  · exact ⟨default, q, by simp [popTake, hguard.1, hguard.2]⟩
  · obtain ⟨x, rest, q1, _, hp, _⟩ := popTake_remove q hlen hpos hguard
    exact ⟨x, q1, hp⟩

/-- C17: for every queue whose buffer is as long as its count, `Pop`
reaches the read and removal of the front element only with `count > 0`:
on a disabled or empty queue the entry step returns or waits without
touching the queue, a wake-up with `count ≤ 0` does the same, and the
remaining cases enter lines 84-97 with `count > 0`, where the buffer is
not empty.  So `Pop`, every atomic step and every interleaved run from
such a queue succeed (the `none` branch of `front()` is never taken), and
the buffer stays as long as the count. -/
theorem C17_pop_never_reads_empty_buffer [Inhabited T] (q : Queue T)
    (hlen : (q.m_queue.length : Int) = q.m_count) :
    (∃ r q1, Pop q = some (r, q1)) ∧
    (∀ (expired : Bool) (pc : Pc T), ∃ q1 pc1, stepCall expired q pc = some (q1, pc1) ∧
      (q1.m_queue.length : Int) = q1.m_count) ∧
    (∀ expired : Bool,
      (q.m_size ≤ 0 ∨ q.m_count = 0 → ∃ pc1, stepCall expired q Pc.popEntry = some (q, pc1)) ∧
      (0 < q.m_size → q.m_count ≠ 0 →
        stepCall expired q Pc.popEntry = popTakeStep q ∧ Pop q = popTake q ∧ 0 < q.m_count) ∧
      (q.m_count ≤ 0 → ∃ pc1, stepCall expired q Pc.popWaiting = some (q, pc1)) ∧
      (0 < q.m_count → stepCall expired q Pc.popWaiting = popTakeStep q)) ∧
    (0 < q.m_count → q.m_queue ≠ [] ∧ (∃ q1 pc1, popTakeStep q = some (q1, pc1)) ∧
      ∃ r q1, popTake q = some (r, q1)) ∧
    (∀ (calls : List (Pc T)) (sched : List (Nat × Bool)),
      ∃ s, Sys.run ({ q := q, calls := calls } : Sys T) sched = some s ∧
        (s.q.m_queue.length : Int) = s.q.m_count) := by
  have hnn : 0 ≤ q.m_count := by rw [← hlen]; exact Int.natCast_nonneg _
  refine ⟨?_, fun expired pc => len_stepCall expired q pc hlen, fun expired => ⟨?_, ?_, ?_, ?_⟩,
    ?_, ?_⟩
  · by_cases h1 : q.m_size ≤ 0
    · exact ⟨default, q, Pop_of_disabled q h1⟩
    · by_cases h2 : q.m_count = 0
      · exact ⟨default, q, Pop_of_empty q h2⟩
      · rw [Pop_eq_popTake q (by omega) h2]
        exact popTake_isSome q hlen h2
  · rintro (h | h)
    · exact ⟨Pc.popDone default false, by simp [stepCall, h]⟩
    · by_cases h1 : q.m_size ≤ 0
      · exact ⟨Pc.popDone default false, by simp [stepCall, h1]⟩
      · exact ⟨Pc.popWaiting, by simp [stepCall, h1, h]⟩
  · intro h1 h2
    exact ⟨stepCall_popEntry_take expired q h1 h2, Pop_eq_popTake q h1 h2, by omega⟩
  · intro h
    have hz : ¬ q.m_count > 0 := by omega
    cases expired
    · exact ⟨Pc.popWaiting, by simp [stepCall, hz]⟩
    · exact ⟨Pc.popDone default false, by simp [stepCall, hz]⟩
  · intro h
    exact stepCall_popWaiting_take expired q h
  · intro hpos
    have hz : q.m_count ≠ 0 := by omega
    refine ⟨?_, ?_, popTake_isSome q hlen hz⟩
    · intro hnil
      rw [hnil] at hlen
      simp only [List.length_nil] at hlen
      exact hz hlen.symm
    · obtain ⟨q1, pc1, hp, _⟩ := len_popTakeStep q hlen hz
      exact ⟨q1, pc1, hp⟩
  · intro calls sched
    exact Sys.run_total (fun q : Queue T => (q.m_queue.length : Int) = q.m_count)
      (fun expired q pc h => len_stepCall expired q pc h) sched
      ({ q := q, calls := calls } : Sys T) hlen

/-- Witness of C17: a queue of capacity 2 holding one element. -/
theorem C17_pop_never_reads_empty_buffer_witness :
    (((Queue.mk 1 2 [6] 0 false : Queue Int).m_queue.length : Int) =
      (Queue.mk 1 2 [6] 0 false : Queue Int).m_count) ∧
    ((∃ r q1, Pop (Queue.mk 1 2 [6] 0 false : Queue Int) = some (r, q1)) ∧
    (∀ (expired : Bool) (pc : Pc Int),
      ∃ q1 pc1, stepCall expired (Queue.mk 1 2 [6] 0 false : Queue Int) pc = some (q1, pc1) ∧
        (q1.m_queue.length : Int) = q1.m_count) ∧
    (∀ expired : Bool,
      ((Queue.mk 1 2 [6] 0 false : Queue Int).m_size ≤ 0 ∨
          (Queue.mk 1 2 [6] 0 false : Queue Int).m_count = 0 →
        ∃ pc1, stepCall expired (Queue.mk 1 2 [6] 0 false : Queue Int) Pc.popEntry =
          some (Queue.mk 1 2 [6] 0 false, pc1)) ∧
      (0 < (Queue.mk 1 2 [6] 0 false : Queue Int).m_size →
        (Queue.mk 1 2 [6] 0 false : Queue Int).m_count ≠ 0 →
        stepCall expired (Queue.mk 1 2 [6] 0 false : Queue Int) Pc.popEntry =
            popTakeStep (Queue.mk 1 2 [6] 0 false : Queue Int) ∧
          Pop (Queue.mk 1 2 [6] 0 false : Queue Int) =
            popTake (Queue.mk 1 2 [6] 0 false : Queue Int) ∧
          0 < (Queue.mk 1 2 [6] 0 false : Queue Int).m_count) ∧
      ((Queue.mk 1 2 [6] 0 false : Queue Int).m_count ≤ 0 →
        ∃ pc1, stepCall expired (Queue.mk 1 2 [6] 0 false : Queue Int) Pc.popWaiting =
          some (Queue.mk 1 2 [6] 0 false, pc1)) ∧
      (0 < (Queue.mk 1 2 [6] 0 false : Queue Int).m_count →
        stepCall expired (Queue.mk 1 2 [6] 0 false : Queue Int) Pc.popWaiting =
          popTakeStep (Queue.mk 1 2 [6] 0 false : Queue Int))) ∧
    (0 < (Queue.mk 1 2 [6] 0 false : Queue Int).m_count →
      (Queue.mk 1 2 [6] 0 false : Queue Int).m_queue ≠ [] ∧
      (∃ q1 pc1, popTakeStep (Queue.mk 1 2 [6] 0 false : Queue Int) = some (q1, pc1)) ∧
      ∃ r q1, popTake (Queue.mk 1 2 [6] 0 false : Queue Int) = some (r, q1)) ∧
    (∀ (calls : List (Pc Int)) (sched : List (Nat × Bool)),
      ∃ s, Sys.run ({ q := Queue.mk 1 2 [6] 0 false, calls := calls } : Sys Int) sched = some s ∧
        (s.q.m_queue.length : Int) = s.q.m_count)) :=
  ⟨by decide, C17_pop_never_reads_empty_buffer (Queue.mk 1 2 [6] 0 false) (by decide)⟩

/-! ## Who writes `m_poppedElement` -/

theorem popped_Push (q : Queue T) (x : T) :
    (Push q x).m_poppedElement = q.m_poppedElement := by
  unfold Push pushStore
  simp only
  split_ifs <;> rfl

theorem popped_popTake [Inhabited T] (q q1 : Queue T) (r : T) (hp : popTake q = some (r, q1)) :
    (q.m_count ≠ q.m_size ∨ q.m_isInited = true → q1.m_poppedElement = q.m_poppedElement) ∧
    (q.m_count = q.m_size → q.m_isInited = false →
      q1.m_poppedElement = r ∧ ∃ rest, q.m_queue = r :: rest) := by
  unfold popTake at hp
  simp only at hp
  split at hp
  · rename_i hg
    simp only [Bool.and_eq_true, decide_eq_true_eq] at hg
    simp only [Option.some.injEq, Prod.mk.injEq] at hp
    obtain ⟨rfl, rfl⟩ := hp
    exact ⟨fun _ => rfl, fun _ h => by rw [hg.2] at h; exact Bool.noConfusion h⟩
  · rename_i hg
    split at hp
    · simp at hp
    · rename_i x rest hq
      split at hp
      · rename_i hnf
        simp only [Bool.not_eq_true', decide_eq_false_iff_not] at hnf
        simp only [Option.some.injEq, Prod.mk.injEq] at hp
        obtain ⟨rfl, rfl⟩ := hp
        exact ⟨fun _ => rfl, fun h _ => absurd h hnf⟩
      · rename_i hf
        simp only [Bool.not_eq_true', decide_eq_false_iff_not, not_not] at hf
        simp only [Option.some.injEq, Prod.mk.injEq] at hp
        obtain ⟨rfl, rfl⟩ := hp
        refine ⟨?_, fun _ _ => ⟨rfl, rest, hq⟩⟩
        rintro (h | h)
        · exact absurd hf h
        · simp [hf, h] at hg

theorem popped_stepCall [Inhabited T] (expired : Bool) (q q1 : Queue T) (pc pc1 : Pc T)
    (hs : stepCall expired q pc = some (q1, pc1)) :
    q1.m_poppedElement = q.m_poppedElement ∨
    ((pc = Pc.popEntry ∨ pc = Pc.popWaiting) ∧ 0 < q.m_size ∧ q.m_count = q.m_size ∧
      q.m_isInited = false ∧ pc1 = Pc.popStaged q1.m_poppedElement ∧
      q.m_queue = q1.m_poppedElement :: q1.m_queue) := by
  have htake : ∀ (hpc : pc = Pc.popEntry ∨ pc = Pc.popWaiting) (hsz : 0 < q.m_count)
      (hp : popTakeStep q = some (q1, pc1)),
      q1.m_poppedElement = q.m_poppedElement ∨
      ((pc = Pc.popEntry ∨ pc = Pc.popWaiting) ∧ 0 < q.m_size ∧ q.m_count = q.m_size ∧
        q.m_isInited = false ∧ pc1 = Pc.popStaged q1.m_poppedElement ∧
        q.m_queue = q1.m_poppedElement :: q1.m_queue) := by
    intro hpc hsz hp
    rcases popTakeStep_staging q q1 pc1 hp with ⟨_, _, h3⟩ | ⟨e, h1, h2, _, h4, h5, h6⟩
    · exact Or.inl h3
    · right
      rw [h4]
      exact ⟨hpc, by omega, h6, h2, h1, h5⟩
  cases pc with
  | pushEntry x =>
    left
    simp only [stepCall, pushStoreStep, pushStore] at hs
    split_ifs at hs <;>
    · simp only [Option.some.injEq, Prod.mk.injEq] at hs; rw [← hs.1]
  | pushWaiting x =>
    left
    simp only [stepCall, pushStoreStep, pushStore] at hs
    split_ifs at hs <;>
    · simp only [Option.some.injEq, Prod.mk.injEq] at hs; rw [← hs.1]
  | pushDone s w n =>
    left
    simp only [stepCall, Option.some.injEq, Prod.mk.injEq] at hs; rw [← hs.1]
  | popEntry =>
    simp only [stepCall] at hs
    split_ifs at hs with h1 h2 h3
    · left; simp only [Option.some.injEq, Prod.mk.injEq] at hs; rw [← hs.1]
    · omega
    · left; simp only [Option.some.injEq, Prod.mk.injEq] at hs; rw [← hs.1]
    · by_cases hpos : 0 < q.m_count
      · exact htake (Or.inl rfl) hpos hs
      · -- a negative count cannot be the capacity of an enabled queue
        rcases popTakeStep_staging q q1 pc1 hs with ⟨_, _, h3⟩ | ⟨e, _, _, _, _, _, h6⟩
        · exact Or.inl h3
        · omega
  | popWaiting =>
    simp only [stepCall] at hs
    split_ifs at hs with h1
    · exact htake (Or.inr rfl) h1 hs
    · left; simp only [Option.some.injEq, Prod.mk.injEq] at hs; rw [← hs.1]
    · left; simp only [Option.some.injEq, Prod.mk.injEq] at hs; rw [← hs.1]
  | popStaged e =>
    left
    simp only [stepCall, Option.some.injEq, Prod.mk.injEq] at hs; rw [← hs.1]
  | popDone r n =>
    left
    simp only [stepCall, Option.some.injEq, Prod.mk.injEq] at hs; rw [← hs.1]

/-- C18: `m_poppedElement` is written only by a `Pop` that removes an
element from a full queue.  `Push` leaves it as it is; so does a `Pop` on
a disabled queue, on an empty queue (timed out), from a queue that is not
full, and one rejected by the staging guard; after a sequential `Pop` from
a full queue of capacity greater than 0 with no hand-over in flight it
equals the value returned, the former front of the buffer.  In the step
semantics a step either leaves `m_poppedElement` as it is, or it is the
locked step of a `Pop` (from entry or wake-up) on a full enabled queue
with `m_isInited = false`, which stores the removed front element and
moves to the staged program point. -/
theorem C18_staged_value_written_only_by_full_pop [Inhabited T] (q : Queue T) :
    (∀ x : T, (Push q x).m_poppedElement = q.m_poppedElement) ∧
    (∀ (r : T) (q1 : Queue T), Pop q = some (r, q1) →
      (q.m_size ≤ 0 ∨ q.m_count = 0 ∨ q.m_count ≠ q.m_size ∨ q.m_isInited = true) →
      q1.m_poppedElement = q.m_poppedElement) ∧
    (∀ (r : T) (q1 : Queue T), Pop q = some (r, q1) →
      0 < q.m_size → q.m_count = q.m_size → q.m_isInited = false →
      q1.m_poppedElement = r ∧ ∃ rest, q.m_queue = r :: rest) ∧
    (∀ (expired : Bool) (pc pc1 : Pc T) (q1 : Queue T),
      stepCall expired q pc = some (q1, pc1) →
      q1.m_poppedElement = q.m_poppedElement ∨
      ((pc = Pc.popEntry ∨ pc = Pc.popWaiting) ∧ 0 < q.m_size ∧ q.m_count = q.m_size ∧
        q.m_isInited = false ∧ pc1 = Pc.popStaged q1.m_poppedElement ∧
        q.m_queue = q1.m_poppedElement :: q1.m_queue)) ∧
    (∀ (expired : Bool) (pc pc1 : Pc T) (q1 : Queue T),
      stepCall expired q pc = some (q1, pc1) →
      ((∃ x, pc = Pc.pushEntry x) ∨ (∃ x, pc = Pc.pushWaiting x) ∨ q.m_size ≤ 0 ∨
        q.m_count ≠ q.m_size ∨ q.m_isInited = true) →
      q1.m_poppedElement = q.m_poppedElement) := by
  refine ⟨popped_Push q, ?_, ?_, fun expired pc pc1 q1 hs => popped_stepCall expired q q1 pc pc1 hs,
    ?_⟩
  · intro r q1 hp hcase
    by_cases h1 : q.m_size ≤ 0
    · rw [Pop_of_disabled q h1] at hp
      simp only [Option.some.injEq, Prod.mk.injEq] at hp
      rw [← hp.2]
    · by_cases h2 : q.m_count = 0
      · rw [Pop_of_empty q h2] at hp
        simp only [Option.some.injEq, Prod.mk.injEq] at hp
        rw [← hp.2]
      · rw [Pop_eq_popTake q (by omega) h2] at hp
        rcases hcase with h | h | h | h
        · exact absurd h h1
        · exact absurd h h2
        · exact (popped_popTake q q1 r hp).1 (Or.inl h)
        · exact (popped_popTake q q1 r hp).1 (Or.inr h)
  · intro r q1 hp hsz hfull hflag
    have h2 : q.m_count ≠ 0 := by omega
    rw [Pop_eq_popTake q hsz h2] at hp
    exact (popped_popTake q q1 r hp).2 hfull hflag
  · intro expired pc pc1 q1 hs hcase
    rcases popped_stepCall expired q q1 pc pc1 hs with h | ⟨hpc, hsz, hfull, hflag, _, _⟩
    · exact h
    · rcases hcase with ⟨x, hx⟩ | ⟨x, hx⟩ | h | h | h
      · rcases hpc with h | h <;> rw [h] at hx <;> exact absurd hx (by simp)
      · rcases hpc with h | h <;> rw [h] at hx <;> exact absurd hx (by simp)
      · omega
      · exact absurd hfull h
      · rw [hflag] at h; exact Bool.noConfusion h

/-- Witness of C18: a full queue of capacity 2: a sequential `Pop` leaves
the returned front element in `m_poppedElement`. -/
theorem C18_staged_value_written_only_by_full_pop_witness :
    Pop (Queue.mk 2 2 [4, 5] 0 false : Queue Int) = some (4, Queue.mk 1 2 [5] 4 false) ∧
    (0 : Int) < (Queue.mk 2 2 [4, 5] 0 false : Queue Int).m_size ∧
    (Queue.mk 1 2 [5] 4 false : Queue Int).m_poppedElement = 4 ∧
    ∃ rest, (Queue.mk 2 2 [4, 5] 0 false : Queue Int).m_queue = 4 :: rest :=
  ⟨by decide, by decide,
    (C18_staged_value_written_only_by_full_pop (Queue.mk 2 2 [4, 5] 0 false : Queue Int)).2.2.1
      4 (Queue.mk 1 2 [5] 4 false) (by decide) (by decide) rfl rfl⟩

/-! ## The waits of a call -/

/-- A call starts to wait only in its first locked step, `Push` on a full
queue and `Pop` on an empty one, and the queue is left as it was; a step
from any later program point never leads (back) into a wait other than the
one the call is already in; and a wake-up with the timer expired ends the
wait. -/
theorem stepCall_wait_structure [Inhabited T] (expired : Bool) (q q1 : Queue T) (pc pc1 : Pc T)
    (hs : stepCall expired q pc = some (q1, pc1)) :
    ((∃ x, pc1 = Pc.pushWaiting x) →
      q1 = q ∧ ((pc = pc1 ∧ expired = false ∧ ¬ q.m_count < q.m_size) ∨
        (∃ x, pc = Pc.pushEntry x ∧ pc1 = Pc.pushWaiting x ∧ q.m_count = q.m_size))) ∧
    (pc1 = Pc.popWaiting →
      q1 = q ∧ ((pc = Pc.popWaiting ∧ expired = false ∧ ¬ q.m_count > 0) ∨
        (pc = Pc.popEntry ∧ q.m_count = 0))) := by
  have hnostage : ∀ q2 : Queue T, popTakeStep q = some (q2, pc1) →
      (∀ x, pc1 ≠ Pc.pushWaiting x) ∧ pc1 ≠ Pc.popWaiting := by
    intro q2 hp
    unfold popTakeStep at hp
    simp only at hp
    split at hp
    · simp only [Option.some.injEq, Prod.mk.injEq] at hp
      rw [← hp.2]; exact ⟨fun x => by simp, by simp⟩
    · split at hp
      · simp at hp
      · split at hp <;>
        · simp only [Option.some.injEq, Prod.mk.injEq] at hp
          rw [← hp.2]; exact ⟨fun x => by simp, by simp⟩
  cases pc with
  | pushEntry x =>
    simp only [stepCall, pushStoreStep] at hs
    split_ifs at hs with h1 h2 h3 <;>
      simp only [Option.some.injEq, Prod.mk.injEq] at hs <;>
      obtain ⟨rfl, rfl⟩ := hs <;> simp_all
  | pushWaiting x =>
    simp only [stepCall, pushStoreStep] at hs
    split_ifs at hs with h1 h2 <;>
      simp only [Option.some.injEq, Prod.mk.injEq] at hs <;>
      obtain ⟨rfl, rfl⟩ := hs <;> simp_all
  | pushDone s w n =>
    simp only [stepCall, Option.some.injEq, Prod.mk.injEq] at hs
    obtain ⟨rfl, rfl⟩ := hs
    simp
  | popEntry =>
    simp only [stepCall] at hs
    split_ifs at hs with h1 h2 h3
    · simp only [Option.some.injEq, Prod.mk.injEq] at hs
      obtain ⟨rfl, rfl⟩ := hs
      simp
    · omega
    · simp only [Option.some.injEq, Prod.mk.injEq] at hs
      obtain ⟨rfl, rfl⟩ := hs
      simp [h2]
    · obtain ⟨ha, hb⟩ := hnostage q1 hs
      exact ⟨fun ⟨x, hx⟩ => absurd hx (ha x), fun h => absurd h hb⟩
  | popWaiting =>
    simp only [stepCall] at hs
    split_ifs at hs with h1 h2
    · obtain ⟨ha, hb⟩ := hnostage q1 hs
      exact ⟨fun ⟨x, hx⟩ => absurd hx (ha x), fun h => absurd h hb⟩
    · simp only [Option.some.injEq, Prod.mk.injEq] at hs
      obtain ⟨rfl, rfl⟩ := hs
      simp
    · simp only [Option.some.injEq, Prod.mk.injEq] at hs
      obtain ⟨rfl, rfl⟩ := hs
      simp_all
  | popStaged e =>
    simp only [stepCall, Option.some.injEq, Prod.mk.injEq] at hs
    obtain ⟨rfl, rfl⟩ := hs
    simp
  | popDone r n =>
    simp only [stepCall, Option.some.injEq, Prod.mk.injEq] at hs
    obtain ⟨rfl, rfl⟩ := hs
    simp

end QueueRW
